import Mathlib

/-!
# Verification of the tsduck PSI/SI table engine specification

The repository's Python sample (`src/sample/sample-python/sample-tables.py`)
drives the tsduck table/section engine: it builds a `SectionFile`, loads
binary and XML inputs, and exports XML and JSON.  The engine itself (Section
codec, CRC engine, table reassembler, codec registry, text serializers,
`SectionFile` orchestration) is not part of the sources shipped here, so the
definitions below model it from the specification; the command-line dispatch
loop of the sample is translated directly from the Python source.

All binary data is `List Nat` with every byte `< 256`; all text is
`List Char`.
-/

set_option maxRecDepth 1000000

namespace TS

/-! ## Decimal numerals -/

/-- The decimal digit characters of `n`, least significant first
(fuel-driven; a fuel of at least `n` always suffices). -/
def natDigitsRevF : Nat → Nat → List Char
  | 0, n => [Char.ofNat (48 + n % 10)]
  | fuel + 1, n =>
    if n < 10 then [Char.ofNat (48 + n)]
    else Char.ofNat (48 + n % 10) :: natDigitsRevF fuel (n / 10)

/-- Canonical decimal rendering of a natural number. -/
def natToChars (n : Nat) : List Char := (natDigitsRevF n n).reverse

/-- Value of a decimal digit character. -/
def digitVal (c : Char) : Nat := c.toNat - 48

/-- Is `c` one of '0'..'9'? -/
def isDigitChar (c : Char) : Bool := 48 ≤ c.toNat && c.toNat ≤ 57

/-- Parse a non-empty all-digit character list as a decimal natural. -/
def parseNat (cs : List Char) : Option Nat :=
  if !cs.isEmpty && cs.all isDigitChar then
    some (cs.foldl (fun acc c => acc * 10 + digitVal c) 0)
  else none

/-! ## Hexadecimal byte dumps -/

/-- Hex digit character for a value `< 16`. -/
def hexDigit (n : Nat) : Char :=
  if n < 10 then Char.ofNat (48 + n) else Char.ofNat (65 + (n - 10))

/-- Value of a hex digit character (upper-case letters). -/
def hexVal (c : Char) : Nat :=
  if c.toNat ≤ 57 then c.toNat - 48 else c.toNat - 55

/-- Two-character hex dump of one byte. -/
def hexByte (b : Nat) : List Char := [hexDigit (b / 16), hexDigit (b % 16)]

/-- Hex dump of a byte list (two characters per byte, no separators). -/
def hexOfBytes (bs : List Nat) : List Char := bs.flatMap hexByte

/-- Parse a hex dump back into bytes; `none` on odd length or non-hex input. -/
def bytesOfHex : List Char → Option (List Nat)
  | [] => some []
  | [_] => none
  | c1 :: c2 :: rest =>
    if (c1.isDigit || (65 ≤ c1.toNat && c1.toNat ≤ 70)) &&
       (c2.isDigit || (65 ≤ c2.toNat && c2.toNat ≤ 70)) then
      (bytesOfHex rest).map (fun bs => (hexVal c1 * 16 + hexVal c2) :: bs)
    else none

/-! ## CRC Engine

Modelled from the spec: "CRC Engine — computes/validates the 32-bit checksum
used by long-form sections"; the concrete algorithm is the MPEG-2 CRC-32
(polynomial 0x04C11DB7, initial value 0xFFFFFFFF, no reflection, no final
xor), the checksum mandated for PSI/SI long sections. -/

/-- One shift step of the MPEG-2 CRC-32 register. -/
def crcStep (c : Nat) : Nat :=
  if 2 ^ 31 ≤ c then (c * 2) % 2 ^ 32 ^^^ 0x04C11DB7 else (c * 2) % 2 ^ 32

/-- Absorb one byte (8 register shifts) into the CRC register. -/
def crcByte (c b : Nat) : Nat :=
  crcStep^[8] (c ^^^ b % 256 * 2 ^ 24)

/-- MPEG-2 CRC-32 of a byte sequence. -/
def crc32 (bs : List Nat) : Nat := bs.foldl crcByte 0xFFFFFFFF

/-- Big-endian 4-byte rendering of a 32-bit checksum. -/
def crc32Bytes (c : Nat) : List Nat :=
  [c / 2 ^ 24 % 256, c / 2 ^ 16 % 256, c / 2 ^ 8 % 256, c % 256]

/-! ## Section

Modelled from the spec (§3 data model, §4.1 section codec): the atomic binary
unit of a signaling table.  `crc32Val` is the stored trailing checksum of a
long-form section (meaningful only when `isLongForm`). -/

structure Section where
  tableId : Nat
  isLongForm : Bool
  tableIdExtension : Nat
  versionNumber : Nat
  currentNext : Bool
  sectionNumber : Nat
  lastSectionNumber : Nat
  payload : List Nat
  crc32Val : Nat
deriving Repr, DecidableEq

/-- Structural validity of a `Section` (construction-time validation from
§4.1: field ranges, short-form sections carry no long-form fields, bounded
total size from §3). -/
def Section.valid (s : Section) : Bool :=
  s.tableId < 256 && s.payload.all (· < 256) &&
  (if s.isLongForm then
    s.tableIdExtension < 65536 && s.versionNumber < 32 &&
    s.sectionNumber < 256 && s.lastSectionNumber < 256 &&
    s.sectionNumber ≤ s.lastSectionNumber && 9 + s.payload.length ≤ 4093
  else
    s.tableIdExtension = 0 && s.versionNumber = 0 && s.currentNext &&
    s.sectionNumber = 0 && s.lastSectionNumber = 0 && s.crc32Val = 0 &&
    s.payload.length ≤ 4093)

/-- Binary encoding of one section, §4.1 / §6: MPEG-TS PSI/SI layout
(8-bit table id, syntax indicator, two reserved bits set, 12-bit section
length, long-form header fields, payload, trailing CRC-32 on long form).
Encoding recomputes the CRC; the stored `crc32Val` is never consulted. -/
def encodeSection (s : Section) : List Nat :=
  if s.isLongForm then
    let body := [s.tableIdExtension / 256 % 256, s.tableIdExtension % 256,
                 192 + s.versionNumber % 32 * 2 + (if s.currentNext then 1 else 0),
                 s.sectionNumber % 256, s.lastSectionNumber % 256] ++ s.payload
    let len := body.length + 4
    let pre := [s.tableId % 256, 128 + 48 + len / 256 % 16, len % 256] ++ body
    pre ++ crc32Bytes (crc32 pre)
  else
    [s.tableId % 256, 48 + s.payload.length / 256 % 16, s.payload.length % 256]
      ++ s.payload

/-- Binary decoding failures: every constructor is a `MalformedSection`
condition of §4.1 (truncation, reserved-bit violations, size bound of §3,
checksum mismatch). -/
inductive SecErr where
  | truncatedHeader
  | truncated
  | badReserved
  | lengthTooBig
  | tooShort
  | badCRC
deriving Repr, DecidableEq

/-- Decode one section from the head of `bs`: §4.1
`decode(bytes) -> (Section, bytesConsumed)`, failing with a
`MalformedSection` condition when the declared length exceeds the remaining
buffer, reserved bits violate their fixed values, the §3 size bound is
violated, or the long-form CRC does not match. -/
def decodeSection (bs : List Nat) : Except SecErr (Section × Nat) :=
  match bs with
  | b0 :: b1 :: b2 :: rest =>
    if b1 / 16 % 8 ≠ 3 then .error .badReserved
    else
      let len := b1 % 16 * 256 + b2
      if 4093 < len then .error .lengthTooBig
      else if rest.length < len then .error .truncated
      else if b1 / 128 % 2 = 1 then
        match h : rest.take len with
        | e1 :: e2 :: vb :: sn :: ln :: tail =>
          if len < 9 then .error .tooShort
          else if vb / 64 ≠ 3 then .error .badReserved
          else
            let body := tail.take (len - 9)
            let pre := b0 :: b1 :: b2 :: e1 :: e2 :: vb :: sn :: ln :: body
            if tail.drop (len - 9) ≠ crc32Bytes (crc32 pre) then .error .badCRC
            else .ok ({ tableId := b0, isLongForm := true,
                        tableIdExtension := e1 * 256 + e2,
                        versionNumber := vb / 2 % 32,
                        currentNext := vb % 2 == 1,
                        sectionNumber := sn, lastSectionNumber := ln,
                        payload := body, crc32Val := crc32 pre }, 3 + len)
        | _ => .error .tooShort
      else
        .ok ({ tableId := b0, isLongForm := false, tableIdExtension := 0,
               versionNumber := 0, currentNext := true, sectionNumber := 0,
               lastSectionNumber := 0, payload := rest.take len,
               crc32Val := 0 }, 3 + len)
  | _ => .error .truncatedHeader

/-- Fuel-driven worker for `decodeSections`; a fuel of at least `bs.length`
is always sufficient since every section consumes at least 3 bytes. -/
def decodeSectionsF : Nat → List Nat → List Section × Option SecErr
  | _, [] => ([], none)
  | 0, _ :: _ => ([], some .truncatedHeader)
  | fuel + 1, b :: bs' =>
    match decodeSection (b :: bs') with
    | .error e => ([], some e)
    | .ok (s, n) =>
      let r := decodeSectionsF fuel ((b :: bs').drop n)
      (s :: r.1, r.2)

/-- Decode a flat concatenation of sections (§6 binary file format: no outer
container).  Returns the sections decoded before the first failure, and the
failure if any; a fully well-formed blob yields `(sections, none)`. -/
def decodeSections (bs : List Nat) : List Section × Option SecErr :=
  decodeSectionsF bs.length bs

/-- Encode a section sequence as a flat binary blob. -/
def encodeSections (ss : List Section) : List Nat :=
  (ss.map encodeSection).flatten

/-! ## Structured Document Model

Modelled from the spec (§3): a generic ordered tree of named nodes with
string-keyed attributes (insertion order preserved) and ordered children,
representation-neutral between the XML and JSON surfaces. -/

inductive XNode where
  | mk (name : List Char) (attrs : List (List Char × List Char))
       (children : List XNode)
deriving Repr

def XNode.name : XNode → List Char
  | .mk n _ _ => n

def XNode.attrs : XNode → List (List Char × List Char)
  | .mk _ a _ => a

def XNode.children : XNode → List XNode
  | .mk _ _ c => c

/-! ## Text serializer A (markup / XML surface)

Modelled from the spec (§4.4): angle-bracket nested elements with quoted
attributes; attribute values are entity-escaped on output and unescaped on
input.  All parsers are fuel-driven structural recursions; a fuel equal to
the input length is always sufficient. -/

def isWSChar (c : Char) : Bool := c = ' ' || c = '\n' || c = '\t' || c = '\r'

def skipWS (cs : List Char) : List Char := cs.dropWhile isWSChar

def isNameChar (c : Char) : Bool := c.isAlphanum || c = '_'

/-- Entity-escape one character for the markup surface. -/
def escChar (c : Char) : List Char :=
  if c = '&' then "&amp;".data
  else if c = '<' then "&lt;".data
  else if c = '>' then "&gt;".data
  else if c = '"' then "&quot;".data
  else if c = '\'' then "&apos;".data
  else [c]

/-- Entity-escape an attribute value. -/
def escapeChars (s : List Char) : List Char := s.flatMap escChar

/-- Entity-unescape (fuel-driven; fuel `≥` input length suffices). -/
def unescapeF : Nat → List Char → List Char
  | 0, cs => cs
  | _ + 1, [] => []
  | fuel + 1, c :: rest =>
    if c = '&' then
      if "amp;".data.isPrefixOf rest then '&' :: unescapeF fuel (rest.drop 4)
      else if "lt;".data.isPrefixOf rest then '<' :: unescapeF fuel (rest.drop 3)
      else if "gt;".data.isPrefixOf rest then '>' :: unescapeF fuel (rest.drop 3)
      else if "quot;".data.isPrefixOf rest then '"' :: unescapeF fuel (rest.drop 5)
      else if "apos;".data.isPrefixOf rest then '\'' :: unescapeF fuel (rest.drop 5)
      else c :: unescapeF fuel rest
    else c :: unescapeF fuel rest

def unescapeChars (cs : List Char) : List Char := unescapeF cs.length cs

/-- Render the attribute list of one element. -/
def renderAttrs (attrs : List (List Char × List Char)) : List Char :=
  attrs.flatMap fun p => ' ' :: p.1 ++ '=' :: '"' :: escapeChars p.2 ++ ['"']

mutual

/-- Render one node as markup (tree-to-text-A). -/
def renderNode : XNode → List Char
  | .mk n a c =>
    '<' :: n ++ renderAttrs a ++
      (if c.isEmpty then "/>".data
       else '>' :: renderNodes c ++ '<' :: '/' :: n ++ ['>'])

/-- Render a node sequence as markup. -/
def renderNodes : List XNode → List Char
  | [] => []
  | x :: xs => renderNode x ++ renderNodes xs

end

/-- Parse the attribute list of one element; stops in front of `/` or `>`. -/
def parseAttrsF : Nat → List Char → Option (List (List Char × List Char) × List Char)
  | 0, _ => none
  | fuel + 1, cs =>
    match skipWS cs with
    | [] => none
    | c :: rest =>
      if c = '/' then some ([], c :: rest)
      else if c = '>' then some ([], c :: rest)
      else
        let nm := (c :: rest).takeWhile isNameChar
        if nm = [] then none
        else
          match (c :: rest).dropWhile isNameChar with
          | '=' :: '"' :: cs3 =>
            let raw := cs3.takeWhile (· ≠ '"')
            match cs3.dropWhile (· ≠ '"') with
            | '"' :: cs4 =>
              (parseAttrsF fuel cs4).map fun r => ((nm, unescapeChars raw) :: r.1, r.2)
            | _ => none
          | _ => none

mutual

/-- Parse one markup element (text-A-to-tree). -/
def parseNodeF : Nat → List Char → Option (XNode × List Char)
  | 0, _ => none
  | fuel + 1, cs =>
    match cs with
    | '<' :: cs1 =>
      let nm := cs1.takeWhile isNameChar
      if nm = [] then none
      else
        let cs2 := cs1.dropWhile isNameChar
        match parseAttrsF cs2.length cs2 with
        | none => none
        | some (attrs, cs3) =>
          match cs3 with
          | '/' :: '>' :: cs4 => some (.mk nm attrs [], cs4)
          | '>' :: cs4 =>
            match parseChildrenF fuel cs4 with
            | none => none
            | some (children, cs5) =>
              match cs5 with
              | '<' :: '/' :: cs6 =>
                if nm.isPrefixOf cs6 then
                  match cs6.drop nm.length with
                  | '>' :: cs7 => some (.mk nm attrs children, cs7)
                  | _ => none
                else none
              | _ => none
          | _ => none
    | _ => none

/-- Parse a sequence of sibling elements, stopping in front of a closing
tag. -/
def parseChildrenF : Nat → List Char → Option (List XNode × List Char)
  | 0, _ => none
  | fuel + 1, cs =>
    match skipWS cs with
    | '<' :: c2 :: rest =>
      if c2 = '/' then some ([], '<' :: c2 :: rest)
      else
        match parseNodeF fuel ('<' :: c2 :: rest) with
        | none => none
        | some (x, cs2) =>
          match parseChildrenF fuel cs2 with
          | none => none
          | some (xs, cs3) => some (x :: xs, cs3)
    | _ => none

end

/-- Parse a whole markup document: an optional `<? ... ?>` prolog (skipped
through its closing `>`), one root element, nothing but whitespace
afterwards. -/
def parseXMLDoc (cs : List Char) : Option XNode :=
  let cs1 := skipWS cs
  let cs2 :=
    if cs1.take 2 = ['<', '?'] then ((cs1.drop 2).dropWhile (· ≠ '>')).drop 1
    else cs1
  let cs3 := skipWS cs2
  match parseNodeF cs3.length cs3 with
  | some (root, rest) => if skipWS rest = [] then some root else none
  | none => none

/-! ## Text serializer B (object-notation / JSON surface)

Modelled from the spec (§4.4): the same node shape serialized as nested
objects, arrays for repeated children, scalar attribute values typed by
best-effort (canonical numeric strings become numbers). -/

inductive JValue where
  | num (n : Nat)
  | str (s : List Char)
  | arr (vs : List JValue)
  | obj (fields : List (List Char × JValue))
deriving Repr

def openBrace : Char := Char.ofNat 123
def closeBrace : Char := Char.ofNat 125

mutual

/-- Render a JSON value (tree-to-text-B). -/
def renderJ : JValue → List Char
  | .num n => natToChars n
  | .str s => '"' :: s ++ ['"']
  | .arr vs => '[' :: renderJItems vs ++ [']']
  | .obj fs => openBrace :: renderJFields fs ++ [closeBrace]

/-- Render comma-separated array items. -/
def renderJItems : List JValue → List Char
  | [] => []
  | [v] => renderJ v
  | v :: vs => renderJ v ++ ',' :: renderJItems vs

/-- Render comma-separated object fields. -/
def renderJFields : List (List Char × JValue) → List Char
  | [] => []
  | [f] => '"' :: f.1 ++ '"' :: ':' :: renderJ f.2
  | f :: fs => '"' :: f.1 ++ '"' :: ':' :: renderJ f.2 ++ ',' :: renderJFields fs

end

mutual

/-- Parse one JSON value (text-B-to-tree). -/
def parseJF : Nat → List Char → Option (JValue × List Char)
  | 0, _ => none
  | fuel + 1, cs =>
    match skipWS cs with
    | [] => none
    | c :: cs1 =>
      if c = '"' then
        let s := cs1.takeWhile (· ≠ '"')
        match cs1.dropWhile (· ≠ '"') with
        | '"' :: cs2 => some (.str s, cs2)
        | _ => none
      else if c = '[' then
        match cs1 with
        | [] => none
        | c2 :: cs2 =>
          if c2 = ']' then some (.arr [], cs2)
          else
            match parseJItemsF fuel (c2 :: cs2) with
            | some (vs, ']' :: cs3) => some (.arr vs, cs3)
            | _ => none
      else if c = openBrace then
        match cs1 with
        | [] => none
        | c2 :: cs2 =>
          if c2 = closeBrace then some (.obj [], cs2)
          else
            match parseJFieldsF fuel (c2 :: cs2) with
            | some (fs, c3 :: cs3) =>
              if c3 = closeBrace then some (.obj fs, cs3) else none
            | _ => none
      else if isDigitChar c then
        let ds := (c :: cs1).takeWhile isDigitChar
        (parseNat ds).map fun n => (.num n, (c :: cs1).dropWhile isDigitChar)
      else none

/-- Parse comma-separated array items, stopping in front of `]`. -/
def parseJItemsF : Nat → List Char → Option (List JValue × List Char)
  | 0, _ => none
  | fuel + 1, cs =>
    match parseJF fuel cs with
    | none => none
    | some (v, cs1) =>
      match cs1 with
      | [] => some ([v], [])
      | c :: cs2 =>
        if c = ',' then
          match parseJItemsF fuel cs2 with
          | none => none
          | some (vs, cs3) => some (v :: vs, cs3)
        else some ([v], c :: cs2)

/-- Parse comma-separated object fields, stopping in front of the closing
brace. -/
def parseJFieldsF : Nat → List Char → Option (List (List Char × JValue) × List Char)
  | 0, _ => none
  | fuel + 1, cs =>
    match cs with
    | '"' :: cs1 =>
      let k := cs1.takeWhile (· ≠ '"')
      match cs1.dropWhile (· ≠ '"') with
      | '"' :: ':' :: cs2 =>
        (match parseJF fuel cs2 with
         | none => none
         | some (v, cs3) =>
           match cs3 with
           | [] => some ([(k, v)], [])
           | c :: cs4 =>
             if c = ',' then
               match parseJFieldsF fuel cs4 with
               | none => none
               | some (fs, cs5) => some ((k, v) :: fs, cs5)
             else some ([(k, v)], c :: cs4))
      | _ => none
    | _ => none

end

/-- Parse a whole object-notation document. -/
def parseJSONDoc (cs : List Char) : Option JValue :=
  match parseJF cs.length cs with
  | some (v, rest) => if skipWS rest = [] then some v else none
  | none => none

/-- A canonical decimal numeral: non-empty, all digits, no leading zero.
Best-effort typing turns exactly these attribute values into numbers
(a numeral with a leading zero is not a valid object-notation number, so it
stays a string). -/
def canonNum (cs : List Char) : Bool :=
  cs ≠ [] && cs.all isDigitChar && (cs.head? ≠ some '0' || cs = ['0'])

/-- Decimal value of a digit list. -/
def digitsVal (cs : List Char) : Nat :=
  cs.foldl (fun acc c => acc * 10 + digitVal c) 0

/-- Best-effort typing of an attribute value (§4.4, Text-B). -/
def attrToJ (v : List Char) : JValue :=
  if canonNum v then .num (digitsVal v) else .str v

/-- Read an attribute value back from a scalar JSON value. -/
def jToAttr : JValue → Option (List Char)
  | .num n => some (natToChars n)
  | .str s => some s
  | _ => none

mutual

/-- Map a document node to its object-notation shape. -/
def docToJ : XNode → JValue
  | .mk n a c =>
    .obj (("#name".data, .str n) :: a.map (fun p => (p.1, attrToJ p.2)) ++
      (if c.isEmpty then [] else [("#nodes".data, .arr (docListToJ c))]))

/-- Map a node sequence to object-notation shapes. -/
def docListToJ : List XNode → List JValue
  | [] => []
  | x :: xs => docToJ x :: docListToJ xs

end

mutual

/-- Recover a document node from its object-notation shape. -/
def jToDoc : JValue → Option XNode
  | .obj (f0 :: rest) =>
    match f0 with
    | (k0, .str n) =>
      if k0 = "#name".data then
        match jFieldsToDoc rest with
        | some (a, c) => some (.mk n a c)
        | none => none
      else none
    | _ => none
  | _ => none

/-- Recover attributes and children from the remaining object fields: a
final `#nodes` array field carries the children; every other field is a
scalar attribute. -/
def jFieldsToDoc : List (List Char × JValue) →
    Option (List (List Char × List Char) × List XNode)
  | [] => some ([], [])
  | (k, v) :: rest =>
    match v with
    | .arr vs =>
      if rest.isEmpty && k = "#nodes".data then
        (jListToDoc vs).map (fun c => ([], c))
      else none
    | _ =>
      match jToAttr v with
      | none => none
      | some s =>
        match jFieldsToDoc rest with
        | none => none
        | some (a, c) => some ((k, s) :: a, c)

/-- Recover a node sequence from object-notation shapes. -/
def jListToDoc : List JValue → Option (List XNode)
  | [] => some []
  | v :: vs =>
    match jToDoc v with
    | none => none
    | some x =>
      match jListToDoc vs with
      | none => none
      | some xs => some (x :: xs)

end

/-! ## Error kinds and diagnostics (§6, §7) -/

/-- Graded diagnostic severities of the Report collaborator. -/
inductive Severity where
  | verbose
  | info
  | warning
  | error
deriving Repr, DecidableEq

/-- One diagnostic message handed to the Report collaborator. -/
abbrev Diag := Severity × List Char

/-- §7 error kinds surfaced by load operations. -/
inductive LoadErr where
  | malformedSection (e : SecErr)
  | unknownTableType (name : List Char)
  | textParseError
  | attributeSchemaMismatch (field : List Char)
deriving Repr, DecidableEq

/-! ## Table Reassembler

Modelled from the spec (§4.2): partition sections by
`(tableId, tableIdExtension, versionNumber)` for long form, in first-seen
order; short-form sections each form their own singleton table in encounter
order; duplicate `sectionNumber` within a group is last-seen wins. -/

/-- Do two long-form sections belong to the same logical table? -/
def sameKey (s t : Section) : Bool :=
  s.isLongForm && t.isLongForm && s.tableId == t.tableId &&
  s.tableIdExtension == t.tableIdExtension &&
  s.versionNumber == t.versionNumber

/-- Insert a section into a group: replace the entry with the same
`sectionNumber` (last-seen wins) or append. -/
def addToGroup (g : List Section) (s : Section) : List Section :=
  if g.any (fun t => t.sectionNumber == s.sectionNumber) then
    g.map fun t => if t.sectionNumber == s.sectionNumber then s else t
  else g ++ [s]

/-- Route one long-form section to its group, or open a new group at the
end. -/
def insertSection (gs : List (List Section)) (s : Section) : List (List Section) :=
  match gs with
  | [] => [[s]]
  | g :: rest =>
    if (g.head?.map (sameKey · s)).getD false then addToGroup g s :: rest
    else g :: insertSection rest s

/-- Route one section: long form joins its keyed group, short form opens a
fresh singleton group. -/
def routeSection (gs : List (List Section)) (s : Section) : List (List Section) :=
  if s.isLongForm then insertSection gs s else gs ++ [[s]]

/-- Group a section sequence into logical tables, first-seen order. -/
def reassemble (ss : List Section) : List (List Section) :=
  ss.foldl routeSection []

/-- The `lastSectionNumber` shared by a group (taken from its first
section). -/
def groupLast (g : List Section) : Nat :=
  (g.head?.map (·.lastSectionNumber)).getD 0

/-- §3 completeness: every `sectionNumber` in `[0, lastSectionNumber]`
present exactly once with consistent segmentation fields; a short-form table
is a singleton and always complete. -/
def complete (g : List Section) : Bool :=
  match g with
  | [] => false
  | s0 :: _ =>
    if s0.isLongForm then
      g.all (fun s => s.isLongForm && s.lastSectionNumber == s0.lastSectionNumber) &&
      (List.range (s0.lastSectionNumber + 1)).all
        (fun k => g.countP (fun s => s.sectionNumber == k) == 1) &&
      g.length == s0.lastSectionNumber + 1
    else g.length == 1

/-- Payloads of a complete group concatenated in `sectionNumber` order. -/
def orderedPayload (g : List Section) : List Nat :=
  ((List.range (groupLast g + 1)).filterMap
    (fun k => g.find? (fun s => s.sectionNumber == k))).flatMap (·.payload)

/-! ## Table Codec Registry (§4.3)

One registered table family — the worked example service-list table (the
PAT: fixed-width entries of a 16-bit service id and a 13-bit program-map
PID locator, `tableIdExtension` carrying the owning transport-stream id) —
plus the generic fallback codec used for unregistered table ids and orphan
(incomplete) sections, which preserves every field for lossless
round-trip. -/

/-- One service-list entry: a service identifier and its numeric locator. -/
structure SvcEntry where
  serviceId : Nat
  pmPid : Nat
deriving Repr, DecidableEq

/-- The 4-byte fixed-width wire form of one entry (3 reserved bits set). -/
def entryBytes (e : SvcEntry) : List Nat :=
  [e.serviceId / 256 % 256, e.serviceId % 256,
   224 + e.pmPid / 256 % 32, e.pmPid % 256]

/-- Pack entries sequentially into payload bytes. -/
def entriesBytes (es : List SvcEntry) : List Nat := es.flatMap entryBytes

/-- Parse a payload as a sequence of fixed-width entries (a trailing
partial entry is ignored). -/
def parseEntries : List Nat → List SvcEntry
  | b0 :: b1 :: b2 :: b3 :: rest =>
    ⟨b0 * 256 + b1, b2 % 32 * 256 + b3⟩ :: parseEntries rest
  | _ => []

/-- Maximum number of entries per section: the PSI bound (total section
size ≤ 1024, so payload ≤ 1012 bytes = 253 entries). -/
def maxEntries : Nat := 253

/-- Split a list into chunks of `k` (fuel-driven; fuel `≥` length
suffices for `k > 0`). -/
def chunksF (k : Nat) : Nat → List α → List (List α)
  | _, [] => []
  | 0, _ :: _ => []
  | fuel + 1, l => l.take k :: chunksF k fuel (l.drop k)

/-- Split a list into chunks of `k > 0`. -/
def chunks (k : Nat) (l : List α) : List (List α) := chunksF k l.length l

/-- "true"/"false" rendering of a flag attribute. -/
def boolChars (b : Bool) : List Char :=
  if b then "true".data else "false".data

/-- Build the `i`-th section of a split service-list table from its chunk
of entries. -/
def patSection (tsid ver : Nat) (cur : Bool) (last i : Nat)
    (ck : List SvcEntry) : Section :=
  { tableId := 0, isLongForm := true, tableIdExtension := tsid,
    versionNumber := ver, currentNext := cur, sectionNumber := i,
    lastSectionNumber := last, payload := entriesBytes ck, crc32Val := 0 }

/-- Number the chunks of a split table with increasing `sectionNumber`. -/
def patSectionsGo (tsid ver : Nat) (cur : Bool) (last : Nat) :
    Nat → List (List SvcEntry) → List Section
  | _, [] => []
  | i, ck :: cks =>
    patSection tsid ver cur last i ck ::
      patSectionsGo tsid ver cur last (i + 1) cks

/-- Encode logical service-list fields into one or more sections: entries
are packed sequentially and split across sections when they exceed one
section's payload capacity, with monotonically increasing `sectionNumber`
and a shared `lastSectionNumber` (§4.3). -/
def patSections (tsid ver : Nat) (cur : Bool) (es : List SvcEntry) : List Section :=
  let cks := if es.isEmpty then [[]] else chunks maxEntries es
  patSectionsGo tsid ver cur (cks.length - 1) 0 cks

/-- The document node of one service-list entry. -/
def svcNode (e : SvcEntry) : XNode :=
  .mk "service".data
    [("service_id".data, natToChars e.serviceId),
     ("program_map_PID".data, natToChars e.pmPid)] []

/-- The document node of a decoded service-list table. -/
def patNode (tsid ver : Nat) (cur : Bool) (es : List SvcEntry) : XNode :=
  .mk "PAT".data
    [("version".data, natToChars ver), ("current".data, boolChars cur),
     ("transport_stream_id".data, natToChars tsid)]
    (es.map svcNode)

/-- Decode a complete service-list table group into its document node. -/
def patDecode (g : List Section) : XNode :=
  match g with
  | [] => patNode 0 0 true []
  | s0 :: _ =>
    patNode s0.tableIdExtension s0.versionNumber s0.currentNext
      (parseEntries (orderedPayload g))

/-- Look up an attribute value on a node. -/
def lookupAttr (x : XNode) (k : List Char) : Option (List Char) :=
  (x.attrs.find? (fun p => p.1 == k)).map (·.2)

/-- Read a required numeric attribute (§7 `AttributeSchemaMismatch` when
missing or unparsable). -/
def reqNat (x : XNode) (k : List Char) : Except LoadErr Nat :=
  match lookupAttr x k with
  | none => .error (.attributeSchemaMismatch k)
  | some v =>
    match parseNat v with
    | none => .error (.attributeSchemaMismatch k)
    | some n => .ok n

/-- Read an optional numeric attribute with a default. -/
def optNat (x : XNode) (k : List Char) (dflt : Nat) : Except LoadErr Nat :=
  match lookupAttr x k with
  | none => .ok dflt
  | some v =>
    match parseNat v with
    | none => .error (.attributeSchemaMismatch k)
    | some n => .ok n

/-- Read an optional boolean attribute with a default. -/
def optBool (x : XNode) (k : List Char) (dflt : Bool) : Except LoadErr Bool :=
  match lookupAttr x k with
  | none => .ok dflt
  | some v =>
    if v = "true".data then .ok true
    else if v = "false".data then .ok false
    else .error (.attributeSchemaMismatch k)

/-- Read one service entry from a `service` child node. -/
def svcOfNode (x : XNode) : Except LoadErr SvcEntry := do
  let sid ← reqNat x "service_id".data
  let pid ← reqNat x "program_map_PID".data
  .ok ⟨sid, pid⟩

/-- Read all service entries of a table node (children that are not
`service` elements are opaque forward-compatibility subtrees and are
skipped). -/
def svcEntriesOf : List XNode → Except LoadErr (List SvcEntry)
  | [] => .ok []
  | x :: xs =>
    if x.name = "service".data then do
      let e ← svcOfNode x
      let es ← svcEntriesOf xs
      .ok (e :: es)
    else svcEntriesOf xs

/-- Encode a service-list table node into sections. -/
def patEncode (x : XNode) : Except LoadErr (List Section) := do
  let tsid ← reqNat x "transport_stream_id".data
  let ver ← optNat x "version".data 0
  let cur ← optBool x "current".data true
  let es ← svcEntriesOf x.children
  .ok (patSections tsid ver cur es)

/-- Element name of the generic fallback node. -/
def genericName : List Char := "unknown_table".data

/-- Generic fallback node for one section of an unregistered or incomplete
table: every header field and the hex-dumped payload are preserved for
lossless round-trip (§4.3). -/
def genericNode (s : Section) : XNode :=
  .mk genericName
    ([("table_id".data, natToChars s.tableId),
      ("long".data, boolChars s.isLongForm)] ++
     (if s.isLongForm then
        [("table_id_extension".data, natToChars s.tableIdExtension),
         ("version".data, natToChars s.versionNumber),
         ("current".data, boolChars s.currentNext),
         ("section_number".data, natToChars s.sectionNumber),
         ("last_section_number".data, natToChars s.lastSectionNumber)]
      else []) ++
     [("payload".data, hexOfBytes s.payload)]) []

/-- Re-encode a generic fallback node into its section. -/
def genericEncode (x : XNode) : Except LoadErr Section := do
  let tid ← reqNat x "table_id".data
  let lng ← optBool x "long".data false
  let pl ←
    match lookupAttr x "payload".data with
    | none => Except.error (.attributeSchemaMismatch "payload".data)
    | some v =>
      match bytesOfHex v with
      | none => Except.error (.attributeSchemaMismatch "payload".data)
      | some bs => Except.ok bs
  if lng then do
    let ext ← reqNat x "table_id_extension".data
    let ver ← reqNat x "version".data
    let cur ← optBool x "current".data true
    let sn ← reqNat x "section_number".data
    let ln ← reqNat x "last_section_number".data
    .ok { tableId := tid, isLongForm := true, tableIdExtension := ext,
          versionNumber := ver, currentNext := cur, sectionNumber := sn,
          lastSectionNumber := ln, payload := pl, crc32Val := 0 }
  else
    .ok { tableId := tid, isLongForm := false, tableIdExtension := 0,
          versionNumber := 0, currentNext := true, sectionNumber := 0,
          lastSectionNumber := 0, payload := pl, crc32Val := 0 }

/-- The section a generic fallback node re-encodes to: every field the
fallback renders is preserved; the stored CRC (recomputed at binary encode
time) and, for short form, the absent long-form fields are normalized. -/
def stripSec (s : Section) : Section :=
  if s.isLongForm then { s with crc32Val := 0 }
  else
    { tableId := s.tableId, isLongForm := false, tableIdExtension := 0,
      versionNumber := 0, currentNext := true, sectionNumber := 0,
      lastSectionNumber := 0, payload := s.payload, crc32Val := 0 }

/-- Numeric table ids with a registered codec. -/
def registeredIds : List Nat := [0]

/-- Element names with a registered codec (text direction of the
registry's bidirectional key mapping). -/
def registeredNames : List (List Char) := ["PAT".data, genericName]

/-- Decode one table group into document nodes: a complete group of a
registered table id through its codec, anything else through the lossless
generic fallback (decoding never fails, §4.3). -/
def decodeGroup (g : List Section) : List XNode :=
  if complete g &&
     (g.head?.map (fun s => s.isLongForm && s.tableId ∈ registeredIds)).getD false
  then [patDecode g]
  else g.map genericNode

/-- Encode one document node into sections: dispatch on the element name;
an unrecognized element name fails with `UnknownTableType` (§4.3). -/
def encodeNode (x : XNode) : Except LoadErr (List Section) :=
  if x.name = "PAT".data then patEncode x
  else if x.name = genericName then (genericEncode x).map ([·])
  else .error (.unknownTableType x.name)

/-- §4.2 invariant of one reassembled group: non-empty, and either a
key-homogeneous long-form run with distinct section numbers or a single
short-form section. -/
def coherent (g : List Section) : Prop :=
  ∃ s0 tl, g = s0 :: tl ∧
    ((s0.isLongForm = true ∧ (∀ s ∈ g, sameKey s0 s = true) ∧
        (g.map (·.sectionNumber)).Nodup) ∨
     (s0.isLongForm = false ∧ tl = []))

/-- §4.2 invariant across groups: no section of one group shares its
long-form key with a section of another. -/
def keysDisjoint (g1 g2 : List Section) : Prop :=
  ∀ s ∈ g1, ∀ t ∈ g2, sameKey s t = false

/-- The registry condition: a complete long-form group with a registered
table id decodes through its codec. -/
def regCond (g : List Section) : Bool :=
  complete g &&
    (g.head?.map (fun s => s.isLongForm && s.tableId ∈ registeredIds)).getD false

/-- The sections one exported table node re-encodes to: a complete
registered group re-packs through its codec; every other group re-encodes
section-wise through the generic fallback. -/
def reEnc (g : List Section) : List Section :=
  if complete g &&
     (g.head?.map (fun s => s.isLongForm && s.tableId ∈ registeredIds)).getD false
  then
    match g with
    | [] => []
    | s0 :: _ =>
      patSections s0.tableIdExtension s0.versionNumber s0.currentNext
        (parseEntries (orderedPayload g))
  else g.map stripSec

/-! ## SectionFile orchestration (§4.5)

The top-level aggregate owns the ordered section sequence; every load is
additive; counters are derived queries over the stored sections. -/

structure SectionFile where
  sections : List Section
deriving Repr, DecidableEq

def SectionFile.empty : SectionFile := ⟨[]⟩

/-- Derived query: number of stored sections. -/
def SectionFile.sectionsCount (f : SectionFile) : Nat := f.sections.length

/-- Derived query: total encoded size of the stored sections. -/
def SectionFile.binarySize (f : SectionFile) : Nat :=
  (f.sections.map (fun s => (encodeSection s).length)).sum

/-- Derived query: number of logical tables over the stored sections. -/
def SectionFile.tablesCount (f : SectionFile) : Nat :=
  (reassemble f.sections).length

/-- Outcome of one load call: the updated file, the diagnostics handed to
the Report collaborator, and the machine-actionable error if any. -/
structure LoadResult where
  file : SectionFile
  diags : List Diag
  err : Option LoadErr
deriving Repr, DecidableEq

/-- §4.5 `loadBinary`: decode and append; fails with `MalformedSection` on
the first undecodable section, leaving previously-appended sections intact
and emitting one Error-severity diagnostic. -/
def loadBinary (f : SectionFile) (bs : List Nat) : LoadResult :=
  let r := decodeSections bs
  { file := ⟨f.sections ++ r.1⟩,
    diags :=
      match r.2 with
      | none => []
      | some _ => [(Severity.error, "malformed section".data)],
    err := r.2.map .malformedSection }

/-- Encode top-level table nodes one by one, appending each node's sections
before moving on; a failure aborts the remaining nodes but keeps what was
already appended (§7 partial-load semantics). -/
def loadNodes (f : SectionFile) : List XNode → SectionFile × Option LoadErr
  | [] => (f, none)
  | x :: xs =>
    match encodeNode x with
    | .error e => (f, some e)
    | .ok ss => loadNodes ⟨f.sections ++ ss⟩ xs

/-- Load a parsed document into the file. -/
def loadDoc (f : SectionFile) (root : XNode) : LoadResult :=
  if root.name = "tsduck".data then
    let r := loadNodes f root.children
    { file := r.1,
      diags :=
        match r.2 with
        | none => []
        | some _ => [(Severity.error, "table encoding failed".data)],
      err := r.2 }
  else
    { file := f, diags := [(Severity.error, "unexpected root".data)],
      err := some .textParseError }

/-- §4.5 `loadXML`: parse the markup, then encode and append each table
node. -/
def loadXMLtext (f : SectionFile) (cs : List Char) : LoadResult :=
  match parseXMLDoc cs with
  | none =>
    { file := f, diags := [(Severity.error, "markup parse error".data)],
      err := some .textParseError }
  | some root => loadDoc f root

/-- §4.5 `loadJSON`: parse the object notation, map it back to a document,
then encode and append each table node. -/
def loadJSONtext (f : SectionFile) (cs : List Char) : LoadResult :=
  match (parseJSONDoc cs).bind jToDoc with
  | none =>
    { file := f, diags := [(Severity.error, "object parse error".data)],
      err := some .textParseError }
  | some root => loadDoc f root

/-- The exported document over the current sections: reassemble, decode
each table through the registry, wrap in the conventional root. -/
def docOf (f : SectionFile) : XNode :=
  .mk "tsduck".data [] ((reassemble f.sections).flatMap decodeGroup)

/-- The markup prolog emitted before the root element. -/
def xmlProlog : List Char := "<?xml version=\"1.0\" encoding=\"UTF-8\"?>\n".data

/-- §4.5 `toXML`: render the exported document as markup (read-only). -/
def toXMLchars (f : SectionFile) : List Char :=
  xmlProlog ++ renderNode (docOf f)

/-- §4.5 `toJSON`: render the exported document as object notation
(read-only). -/
def toJSONchars (f : SectionFile) : List Char :=
  renderJ (docToJ (docOf f))

/-- Method-style export call: the rendered markup together with the file
state after the call (the engine never mutates stored sections on
export). -/
def toXMLOp (f : SectionFile) : List Char × SectionFile := (toXMLchars f, f)

/-- Method-style export call for the object notation surface. -/
def toJSONOp (f : SectionFile) : List Char × SectionFile := (toJSONchars f, f)

/-! ## The sample program

Translated from `src/sample/sample-python/sample-tables.py`: the argument
loop dispatches on the filename suffix (`.xml` → `loadXML`, `.bin` →
`loadBinary`, anything else → an error diagnostic, skipped), then the
inline XML table is loaded and the file is exported as XML and JSON. -/

/-- The filesystem as the sample sees it: text content of `.xml` paths and
byte content of `.bin` paths. -/
structure Env where
  xmlFile : List Char → List Char
  binFile : List Char → List Nat

/-- One iteration of the sample's argument loop (lines 37–45). -/
def dispatchArg (env : Env) (f : SectionFile) (arg : List Char) :
    SectionFile × List Diag :=
  if ".xml".data.isSuffixOf arg then
    let r := loadXMLtext f (env.xmlFile arg)
    (r.file, (Severity.info, "loading XML file ".data ++ arg) :: r.diags)
  else if ".bin".data.isSuffixOf arg then
    let r := loadBinary f (env.binFile arg)
    (r.file, (Severity.info, "loading binary file ".data ++ arg) :: r.diags)
  else
    (f, [(Severity.error,
          "unknown file type ".data ++ arg ++ ", ignored".data)])

/-- The sample's argument loop over `sys.argv[1:]`. -/
def argLoop (env : Env) (f : SectionFile) : List (List Char) → SectionFile × List Diag
  | [] => (f, [])
  | a :: rest =>
    let r1 := dispatchArg env f a
    let r2 := argLoop env r1.1 rest
    (r2.1, r1.2 ++ r2.2)

/-- The inline XML table of the sample (lines 50–56). -/
def sampleXML : List Char :=
  ("<?xml version=\"1.0\" encoding=\"UTF-8\"?>\n" ++
   "<tsduck>\n" ++
   "  <PAT transport_stream_id=\"10\">\n" ++
   "    <service service_id=\"1\" program_map_PID=\"100\"/>\n" ++
   "    <service service_id=\"2\" program_map_PID=\"200\"/>\n" ++
   "  </PAT>\n" ++
   "</tsduck>").data

/-! ## Well-formedness of documents for the text serializers

The serializer round-trip theorems are stated over well-formed documents
(the shape the Table Codec Registry produces): element and attribute names
are non-empty runs of name characters, attribute values contain no markup
metacharacters. -/

/-- Is `s` a non-empty run of name characters? -/
def goodNameChars (s : List Char) : Bool := !s.isEmpty && s.all isNameChar

/-- May `c` appear unescaped in an attribute value? -/
def goodValueChar (c : Char) : Bool :=
  !(c = '&' || c = '<' || c = '>' || c = '"' || c = '\'')

/-- May the value appear unescaped? -/
def goodValue (s : List Char) : Bool := s.all goodValueChar

/-- One well-formed attribute. -/
def attrOK (p : List Char × List Char) : Bool :=
  goodNameChars p.1 && goodValue p.2

mutual

/-- Well-formedness of a document node. -/
def docWF : XNode → Bool
  | .mk n a c => goodNameChars n && a.all attrOK && docListWF c

/-- Well-formedness of a node sequence. -/
def docListWF : List XNode → Bool
  | [] => true
  | x :: xs => docWF x && docListWF xs

end

/-- May `s` appear as an unescaped object-notation string? -/
def jStrOK (s : List Char) : Bool := s.all (fun c => !(c = '"'))

mutual

/-- Well-formedness of an object-notation value. -/
def jWF : JValue → Bool
  | .num _ => true
  | .str s => jStrOK s
  | .arr vs => jListWF vs
  | .obj fs => jFieldsWF fs

/-- Well-formedness of an item sequence. -/
def jListWF : List JValue → Bool
  | [] => true
  | v :: vs => jWF v && jListWF vs

/-- Well-formedness of a field sequence. -/
def jFieldsWF : List (List Char × JValue) → Bool
  | [] => true
  | f :: fs => jStrOK f.1 && jWF f.2 && jFieldsWF fs

end

/-- Does `needle` occur contiguously inside `hay`? -/
def hasInfix (needle : List Char) (hay : List Char) : Bool :=
  match hay with
  | [] => needle.isEmpty
  | _ :: rest => needle.isPrefixOf hay || hasInfix needle rest

/-- Observable outcome of one sample run. -/
structure ProgResult where
  finalFile : SectionFile
  usagePrinted : Bool
  diags : List Diag
  xmlOut : List Char
  jsonOut : List Char
deriving Repr

/-- The whole sample run on `sys.argv[1:]`: optional usage line, argument
loop, inline XML load, XML and JSON exports. -/
def mainProgram (env : Env) (args : List (List Char)) : ProgResult :=
  let r1 := argLoop env SectionFile.empty args
  let r2 := loadXMLtext r1.1 sampleXML
  { finalFile := r2.file, usagePrinted := args.isEmpty,
    diags := r1.2 ++ r2.diags,
    xmlOut := toXMLchars r2.file, jsonOut := toJSONchars r2.file }

/-- Concrete short-form sample section used by the closed witnesses. -/
def wShort : Section :=
  { tableId := 114, isLongForm := false, tableIdExtension := 0,
    versionNumber := 0, currentNext := true, sectionNumber := 0,
    lastSectionNumber := 0, payload := [171], crc32Val := 0 }

/-- Concrete long-form sample section used by the closed witnesses. -/
def wLong : Section :=
  { tableId := 0, isLongForm := true, tableIdExtension := 10,
    versionNumber := 0, currentNext := true, sectionNumber := 0,
    lastSectionNumber := 0, payload := [0, 1, 224, 100, 0, 2, 224, 200],
    crc32Val := 0 }

/-- Concrete well-formed binary blob used by the closed witnesses. -/
def wBlob : List Nat := encodeSections [wShort, wLong]

/-- A loadable input: one of the three source representations (§4.5). -/
inductive Input where
  | bin (bs : List Nat)
  | xml (cs : List Char)
  | json (cs : List Char)

/-- Uniform load dispatch over the three representations. -/
def loadInput (f : SectionFile) : Input → LoadResult
  | .bin bs => loadBinary f bs
  | .xml cs => loadXMLtext f cs
  | .json cs => loadJSONtext f cs

/-- A concretely truncated blob: declared section length 5 with only one
byte remaining. -/
def wTrunc : List Nat := [114, 48, 5, 1]

/-- Concrete environment for the sample-program witnesses. -/
def wEnv : Env := { xmlFile := fun _ => sampleXML, binFile := fun _ => wBlob }

/-- Concrete single-section file used by the export witnesses. -/
def wFile : SectionFile := ⟨[wLong]⟩

/-! # Proof development -/

/-! ## Section codec: decoding is a section-exact inverse of encoding -/

@[simp] theorem XNode.name_mk (n a c) : (XNode.mk n a c).name = n := rfl
@[simp] theorem XNode.attrs_mk (n a c) : (XNode.mk n a c).attrs = a := rfl
@[simp] theorem XNode.children_mk (n a c) : (XNode.mk n a c).children = c := rfl

/-- A successful single-section decode consumes between 3 bytes and the
whole buffer. -/
theorem decodeSection_consumed {bs : List Nat} {s : Section} {n : Nat}
    (h : decodeSection bs = .ok (s, n)) : 3 ≤ n ∧ n ≤ bs.length := by
  match bs with
  | [] => simp [decodeSection] at h
  | [_] => simp [decodeSection] at h
  | [_, _] => simp [decodeSection] at h
  | b0 :: b1 :: b2 :: rest =>
    simp only [decodeSection] at h
    split at h
    · exact absurd h (by simp)
    · split at h
      · exact absurd h (by simp)
      · split at h
        · exact absurd h (by simp)
        · split at h
          · split at h
            · split at h
              · exact absurd h (by simp)
              · split at h
                · exact absurd h (by simp)
                · split at h
                  · exact absurd h (by simp)
                  · simp only [Except.ok.injEq, Prod.mk.injEq] at h
                    obtain ⟨-, rfl⟩ := h
                    simp only [List.length_cons]
                    omega
            · exact absurd h (by simp)
          · simp only [Except.ok.injEq, Prod.mk.injEq] at h
            obtain ⟨-, rfl⟩ := h
            simp only [List.length_cons]
            omega


/-- A byte decoded from a valid buffer re-encodes to the very bytes it was
decoded from: the binary layout has no redundancy beyond the checked fixed
bits, so `encode ∘ decode` reproduces the consumed prefix exactly. -/
theorem decodeSection_reencode {bs : List Nat} {s : Section} {n : Nat}
    (hall : ∀ b ∈ bs, b < 256) (h : decodeSection bs = .ok (s, n)) :
    encodeSection s = bs.take n := by
  match bs with
  | [] => simp [decodeSection] at h
  | [_] => simp [decodeSection] at h
  | [_, _] => simp [decodeSection] at h
  | b0 :: b1 :: b2 :: rest =>
    have hb0 : b0 < 256 := hall b0 (by simp)
    have hb1 : b1 < 256 := hall b1 (by simp)
    have hb2 : b2 < 256 := hall b2 (by simp)
    simp only [decodeSection] at h
    split at h
    · exact absurd h (by simp)
    next hres =>
    split at h
    · exact absurd h (by simp)
    next hlen =>
    split at h
    · exact absurd h (by simp)
    next hfit =>
    push_neg at hfit
    split at h
    next hlong =>
      -- long form
      split at h
      next e1 e2 vb sn ln tail htake =>
        have hlen5 : (rest.take (b1 % 16 * 256 + b2)).length = b1 % 16 * 256 + b2 := by
          simp [List.length_take]
          omega
        have htail : tail.length = b1 % 16 * 256 + b2 - 5 := by
          rw [htake] at hlen5
          simp at hlen5
          omega
        have hmem : ∀ x ∈ rest.take (b1 % 16 * 256 + b2), x < 256 := by
          intro x hx
          have hx2 := List.take_subset _ _ hx
          exact hall x (by simp [hx2])
        have he1 : e1 < 256 := hmem e1 (by rw [htake]; simp)
        have he2 : e2 < 256 := hmem e2 (by rw [htake]; simp)
        have hvb : vb < 256 := hmem vb (by rw [htake]; simp)
        have hsn : sn < 256 := hmem sn (by rw [htake]; simp)
        have hln : ln < 256 := hmem ln (by rw [htake]; simp)
        split at h
        · exact absurd h (by simp)
        next hlen9 =>
        split at h
        · exact absurd h (by simp)
        next hres5 =>
        split at h
        · exact absurd h (by simp)
        next hcrc =>
        push_neg at hlen9 hres5 hcrc
        simp only [Except.ok.injEq, Prod.mk.injEq] at h
        obtain ⟨hs, hn⟩ := h
        subst hs hn
        simp only [encodeSection, if_pos trivial]
        have hbody : (tail.take (b1 % 16 * 256 + b2 - 9)).length
            = b1 % 16 * 256 + b2 - 9 := by
          simp [List.length_take]
          omega
        -- reconstruct each header byte
        have hfe1 : (e1 * 256 + e2) / 256 % 256 = e1 := by omega
        have hfe2 : (e1 * 256 + e2) % 256 = e2 := by omega
        have hfvb : 192 + vb / 2 % 32 % 32 * 2 +
            (if (vb % 2 == 1) = true then 1 else 0) = vb := by
          rcases Nat.mod_two_eq_zero_or_one vb with h2 | h2 <;> simp [h2] <;> omega
        rw [hfe1, hfe2, hfvb, Nat.mod_eq_of_lt hsn, Nat.mod_eq_of_lt hln,
            Nat.mod_eq_of_lt hb0]
        have hL : ([e1, e2, vb, sn, ln] ++ tail.take (b1 % 16 * 256 + b2 - 9)).length + 4
            = b1 % 16 * 256 + b2 := by
          simp [hbody]
          omega
        rw [hL]
        have hfb1 : 128 + 48 + (b1 % 16 * 256 + b2) / 256 % 16 = b1 := by omega
        have hfb2 : (b1 % 16 * 256 + b2) % 256 = b2 := by omega
        have htk : (b0 :: b1 :: b2 :: rest).take (3 + (b1 % 16 * 256 + b2))
            = b0 :: b1 :: b2 :: rest.take (b1 % 16 * 256 + b2) := by
          have h3 : 3 + (b1 % 16 * 256 + b2) = (b1 % 16 * 256 + b2) + 3 := by omega
          rw [h3]
          simp [List.take_succ_cons]
        have hts : tail = tail.take (b1 % 16 * 256 + b2 - 9) ++
            crc32Bytes (crc32 (b0 :: b1 :: b2 :: e1 :: e2 :: vb :: sn :: ln ::
              tail.take (b1 % 16 * 256 + b2 - 9))) := by
          rw [← hcrc]
          exact (List.take_append_drop _ _).symm
        rw [hfb1, hfb2, htk, htake]
        conv_rhs => rw [hts]
        simp
      next hnomatch =>
        -- the 5 header bytes must be present when the length fits: with
        -- `len ≥ rest.length`-fit the take cannot be shorter than 5 unless len < 5,
        -- in which case decode errors (this branch returns an error)
        exact absurd h (by simp)
    next hshort =>
      -- short form
      simp only [Except.ok.injEq, Prod.mk.injEq] at h
      obtain ⟨hs, hn⟩ := h
      subst hs hn
      simp only [encodeSection, if_neg Bool.false_ne_true]
      have hplen : (rest.take (b1 % 16 * 256 + b2)).length = b1 % 16 * 256 + b2 := by
        simp [List.length_take]
        omega
      have hfb1 : 48 + (b1 % 16 * 256 + b2) / 256 % 16 = b1 := by omega
      have hfb2 : (b1 % 16 * 256 + b2) % 256 = b2 := by omega
      have htk : (b0 :: b1 :: b2 :: rest).take (3 + (b1 % 16 * 256 + b2))
          = b0 :: b1 :: b2 :: rest.take (b1 % 16 * 256 + b2) := by
        have h3 : 3 + (b1 % 16 * 256 + b2) = (b1 % 16 * 256 + b2) + 3 := by omega
        rw [h3]
        simp [List.take_succ_cons]
      rw [htk]
      rw [hplen, hfb1, hfb2, Nat.mod_eq_of_lt hb0]
      simp

/-- Re-encoding every section decoded from a fully well-formed blob
reproduces the blob byte for byte (fuel-general form). -/
theorem decodeSectionsF_reencode : ∀ (fuel : Nat) (bs : List Nat),
    bs.length ≤ fuel → (∀ b ∈ bs, b < 256) →
    (decodeSectionsF fuel bs).2 = none →
    encodeSections (decodeSectionsF fuel bs).1 = bs := by
  intro fuel
  induction fuel with
  | zero =>
    intro bs hlen _ _
    have hnil : bs = [] := List.eq_nil_of_length_eq_zero (by omega)
    subst hnil
    simp [decodeSectionsF, encodeSections]
  | succ fuel ih =>
    intro bs hlen hall hok
    match bs with
    | [] => simp [decodeSectionsF, encodeSections]
    | b :: bs' =>
      cases hd : decodeSection (b :: bs') with
      | error e => simp [decodeSectionsF, hd] at hok
      | ok p =>
        obtain ⟨s, n⟩ := p
        have hcons := decodeSection_consumed hd
        have hre := decodeSection_reencode hall hd
        simp only [decodeSectionsF, hd] at hok ⊢
        have hih : encodeSections (decodeSectionsF fuel ((b :: bs').drop n)).1
            = (b :: bs').drop n := by
          refine ih _ ?_ (fun x hx => hall x (List.drop_subset _ _ hx)) hok
          obtain ⟨h3, hle⟩ := hcons
          simp only [List.length_cons] at hle hlen
          simp only [List.length_drop, List.length_cons]
          omega
        show encodeSection s ++ encodeSections (decodeSectionsF fuel ((b :: bs').drop n)).1
            = b :: bs'
        rw [hre, hih, List.take_append_drop]

/-- C1: for every well-formed binary blob `B`, decoding `B`, re-encoding
the resulting sections, and decoding again yields sections structurally
equal to the first decode: `decode(encode(decode(B))) = decode(B)`. -/
theorem decode_encode_decode_eq (B : List Nat)
    (hB : ∀ b ∈ B, b < 256) (hok : (decodeSections B).2 = none) :
    decodeSections (encodeSections (decodeSections B).1) = decodeSections B := by
  have he : encodeSections (decodeSections B).1 = B :=
    decodeSectionsF_reencode B.length B le_rfl hB hok
  rw [he]

/-- C1 witness: the round trip at a concrete two-section blob. -/
theorem decode_encode_decode_eq_witness :
    (∀ b ∈ wBlob, b < 256) ∧ (decodeSections wBlob).2 = none ∧
    decodeSections (encodeSections (decodeSections wBlob).1) = decodeSections wBlob :=
  ⟨by decide, by decide, decode_encode_decode_eq wBlob (by decide) (by decide)⟩

/-- C3: every long-form section produced by `encode` stores as its trailing
CRC field exactly the CRC-32 recomputed over the preceding encoded bytes,
and `encode` never consults the caller-supplied stored CRC value. -/
theorem encode_recomputes_crc (s : Section) (h : s.isLongForm = true) :
    (∀ c, encodeSection { s with crc32Val := c } = encodeSection s) ∧
    (encodeSection s).drop ((encodeSection s).length - 4) =
      crc32Bytes (crc32 ((encodeSection s).take ((encodeSection s).length - 4))) := by
  constructor
  · intro c
    rfl
  · have key : ∀ (pre : List Nat),
        (pre ++ crc32Bytes (crc32 pre)).drop ((pre ++ crc32Bytes (crc32 pre)).length - 4) =
          crc32Bytes (crc32 ((pre ++ crc32Bytes (crc32 pre)).take
            ((pre ++ crc32Bytes (crc32 pre)).length - 4))) := by
      intro pre
      have hlen : (pre ++ crc32Bytes (crc32 pre)).length - 4 = pre.length := by
        simp [crc32Bytes]
      rw [hlen, List.drop_left, List.take_left]
    simp only [encodeSection, h, if_true]
    exact key _

/-- C3 witness: the CRC self-consistency at the concrete long section. -/
theorem encode_recomputes_crc_witness :
    wLong.isLongForm = true ∧
    ((∀ c, encodeSection { wLong with crc32Val := c } = encodeSection wLong) ∧
      (encodeSection wLong).drop ((encodeSection wLong).length - 4) =
        crc32Bytes (crc32 ((encodeSection wLong).take ((encodeSection wLong).length - 4)))) :=
  ⟨by decide, encode_recomputes_crc wLong (by decide)⟩

/-! ## SectionFile: additive loads, derived counters, error handling -/

/-- The sections appended by encoding a node list do not depend on the
sections already stored, and neither does the resulting error. -/
theorem loadNodes_shift (xs : List XNode) : ∀ (f : SectionFile),
    (loadNodes f xs).1.sections
      = f.sections ++ (loadNodes SectionFile.empty xs).1.sections ∧
    (loadNodes f xs).2 = (loadNodes SectionFile.empty xs).2 := by
  induction xs with
  | nil =>
    intro f
    simp [loadNodes, SectionFile.empty]
  | cons x xs ih =>
    intro f
    cases he : encodeNode x with
    | error e => simp [loadNodes, he, SectionFile.empty]
    | ok ss =>
      simp only [loadNodes, he]
      have h1 := ih ⟨f.sections ++ ss⟩
      have h2 := ih ⟨SectionFile.empty.sections ++ ss⟩
      refine ⟨?_, ?_⟩
      · rw [h1.1, h2.1]
        simp [SectionFile.empty]
      · rw [h1.2, h2.2]

/-- The sections contributed by any load are independent of the sections
already stored (loads append, they never replace). -/
theorem loadInput_shift (i : Input) (f : SectionFile) :
    (loadInput f i).file.sections
      = f.sections ++ (loadInput SectionFile.empty i).file.sections ∧
    (loadInput f i).err = (loadInput SectionFile.empty i).err := by
  cases i with
  | bin bs => simp [loadInput, loadBinary, SectionFile.empty]
  | xml cs =>
    simp only [loadInput, loadXMLtext]
    cases hp : parseXMLDoc cs with
    | none => simp [SectionFile.empty]
    | some root =>
      simp only [loadDoc]
      by_cases hr : root.name = "tsduck".data
      · simp only [hr, if_pos rfl]
        exact loadNodes_shift root.children f
      · simp [hr, SectionFile.empty]
  | json cs =>
    simp only [loadInput, loadJSONtext]
    cases hp : (parseJSONDoc cs).bind jToDoc with
    | none => simp [SectionFile.empty]
    | some root =>
      simp only [loadDoc]
      by_cases hr : root.name = "tsduck".data
      · simp only [hr, if_pos rfl]
        exact loadNodes_shift root.children f
      · simp [hr, SectionFile.empty]

/-- C5: loads are additive, never replacing — loading `A` then `B` appends
exactly the sections contributed by `A` and then by `B`, so `sectionsCount`
is the sum of both contributions; and all three counters are computed on
demand from the currently stored sections (they agree on any two files
holding the same sections, there is no independent cache to go stale). -/
theorem additive_load (f : SectionFile) (A B : Input) :
    (loadInput (loadInput f A).file B).file.sections
        = f.sections ++ (loadInput SectionFile.empty A).file.sections
            ++ (loadInput SectionFile.empty B).file.sections ∧
    (loadInput (loadInput f A).file B).file.sectionsCount
        = f.sectionsCount + (loadInput SectionFile.empty A).file.sectionsCount
            + (loadInput SectionFile.empty B).file.sectionsCount ∧
    (∀ g h : SectionFile, g.sections = h.sections →
      g.binarySize = h.binarySize ∧ g.sectionsCount = h.sectionsCount ∧
        g.tablesCount = h.tablesCount) := by
  have hA := (loadInput_shift A f).1
  have hB := (loadInput_shift B (loadInput f A).file).1
  refine ⟨?_, ?_, ?_⟩
  · rw [hB, hA, List.append_assoc]
  · simp only [SectionFile.sectionsCount, hB, hA, List.length_append]
    try omega
  · intro g h hgh
    exact ⟨by simp [SectionFile.binarySize, hgh],
           by simp [SectionFile.sectionsCount, hgh],
           by simp [SectionFile.tablesCount, hgh]⟩

/-- C5 witness: additive counts at a concrete file and two concrete
loads. -/
theorem additive_load_witness :
    ((loadInput (loadInput wFile (.bin wBlob)).file (.xml sampleXML)).file.sections
        = wFile.sections ++ (loadInput SectionFile.empty (.bin wBlob)).file.sections
            ++ (loadInput SectionFile.empty (.xml sampleXML)).file.sections) ∧
    ((loadInput (loadInput wFile (.bin wBlob)).file (.xml sampleXML)).file.sectionsCount
        = wFile.sectionsCount
            + (loadInput SectionFile.empty (.bin wBlob)).file.sectionsCount
            + (loadInput SectionFile.empty (.xml sampleXML)).file.sectionsCount) ∧
    (wFile.binarySize = wFile.binarySize ∧ wFile.sectionsCount = wFile.sectionsCount ∧
      wFile.tablesCount = wFile.tablesCount) :=
  ⟨(additive_load wFile (.bin wBlob) (.xml sampleXML)).1,
   (additive_load wFile (.bin wBlob) (.xml sampleXML)).2.1,
   (additive_load wFile (.bin wBlob) (.xml sampleXML)).2.2 wFile wFile rfl⟩

/-- C6: a load whose decode fails appends exactly the sections decoded
before the failure (zero from the failing section onward), reports
`MalformedSection`, and emits exactly one Error-severity diagnostic; if the
very first section is undecodable, zero sections are appended. -/
theorem loadBinary_malformed (f : SectionFile) (B : List Nat) (e : SecErr)
    (h : (decodeSections B).2 = some e) :
    (loadBinary f B).file.sections = f.sections ++ (decodeSections B).1 ∧
    (loadBinary f B).err = some (.malformedSection e) ∧
    (loadBinary f B).diags = [(Severity.error, "malformed section".data)] ∧
    ((loadBinary f B).diags.countP (fun d => d.1 == Severity.error)) = 1 ∧
    (∀ e', decodeSection B = .error e' →
      (loadBinary f B).file.sections = f.sections) := by
  refine ⟨by simp [loadBinary], by simp [loadBinary, h], by simp [loadBinary, h],
    by simp [loadBinary, h], ?_⟩
  intro e' he'
  match B with
  | [] => simp [decodeSections, decodeSectionsF] at h
  | b :: bs' =>
    simp [loadBinary, decodeSections, decodeSectionsF, he']

/-- C6 witness: the concretely truncated blob appends nothing, fails with
`MalformedSection`, and emits one Error diagnostic. -/
theorem loadBinary_malformed_witness :
    (decodeSections wTrunc).2 = some SecErr.truncated ∧
    (loadBinary wFile wTrunc).err
      = some (.malformedSection SecErr.truncated) ∧
    (loadBinary wFile wTrunc).diags
      = [(Severity.error, "malformed section".data)] ∧
    (loadBinary wFile wTrunc).file.sections = wFile.sections :=
  ⟨by decide,
   (loadBinary_malformed wFile wTrunc .truncated (by decide)).2.1,
   (loadBinary_malformed wFile wTrunc .truncated (by decide)).2.2.1,
   (loadBinary_malformed wFile wTrunc .truncated (by decide)).2.2.2.2
     .truncated rfl⟩

/-! ## The sample program: suffix dispatch and unconditional exports -/

/-- C10: the sample dispatches purely on the filename suffix — `.xml` to
`loadXML`, `.bin` to `loadBinary`, anything else is reported as an error
and skipped with the file state unchanged while the loop continues — and
the program always proceeds to the inline XML load and both exports, with
the usage line printed exactly in the zero-argument case. -/
theorem sample_dispatch (env : Env) (args : List (List Char)) (arg : List Char)
    (f : SectionFile) :
    (".xml".data.isSuffixOf arg = true →
      dispatchArg env f arg =
        ((loadXMLtext f (env.xmlFile arg)).file,
         (Severity.info, "loading XML file ".data ++ arg)
           :: (loadXMLtext f (env.xmlFile arg)).diags)) ∧
    (".xml".data.isSuffixOf arg = false → ".bin".data.isSuffixOf arg = true →
      dispatchArg env f arg =
        ((loadBinary f (env.binFile arg)).file,
         (Severity.info, "loading binary file ".data ++ arg)
           :: (loadBinary f (env.binFile arg)).diags)) ∧
    (".xml".data.isSuffixOf arg = false → ".bin".data.isSuffixOf arg = false →
      dispatchArg env f arg =
        (f, [(Severity.error,
              "unknown file type ".data ++ arg ++ ", ignored".data)])) ∧
    (".xml".data.isSuffixOf arg = false → ".bin".data.isSuffixOf arg = false →
      ∀ rest, argLoop env f (arg :: rest)
        = ((argLoop env f rest).1,
           (Severity.error, "unknown file type ".data ++ arg ++ ", ignored".data)
             :: (argLoop env f rest).2)) ∧
    ((mainProgram env args).finalFile
      = (loadXMLtext (argLoop env SectionFile.empty args).1 sampleXML).file) ∧
    (mainProgram env args).xmlOut = toXMLchars (mainProgram env args).finalFile ∧
    (mainProgram env args).jsonOut = toJSONchars (mainProgram env args).finalFile ∧
    (mainProgram env args).usagePrinted = args.isEmpty := by
  refine ⟨?_, ?_, ?_, ?_, rfl, rfl, rfl, rfl⟩
  · intro h1
    simp [dispatchArg, h1]
  · intro h1 h2
    simp [dispatchArg, h1, h2]
  · intro h1 h2
    simp [dispatchArg, h1, h2]
  · intro h1 h2 rest
    simp [argLoop, dispatchArg, h1, h2]

/-- C10 witness: the three dispatch outcomes and the skip-and-continue
behaviour at concrete arguments. -/
theorem sample_dispatch_witness :
    (dispatchArg wEnv SectionFile.empty "a.xml".data =
      ((loadXMLtext SectionFile.empty (wEnv.xmlFile "a.xml".data)).file,
       (Severity.info, "loading XML file ".data ++ "a.xml".data)
         :: (loadXMLtext SectionFile.empty (wEnv.xmlFile "a.xml".data)).diags)) ∧
    (dispatchArg wEnv SectionFile.empty "a.bin".data =
      ((loadBinary SectionFile.empty (wEnv.binFile "a.bin".data)).file,
       (Severity.info, "loading binary file ".data ++ "a.bin".data)
         :: (loadBinary SectionFile.empty (wEnv.binFile "a.bin".data)).diags)) ∧
    (dispatchArg wEnv SectionFile.empty "a.txt".data =
      (SectionFile.empty,
       [(Severity.error,
         "unknown file type ".data ++ "a.txt".data ++ ", ignored".data)])) ∧
    (argLoop wEnv SectionFile.empty ["a.txt".data]
      = ((argLoop wEnv SectionFile.empty []).1,
         (Severity.error, "unknown file type ".data ++ "a.txt".data ++ ", ignored".data)
           :: (argLoop wEnv SectionFile.empty []).2)) :=
  ⟨(sample_dispatch wEnv [] "a.xml".data SectionFile.empty).1 (by decide),
   (sample_dispatch wEnv [] "a.bin".data SectionFile.empty).2.1
     (by decide) (by decide),
   (sample_dispatch wEnv [] "a.txt".data SectionFile.empty).2.2.1
     (by decide) (by decide),
   (sample_dispatch wEnv [] "a.txt".data SectionFile.empty).2.2.2.1
     (by decide) (by decide) []⟩

/-! ## The worked scenario of the spec (§8) -/

/-- C8: loading the sample service-list table (two entries: service 1 with
locator 100, service 2 with locator 200, owning stream id 10) into an
empty `SectionFile` yields one table and one section, and both exported
surfaces carry those four values. -/
theorem sample_scenario :
    (loadXMLtext SectionFile.empty sampleXML).err = none ∧
    (loadXMLtext SectionFile.empty sampleXML).file.tablesCount = 1 ∧
    (loadXMLtext SectionFile.empty sampleXML).file.sectionsCount = 1 ∧
    docOf (loadXMLtext SectionFile.empty sampleXML).file
      = .mk "tsduck".data [] [patNode 10 0 true [⟨1, 100⟩, ⟨2, 200⟩]] ∧
    (hasInfix "<PAT".data
        (toXMLchars (loadXMLtext SectionFile.empty sampleXML).file) = true ∧
     hasInfix "transport_stream_id=\"10\"".data
        (toXMLchars (loadXMLtext SectionFile.empty sampleXML).file) = true ∧
     hasInfix "service_id=\"1\" program_map_PID=\"100\"".data
        (toXMLchars (loadXMLtext SectionFile.empty sampleXML).file) = true ∧
     hasInfix "service_id=\"2\" program_map_PID=\"200\"".data
        (toXMLchars (loadXMLtext SectionFile.empty sampleXML).file) = true) ∧
    (hasInfix "\"transport_stream_id\":10".data
        (toJSONchars (loadXMLtext SectionFile.empty sampleXML).file) = true ∧
     hasInfix "\"service_id\":1,\"program_map_PID\":100".data
        (toJSONchars (loadXMLtext SectionFile.empty sampleXML).file) = true ∧
     hasInfix "\"service_id\":2,\"program_map_PID\":200".data
        (toJSONchars (loadXMLtext SectionFile.empty sampleXML).file) = true) :=
  ⟨by decide, by decide, by decide, rfl,
   ⟨by decide, by decide, by decide, by decide⟩,
   ⟨by decide, by decide, by decide⟩⟩

/-! ## Exports are read-only -/

/-- C9: `toXML`/`toJSON` are pure, read-only queries: they leave the stored
sections and all derived counters unchanged however often and in whatever
order they are called, and the produced document is a function of the
stored section values alone. -/
theorem export_read_only (f : SectionFile) :
    (toXMLOp f).2 = f ∧ (toJSONOp f).2 = f ∧
    (toXMLOp ((toJSONOp ((toXMLOp f).2)).2)).1 = (toXMLOp f).1 ∧
    (toJSONOp ((toXMLOp ((toJSONOp f).2)).2)).1 = (toJSONOp f).1 ∧
    (toXMLOp f).2.sections = f.sections ∧
    ((toXMLOp f).2.binarySize = f.binarySize ∧
     (toXMLOp f).2.sectionsCount = f.sectionsCount ∧
     (toXMLOp f).2.tablesCount = f.tablesCount) ∧
    (∀ g : SectionFile, g.sections = f.sections →
      toXMLchars g = toXMLchars f ∧ toJSONchars g = toJSONchars f) := by
  refine ⟨rfl, rfl, rfl, rfl, rfl, ⟨rfl, rfl, rfl⟩, ?_⟩
  intro g hg
  have hgf : g = f := by
    cases g
    cases f
    simpa using hg
  subst hgf
  exact ⟨rfl, rfl⟩

/-- C9 witness: export leaves a concrete file untouched. -/
theorem export_read_only_witness :
    (toXMLOp wFile).2 = wFile ∧
    (toXMLchars wFile = toXMLchars wFile ∧ toJSONchars wFile = toJSONchars wFile) :=
  ⟨(export_read_only wFile).1,
   (export_read_only wFile).2.2.2.2.2.2 wFile rfl⟩

/-! ## Service-list splitting symmetry -/

/-- Chunking by 253 produces the ceiling number of chunks. -/
theorem chunksF253_length : ∀ (fuel : Nat) (l : List SvcEntry),
    l.length ≤ fuel → (chunksF 253 fuel l).length = (l.length + 252) / 253 := by
  intro fuel
  induction fuel with
  | zero =>
    intro l hl
    have : l = [] := List.eq_nil_of_length_eq_zero (by omega)
    subst this
    simp [chunksF]
  | succ fuel ih =>
    intro l hl
    match l with
    | [] => simp [chunksF]
    | a :: l' =>
      have hr := ih ((a :: l').drop 253)
        (by simp only [List.length_drop, List.length_cons] at hl ⊢; omega)
      simp only [chunksF, List.length_cons, hr, List.length_drop]
      omega

/-- Flattening the chunks restores the original entry list. -/
theorem chunksF253_flatten : ∀ (fuel : Nat) (l : List SvcEntry),
    l.length ≤ fuel → (chunksF 253 fuel l).flatten = l := by
  intro fuel
  induction fuel with
  | zero =>
    intro l hl
    have : l = [] := List.eq_nil_of_length_eq_zero (by omega)
    subst this
    simp [chunksF]
  | succ fuel ih =>
    intro l hl
    match l with
    | [] => simp [chunksF]
    | a :: l' =>
      have hr := ih ((a :: l').drop 253)
        (by simp only [List.length_drop, List.length_cons] at hl ⊢; omega)
      simp only [chunksF, List.flatten_cons, hr, List.take_append_drop]

/-- The numbered sections carry consecutive `sectionNumber`s. -/
theorem patSectionsGo_map_num (tsid ver : Nat) (cur : Bool) (last : Nat) :
    ∀ (cks : List (List SvcEntry)) (i : Nat),
      (patSectionsGo tsid ver cur last i cks).map (·.sectionNumber)
        = List.range' i cks.length := by
  intro cks
  induction cks with
  | nil => intro i; simp [patSectionsGo]
  | cons ck cks ih =>
    intro i
    simp only [patSectionsGo, List.map_cons, List.length_cons, List.range'_succ]
    exact congrArg _ (ih (i + 1))

/-- Every numbered section carries the shared `lastSectionNumber`. -/
theorem patSectionsGo_last (tsid ver : Nat) (cur : Bool) (last : Nat) :
    ∀ (cks : List (List SvcEntry)) (i : Nat),
      ∀ s ∈ patSectionsGo tsid ver cur last i cks, s.lastSectionNumber = last := by
  intro cks
  induction cks with
  | nil => intro i s hs; simp [patSectionsGo] at hs
  | cons ck cks ih =>
    intro i s hs
    simp only [patSectionsGo, List.mem_cons] at hs
    rcases hs with hs | hs
    · subst hs; rfl
    · exact ih (i + 1) s hs

/-- The payloads of the numbered sections are the packed chunks. -/
theorem patSectionsGo_payloads (tsid ver : Nat) (cur : Bool) (last : Nat) :
    ∀ (cks : List (List SvcEntry)) (i : Nat),
      (patSectionsGo tsid ver cur last i cks).map (·.payload)
        = cks.map entriesBytes := by
  intro cks
  induction cks with
  | nil => intro i; simp [patSectionsGo]
  | cons ck cks ih =>
    intro i
    simp only [patSectionsGo, List.map_cons]
    exact congrArg _ (ih (i + 1))

/-- Length of the numbered section list. -/
theorem patSectionsGo_length (tsid ver : Nat) (cur : Bool) (last : Nat) :
    ∀ (cks : List (List SvcEntry)) (i : Nat),
      (patSectionsGo tsid ver cur last i cks).length = cks.length := by
  intro cks
  induction cks with
  | nil => intro i; simp [patSectionsGo]
  | cons ck cks ih =>
    intro i
    simp only [patSectionsGo, List.length_cons, ih (i + 1)]

/-- In a section list carrying consecutive `sectionNumber`s, looking every
number up in order reproduces the list. -/
theorem filterMap_find_ranged : ∀ (ss : List Section) (i : Nat),
    ss.map (·.sectionNumber) = List.range' i ss.length →
    (List.range' i ss.length).filterMap
      (fun k => ss.find? (fun s => s.sectionNumber == k)) = ss := by
  intro ss
  induction ss with
  | nil => intro i _; simp
  | cons s0 rest ih =>
    intro i hmap
    simp only [List.length_cons, List.range'_succ, List.map_cons] at hmap ⊢
    obtain ⟨h0, hrest⟩ := by
      rw [List.cons_eq_cons] at hmap
      exact hmap
    simp only [List.filterMap_cons]
    have hfind0 : (s0 :: rest).find? (fun s => s.sectionNumber == i) = some s0 := by
      simp [List.find?_cons, h0]
    rw [hfind0]
    have hcongr : (List.range' (i + 1) rest.length).filterMap
        (fun k => (s0 :: rest).find? (fun s => s.sectionNumber == k))
        = (List.range' (i + 1) rest.length).filterMap
        (fun k => rest.find? (fun s => s.sectionNumber == k)) := by
      apply List.filterMap_congr
      intro k hk
      have hki : i < k := by
        rw [List.mem_range'_1] at hk
        omega
      simp only [List.find?_cons]
      have : (s0.sectionNumber == k) = false := by
        simp [h0]
        omega
      rw [this]
    rw [hcongr, ih (i + 1) hrest]

/-- Unpacking packed well-formed entries restores them. -/
theorem parseEntries_entriesBytes (es : List SvcEntry)
    (hwf : ∀ e ∈ es, e.serviceId < 65536 ∧ e.pmPid < 8192) :
    parseEntries (entriesBytes es) = es := by
  induction es with
  | nil => simp [entriesBytes, parseEntries]
  | cons e es ih =>
    obtain ⟨hsid, hpid⟩ := hwf e (by simp)
    have hun : entriesBytes (e :: es)
        = e.serviceId / 256 % 256 :: e.serviceId % 256 ::
          (224 + e.pmPid / 256 % 32) :: e.pmPid % 256 :: entriesBytes es := by
      simp [entriesBytes, entryBytes]
    rw [hun]
    simp only [parseEntries]
    rw [ih (fun x hx => hwf x (by simp [hx]))]
    have h1 : e.serviceId / 256 % 256 * 256 + e.serviceId % 256 = e.serviceId := by
      omega
    have h2 : (224 + e.pmPid / 256 % 32) % 32 * 256 + e.pmPid % 256 = e.pmPid := by
      omega
    rw [h1, h2]

/-- Packing distributes over chunk flattening. -/
theorem flatten_map_entriesBytes : ∀ (cks : List (List SvcEntry)),
    (cks.map entriesBytes).flatten = entriesBytes cks.flatten := by
  intro cks
  induction cks with
  | nil => simp [entriesBytes]
  | cons ck cks ih =>
    simp only [List.map_cons, List.flatten_cons, List.flatten, ih]
    simp [entriesBytes]

/-- C4: encoding a service-list table whose `N` entries exceed one
section's payload capacity produces exactly `⌈payload/maxPayload⌉`
sections with contiguous increasing `sectionNumber`s and one shared
`lastSectionNumber`, and decoding those sections in `sectionNumber` order
restores the original `N` entries in their original order. -/
theorem pat_split_symmetric (tsid ver : Nat) (cur : Bool) (es : List SvcEntry)
    (hN : maxEntries < es.length)
    (hwf : ∀ e ∈ es, e.serviceId < 65536 ∧ e.pmPid < 8192) :
    (patSections tsid ver cur es).length = (4 * es.length + 1011) / 1012 ∧
    (patSections tsid ver cur es).map (·.sectionNumber)
      = List.range (patSections tsid ver cur es).length ∧
    (∀ s ∈ patSections tsid ver cur es,
      s.lastSectionNumber = (patSections tsid ver cur es).length - 1) ∧
    parseEntries (orderedPayload (patSections tsid ver cur es)) = es := by
  have hne : es.isEmpty = false := by
    cases es with
    | nil => simp [maxEntries] at hN
    | cons a l => simp
  have hck : patSections tsid ver cur es
      = patSectionsGo tsid ver cur ((chunks 253 es).length - 1) 0 (chunks 253 es) := by
    simp [patSections, hne, maxEntries]
  have hcklen : (chunks 253 es).length = (es.length + 252) / 253 :=
    chunksF253_length es.length es le_rfl
  have hlen : (patSections tsid ver cur es).length = (chunks 253 es).length := by
    rw [hck, patSectionsGo_length]
  refine ⟨?_, ?_, ?_, ?_⟩
  · rw [hlen, hcklen]
    omega
  · rw [hck, patSectionsGo_map_num, patSectionsGo_length, List.range_eq_range']
  · intro s hs
    rw [hck] at hs
    have hlast := patSectionsGo_last tsid ver cur ((chunks 253 es).length - 1)
      (chunks 253 es) 0 s hs
    rw [hlen]
    exact hlast
  · have hmap : (patSections tsid ver cur es).map (·.sectionNumber)
        = List.range' 0 (patSections tsid ver cur es).length := by
      rw [hck, patSectionsGo_map_num, patSectionsGo_length]
    have hfm := filterMap_find_ranged (patSections tsid ver cur es) 0 hmap
    have hle : (patSections tsid ver cur es) ≠ [] := by
      intro hnil
      rw [hnil] at hlen
      simp at hlen
      have : 253 < es.length := hN
      omega
    have hlast0 : groupLast (patSections tsid ver cur es)
        = (patSections tsid ver cur es).length - 1 := by
      cases hq : patSections tsid ver cur es with
      | nil => exact absurd hq hle
      | cons s0 tl =>
        have hs0 : s0 ∈ patSections tsid ver cur es := by rw [hq]; simp
        rw [hck] at hs0
        have h1 := patSectionsGo_last tsid ver cur ((chunks 253 es).length - 1)
          (chunks 253 es) 0 s0 hs0
        rw [hq] at hlen
        simp only [groupLast, List.head?_cons]
        simp only [Option.map, Option.getD]
        rw [h1, ← hlen]
    have hcnt : groupLast (patSections tsid ver cur es) + 1
        = (patSections tsid ver cur es).length := by
      rw [hlast0]
      have : 0 < (patSections tsid ver cur es).length := by
        cases hq : patSections tsid ver cur es with
        | nil => exact absurd hq hle
        | cons a l => simp
      omega
    have hpl : ((patSections tsid ver cur es).map (·.payload)).flatten
        = entriesBytes es := by
      have hfl : (chunks 253 es).flatten = es :=
        chunksF253_flatten es.length es le_rfl
      rw [hck, patSectionsGo_payloads, flatten_map_entriesBytes, hfl]
    have hop : orderedPayload (patSections tsid ver cur es)
        = ((patSections tsid ver cur es).map (·.payload)).flatten := by
      simp only [orderedPayload]
      rw [hcnt, List.range_eq_range', hfm]
      simp [List.flatMap_def]
    rw [hop, hpl]
    exact parseEntries_entriesBytes es hwf

/-! ## Numeral, flag and hex-dump round trips -/

/-- `Char.ofNat` of an ASCII digit code has that code. -/
theorem char_ofNat_digit_toNat {m : Nat} (h : m < 10) :
    (Char.ofNat (48 + m)).toNat = 48 + m := by
  interval_cases m <;> decide

/-- Every rendered digit character is a decimal digit. -/
theorem natDigitsRevF_all_digits : ∀ (fuel n : Nat),
    (natDigitsRevF fuel n).all isDigitChar = true := by
  intro fuel
  induction fuel with
  | zero =>
    intro n
    have h10 : n % 10 < 10 := by omega
    have := char_ofNat_digit_toNat h10
    simp [natDigitsRevF, isDigitChar, this]
    omega
  | succ fuel ih =>
    intro n
    by_cases h : n < 10
    · have := char_ofNat_digit_toNat h
      simp [natDigitsRevF, h, isDigitChar, this]
      omega
    · have h10 : n % 10 < 10 := by omega
      have := char_ofNat_digit_toNat h10
      simp [natDigitsRevF, h, isDigitChar, this, ih (n / 10)]
      omega

/-- The rendered digit list is never empty. -/
theorem natDigitsRevF_ne_nil (fuel n : Nat) : natDigitsRevF fuel n ≠ [] := by
  cases fuel with
  | zero => simp [natDigitsRevF]
  | succ fuel =>
    by_cases h : n < 10 <;> simp [natDigitsRevF, h]

/-- Appending a digit multiplies the value by ten and adds the digit. -/
theorem digitsVal_append_singleton (l : List Char) (c : Char) :
    digitsVal (l ++ [c]) = digitsVal l * 10 + digitVal c := by
  simp [digitsVal, List.foldl_append]

/-- The rendered digits evaluate back to the rendered number. -/
theorem natDigitsRevF_val : ∀ (fuel n : Nat), n ≤ fuel →
    digitsVal (natDigitsRevF fuel n).reverse = n := by
  intro fuel
  induction fuel with
  | zero =>
    intro n hn
    have hz : n = 0 := by omega
    subst hz
    decide
  | succ fuel ih =>
    intro n hn
    by_cases h : n < 10
    · have hc := char_ofNat_digit_toNat h
      simp [natDigitsRevF, h, digitsVal, digitVal, hc]
    · have h10 : n % 10 < 10 := by omega
      have hc := char_ofNat_digit_toNat h10
      have hrec : n / 10 ≤ fuel := by omega
      simp only [natDigitsRevF, if_neg h, List.reverse_cons]
      rw [digitsVal_append_singleton, ih (n / 10) hrec]
      simp [digitVal, hc]
      omega

/-- Parsing the canonical decimal rendering returns the number. -/
theorem parseNat_natToChars (n : Nat) : parseNat (natToChars n) = some n := by
  have hne : (natToChars n).isEmpty = false := by
    have := natDigitsRevF_ne_nil n n
    simp [natToChars, List.isEmpty_iff, this]
  have hall : (natToChars n).all isDigitChar = true := by
    have := natDigitsRevF_all_digits n n
    simp only [natToChars]
    simp only [List.all_eq_true] at this ⊢
    intro c hc
    exact this c (List.mem_reverse.mp hc)
  have hval := natDigitsRevF_val n n le_rfl
  simp only [parseNat, hne, hall, Bool.not_false, Bool.and_self, if_pos]
  simp only [natToChars] at hval ⊢
  simp only [digitsVal] at hval
  simp [hval]

/-- Hex digits evaluate back to their value. -/
theorem hexVal_hexDigit {d : Nat} (h : d < 16) : hexVal (hexDigit d) = d := by
  interval_cases d <;> decide

/-- Hex digits pass the hex-digit class test of the parser. -/
theorem hexDigit_class {d : Nat} (h : d < 16) :
    ((hexDigit d).isDigit || (65 ≤ (hexDigit d).toNat && (hexDigit d).toNat ≤ 70))
      = true := by
  interval_cases d <;> decide

/-- Parsing a hex dump of bytes restores the bytes. -/
theorem bytesOfHex_hexOfBytes : ∀ (bs : List Nat), (∀ b ∈ bs, b < 256) →
    bytesOfHex (hexOfBytes bs) = some bs := by
  intro bs
  induction bs with
  | nil => intro _; simp [hexOfBytes, bytesOfHex]
  | cons b bs ih =>
    intro hall
    have hb : b < 256 := hall b (by simp)
    have hhi : b / 16 < 16 := by omega
    have hlo : b % 16 < 16 := by omega
    have hun : hexOfBytes (b :: bs)
        = hexDigit (b / 16) :: hexDigit (b % 16) :: hexOfBytes bs := by
      simp [hexOfBytes, hexByte]
    rw [hun]
    simp only [bytesOfHex, hexDigit_class hhi, hexDigit_class hlo,
      Bool.and_self, if_pos]
    rw [ih (fun x hx => hall x (by simp [hx]))]
    simp [hexVal_hexDigit hhi, hexVal_hexDigit hlo]
    omega

/-! ## Registry: total decoding, generic fallback, unknown table types -/

/-- Re-encoding the generic fallback node of any section succeeds and
restores every field the fallback renders. -/
theorem genericEncode_genericNode (s : Section) (hpl : ∀ b ∈ s.payload, b < 256) :
    genericEncode (genericNode s) = .ok (stripSec s) := by
  obtain ⟨tid, lng, ext, ver, cur, sn, ln, pl, crc⟩ := s
  simp only at hpl
  cases lng with
  | false =>
    cases cur <;>
      simp +decide [genericEncode, genericNode, stripSec, reqNat, optBool, lookupAttr,
        parseNat_natToChars, bytesOfHex_hexOfBytes pl hpl, boolChars,
        Except.bind, bind, pure]
  | true =>
    cases cur <;>
      simp +decide [genericEncode, genericNode, stripSec, reqNat, optBool, lookupAttr,
        parseNat_natToChars, bytesOfHex_hexOfBytes pl hpl, boolChars,
        Except.bind, bind, pure]

/-- A node-list load stops at the first failing node, keeping the sections
already appended by the nodes before it. -/
theorem loadNodes_partial : ∀ (xs : List XNode) (f : SectionFile) (x : XNode)
    (ys : List XNode) (e : LoadErr),
    (∀ z ∈ xs, ∃ ss, encodeNode z = .ok ss) → encodeNode x = .error e →
    loadNodes f (xs ++ x :: ys) = ((loadNodes f xs).1, some e) := by
  intro xs
  induction xs with
  | nil =>
    intro f x ys e _ hx
    simp [loadNodes, hx]
  | cons z xs ih =>
    intro f x ys e hok hx
    obtain ⟨ss, hss⟩ := hok z (by simp)
    simp only [List.cons_append, loadNodes, hss]
    exact ih _ x ys e (fun w hw => hok w (by simp [hw])) hx

/-- C7: decoding is total over table types — a group whose table id has no
registered codec decodes to generic fallback nodes that preserve the
payload and re-encode losslessly — while encoding an unregistered element
name fails with `UnknownTableType` without aborting the sections appended
by nodes processed earlier in the same load call. -/
theorem registry_totality (g : List Section) (x : XNode) (f : SectionFile)
    (xs ys : List XNode)
    (hreg : ∀ s ∈ g, s.tableId ∉ registeredIds)
    (hpl : ∀ s ∈ g, ∀ b ∈ s.payload, b < 256)
    (hname : x.name ∉ registeredNames)
    (hxs : ∀ z ∈ xs, ∃ ss, encodeNode z = .ok ss) :
    decodeGroup g = g.map genericNode ∧
    (∀ s ∈ g, lookupAttr (genericNode s) "payload".data
        = some (hexOfBytes s.payload) ∧
      encodeNode (genericNode s) = .ok [stripSec s] ∧
      (stripSec s).payload = s.payload) ∧
    encodeNode x = .error (.unknownTableType x.name) ∧
    loadNodes f (xs ++ x :: ys)
      = ((loadNodes f xs).1, some (.unknownTableType x.name)) := by
  have hxerr : encodeNode x = .error (.unknownTableType x.name) := by
    have h1 : ¬x.name = "PAT".data := fun hc => hname (by simp [registeredNames, hc])
    have h2 : ¬x.name = genericName := fun hc => hname (by simp [registeredNames, hc])
    simp [encodeNode, h1, h2]
  refine ⟨?_, ?_, hxerr, loadNodes_partial xs f x ys _ hxs hxerr⟩
  · match g with
    | [] => simp [decodeGroup, complete]
    | s0 :: tl =>
      have h0 := hreg s0 (by simp)
      simp [decodeGroup, h0]
  · intro s hs
    have hp := hpl s hs
    refine ⟨?_, ?_, ?_⟩
    · obtain ⟨tid, lng, ext, ver, cur, sn, ln, pl, crc⟩ := s
      cases lng <;> simp +decide [genericNode, lookupAttr]
    · have h2 : ¬(genericNode s).name = "PAT".data := by
        simp +decide [genericNode]
      have h3 : (genericNode s).name = genericName := by simp [genericNode]
      have h4 : ¬genericName = "PAT".data := by decide
      simp [encodeNode, h2, h3, h4, genericEncode_genericNode s hp, Except.map]
    · obtain ⟨tid, lng, ext, ver, cur, sn, ln, pl, crc⟩ := s
      cases lng <;> simp [stripSec]

/-- C7 witness: a concrete unregistered section decodes to its fallback
node and back; a concrete unknown element name fails, keeping the sections
appended before it. -/
theorem registry_totality_witness :
    (∀ s ∈ [wShort], s.tableId ∉ registeredIds) ∧
    decodeGroup [wShort] = [wShort].map genericNode ∧
    encodeNode (XNode.mk "FOO".data [] []) =
      .error (.unknownTableType "FOO".data) ∧
    loadNodes wFile [genericNode wShort, XNode.mk "FOO".data [] []]
      = ((loadNodes wFile [genericNode wShort]).1,
         some (.unknownTableType "FOO".data)) := by
  have h := registry_totality [wShort] (XNode.mk "FOO".data [] []) wFile
    [genericNode wShort] [] (by decide)
    (by intro s hs; simp at hs; subst hs; decide)
    (by decide)
    (by
      intro z hz
      simp at hz
      subst hz
      exact ⟨[stripSec wShort], rfl⟩)
  exact ⟨by decide, h.1, h.2.2.1, h.2.2.2⟩


/-! ## Markup serializer round trip -/

/-- Name characters are not whitespace. -/
theorem isNameChar_not_ws {c : Char} (h : isNameChar c = true) :
    isWSChar c = false := by
  cases hw : isWSChar c with
  | false => rfl
  | true =>
    exfalso
    simp [isWSChar] at hw
    rcases hw with ((hc | hc) | hc) | hc <;> subst hc <;> exact absurd h (by decide)

/-- Whitespace skipping stops at a non-whitespace head. -/
theorem skipWS_cons {c : Char} (h : isWSChar c = false) (r : List Char) :
    skipWS (c :: r) = c :: r := by
  simp [skipWS, List.dropWhile_cons, h]

/-- `takeWhile`/`dropWhile` across a satisfying prefix followed by a
failing head. -/
theorem takeWhile_append_cons {p : Char → Bool} : ∀ (l : List Char) (c : Char)
    (r : List Char), l.all p = true → p c = false →
    (l ++ c :: r).takeWhile p = l ∧ (l ++ c :: r).dropWhile p = c :: r := by
  intro l
  induction l with
  | nil =>
    intro c r _ hc
    simp [List.takeWhile_cons, List.dropWhile_cons, hc]
  | cons a l ih =>
    intro c r hall hc
    simp only [List.all_cons, Bool.and_eq_true] at hall
    have := ih c r hall.2 hc
    simp [List.takeWhile_cons, List.dropWhile_cons, hall.1, this.1, this.2]

/-- Escaping leaves a metacharacter-free character alone. -/
theorem escChar_good {c : Char} (h : goodValueChar c = true) : escChar c = [c] := by
  simp only [goodValueChar, Bool.not_eq_true', Bool.or_eq_false_iff,
    decide_eq_false_iff_not] at h
  obtain ⟨⟨⟨⟨h1, h2⟩, h3⟩, h4⟩, h5⟩ := h
  simp [escChar, h1, h2, h3, h4, h5]

/-- Escaping leaves a metacharacter-free value alone. -/
theorem escapeChars_good {v : List Char} (h : goodValue v = true) :
    escapeChars v = v := by
  induction v with
  | nil => rfl
  | cons c v ih =>
    simp only [goodValue, List.all_cons, Bool.and_eq_true] at h
    simp only [escapeChars, List.flatMap_cons, escChar_good h.1]
    have := ih (by simp [goodValue, h.2])
    simp only [escapeChars] at this
    simp [this]

/-- Unescaping leaves a metacharacter-free value alone. -/
theorem unescapeF_good : ∀ (fuel : Nat) (v : List Char), goodValue v = true →
    unescapeF fuel v = v := by
  intro fuel
  induction fuel with
  | zero => intro v _; rfl
  | succ fuel ih =>
    intro v hv
    match v with
    | [] => rfl
    | c :: rest =>
      simp only [goodValue, List.all_cons, Bool.and_eq_true] at hv
      have hamp : ¬c = '&' := by
        intro hc
        subst hc
        exact absurd hv.1 (by decide)
      simp [unescapeF, hamp, ih rest (by simp [goodValue, hv.2])]

/-- A parse of the rendered attribute list returns the attributes and
stops exactly at the closing delimiter. -/
theorem parseAttrsF_render : ∀ (a : List (List Char × List Char)) (fuel : Nat)
    (c : Char) (d : List Char), a.all attrOK = true →
    (c = '/' ∨ c = '>') → (renderAttrs a).length < fuel →
    parseAttrsF fuel (renderAttrs a ++ c :: d) = some (a, c :: d) := by
  intro a
  induction a with
  | nil =>
    intro fuel c d _ hc hf
    match fuel with
    | fuel + 1 =>
      have hnw : isWSChar c = false := by
        rcases hc with hc | hc <;> subst hc <;> decide
      simp only [renderAttrs, List.flatMap_nil, List.nil_append, parseAttrsF,
        skipWS_cons hnw]
      rcases hc with hc | hc <;> subst hc <;> simp
  | cons p a ih =>
    intro fuel c d hall hc hf
    obtain ⟨k, v⟩ := p
    simp only [List.all_cons, Bool.and_eq_true] at hall
    obtain ⟨hp, ha⟩ := hall
    simp only [attrOK, Bool.and_eq_true] at hp
    obtain ⟨hk, hv⟩ := hp
    simp only [goodNameChars, Bool.and_eq_true, Bool.not_eq_true'] at hk
    obtain ⟨hkne, hkall⟩ := hk
    match fuel with
    | fuel + 1 =>
    match k, hkne with
    | k0 :: k', _ =>
      have hk0 : isNameChar k0 = true := by
        simp only [List.all_cons, Bool.and_eq_true] at hkall
        exact hkall.1
      have hk0ws : isWSChar k0 = false := isNameChar_not_ws hk0
      have hinp : renderAttrs ((k0 :: k', v) :: a) ++ c :: d
          = ' ' :: k0 :: (k' ++ ('=' :: '"' :: (escapeChars v ++ ('"' :: (renderAttrs a ++ (c :: d)))))) := by
        simp [renderAttrs]
      rw [hinp]
      have hskip : skipWS (' ' :: k0 :: (k' ++ ('=' :: '"' :: (escapeChars v ++ ('"' :: (renderAttrs a ++ (c :: d)))))))
          = k0 :: (k' ++ ('=' :: '"' :: (escapeChars v ++ ('"' :: (renderAttrs a ++ (c :: d)))))) := by
        simp +decide [skipWS, List.dropWhile_cons, hk0ws]
      simp only [parseAttrsF, hskip]
      have hslash : ¬k0 = '/' := fun h0 => by subst h0; exact absurd hk0 (by decide)
      have hgt : ¬k0 = '>' := fun h0 => by subst h0; exact absurd hk0 (by decide)
      rw [if_neg hslash, if_neg hgt]
      have htw := takeWhile_append_cons (k0 :: k') '='
        ('"' :: (escapeChars v ++ ('"' :: (renderAttrs a ++ (c :: d))))) hkall (by decide)
      have hcons : k0 :: (k' ++ ('=' :: '"' :: (escapeChars v ++ ('"' :: (renderAttrs a ++ (c :: d))))))
          = (k0 :: k') ++ '=' :: ('"' :: (escapeChars v ++ ('"' :: (renderAttrs a ++ (c :: d))))) := by
        simp
      rw [hcons, htw.1, htw.2]
      rw [if_neg (by simp)]
      have hvq : (escapeChars v).all (fun x => decide (x ≠ '"')) = true := by
        rw [escapeChars_good hv]
        simp only [goodValue, List.all_eq_true] at hv ⊢
        intro x hx
        have := hv x hx
        simp only [goodValueChar, Bool.not_eq_true', Bool.or_eq_false_iff,
          decide_eq_false_iff_not] at this
        simp [this.1.2]
      have htv := takeWhile_append_cons (escapeChars v) '"'
        (renderAttrs a ++ (c :: d)) hvq (by simp)
      have hrec := ih fuel c d ha hc
        (by
          have hsplit : renderAttrs ((k0 :: k', v) :: a)
              = (' ' :: k0 :: (k' ++ ('=' :: '"' :: (escapeChars v ++ ['"']))))
                  ++ renderAttrs a := by
            simp [renderAttrs]
          rw [hsplit] at hf
          simp only [List.length_append, List.length_cons] at hf
          omega)
      split
      next cs3 heq =>
        simp only [List.cons.injEq] at heq
        obtain ⟨-, -, rfl⟩ := heq
        rw [htv.1, htv.2]
        split
        next cs4 heq2 =>
          simp only [List.cons.injEq] at heq2
          obtain ⟨-, rfl⟩ := heq2
          rw [hrec]
          rw [escapeChars_good hv]
          have hu : unescapeChars v = v := unescapeF_good v.length v hv
          simp [hu]
        next hne2 =>
          exfalso
          exact hne2 _ rfl
      next hne =>
        exfalso
        exact hne _ rfl


/-- A run of name characters followed by a non-name, non-empty remainder
splits cleanly under `takeWhile`/`dropWhile`. -/
theorem takeWhile_append_head {p : Char → Bool} : ∀ (l r : List Char),
    l.all p = true → (∀ c, r.head? = some c → p c = false) →
    (l ++ r).takeWhile p = l ∧ (l ++ r).dropWhile p = r := by
  intro l r hall hr
  match r with
  | [] =>
    constructor
    · simp only [List.append_nil]
      exact List.takeWhile_eq_self_iff.mpr (by simpa [List.all_eq_true] using hall)
    · simp only [List.append_nil]
      exact List.dropWhile_eq_nil_iff.mpr (by simpa [List.all_eq_true] using hall)
  | c :: r' =>
    exact takeWhile_append_cons l c r' hall (hr c rfl)

/-- The rendered attribute list is empty or starts with a blank. -/
theorem renderAttrs_shape (a : List (List Char × List Char)) (z : List Char) :
    renderAttrs a ++ z = z ∨ ∃ t, renderAttrs a ++ z = ' ' :: t := by
  match a with
  | [] => left; simp [renderAttrs]
  | p :: a' =>
    right
    exact ⟨p.1 ++ '=' :: '"' :: (escapeChars p.2 ++ '"' :: (renderAttrs a' ++ z)),
      by simp [renderAttrs]⟩

/-- A list is a prefix of itself extended by anything. -/
theorem isPrefixOf_append_self : ∀ (l t : List Char), l.isPrefixOf (l ++ t) = true := by
  intro l t
  induction l with
  | nil => simp [List.isPrefixOf]
  | cons a l ih => simp [List.isPrefixOf, ih]

/-- A well-formed node renders as `<` followed by a name character. -/
theorem renderNode_shape (x : XNode) (h : docWF x = true) :
    ∃ n0 t, renderNode x = '<' :: n0 :: t ∧ isNameChar n0 = true := by
  obtain ⟨n, a, c⟩ := x
  simp only [docWF, Bool.and_eq_true] at h
  obtain ⟨⟨hn, -⟩, -⟩ := h
  simp only [goodNameChars, Bool.and_eq_true, Bool.not_eq_true'] at hn
  obtain ⟨hne, hall⟩ := hn
  match n, hne with
  | n0 :: n', _ =>
    refine ⟨n0, n' ++ (renderAttrs a ++ if c.isEmpty = true then ['/', '>']
        else '>' :: (renderNodes c ++ '<' :: '/' :: n0 :: (n' ++ ['>']))),
      by simp [renderNode], ?_⟩
    simp only [List.all_cons, Bool.and_eq_true] at hall
    exact hall.1

mutual

/-- Parsing the rendered markup of a well-formed node restores the node
and consumes exactly its rendering (given sufficient fuel). -/
theorem parseNodeF_render : ∀ (x : XNode), docWF x = true →
    ∀ (fuel : Nat) (r : List Char), (renderNode x).length ≤ fuel →
    parseNodeF fuel (renderNode x ++ r) = some (x, r) := by
  intro x hwf fuel r hfuel
  obtain ⟨n, a, c⟩ := x
  simp only [docWF, Bool.and_eq_true] at hwf
  obtain ⟨⟨hn, ha⟩, hc⟩ := hwf
  simp only [goodNameChars, Bool.and_eq_true, Bool.not_eq_true'] at hn
  obtain ⟨hne, hall⟩ := hn
  match n, hne with
  | n0 :: n', _ =>
  have hlen1 : 1 ≤ (renderNode (XNode.mk (n0 :: n') a c)).length := by
    simp [renderNode]
  match fuel, hfuel with
  | fuel + 1, hfuel =>
  have hnhead : ∀ ch, ((renderAttrs a ++
      (if c.isEmpty then "/>".data
        else '>' :: renderNodes c ++ '<' :: '/' :: (n0 :: n') ++ ['>']) ++ r)).head?
        = some ch → isNameChar ch = false := by
    intro ch hch
    rcases renderAttrs_shape a ((if c.isEmpty then "/>".data
        else '>' :: renderNodes c ++ '<' :: '/' :: (n0 :: n') ++ ['>']) ++ r) with hsh | ⟨t, hsh⟩
    · rw [List.append_assoc, hsh] at hch
      match c with
      | [] =>
        simp at hch
        subst hch
        decide
      | _ :: _ =>
        simp at hch
        subst hch
        decide
    · rw [List.append_assoc, hsh] at hch
      simp at hch
      subst hch
      decide
  cases c with
  | nil =>
    have hinp : renderNode (XNode.mk (n0 :: n') a []) ++ r
        = '<' :: ((n0 :: n') ++ (renderAttrs a ++ ('/' :: ('>' :: r)))) := by
      simp [renderNode]
    rw [hinp]
    simp only [parseNodeF]
    have htw := takeWhile_append_head (n0 :: n') (renderAttrs a ++ ('/' :: ('>' :: r)))
      hall (by
        intro ch hch
        apply hnhead ch
        simpa using hch)
    rw [htw.1, htw.2]
    rw [if_neg (by simp)]
    rw [parseAttrsF_render a _ '/' ('>' :: r) ha (Or.inl rfl) (by simp)]
    rfl
  | cons c0 ctl =>
    have hinp : renderNode (XNode.mk (n0 :: n') a (c0 :: ctl)) ++ r
        = '<' :: ((n0 :: n') ++ (renderAttrs a ++ ('>' :: (renderNodes (c0 :: ctl)
            ++ ('<' :: ('/' :: ((n0 :: n') ++ ('>' :: r)))))))) := by
      simp [renderNode]
    rw [hinp]
    simp only [parseNodeF]
    have htw := takeWhile_append_head (n0 :: n')
      (renderAttrs a ++ ('>' :: (renderNodes (c0 :: ctl)
        ++ ('<' :: ('/' :: ((n0 :: n') ++ ('>' :: r))))))) hall
      (by
        intro ch hch
        apply hnhead ch
        simpa using hch)
    rw [htw.1, htw.2]
    rw [if_neg (by simp)]
    rw [parseAttrsF_render a _ '>' _ ha (Or.inr rfl) (by simp)]
    have hchildren := parseChildrenF_render (c0 :: ctl) hc fuel
      ((n0 :: n') ++ ('>' :: r))
      (by
        have hfl : (renderNode (XNode.mk (n0 :: n') a (c0 :: ctl))).length
            = 1 + (n0 :: n').length + (renderAttrs a).length + 1
              + (renderNodes (c0 :: ctl)).length + 2 + (n0 :: n').length + 1 := by
          simp [renderNode]
          omega
        rw [hfl] at hfuel
        omega)
    split
    next heq =>
      exact absurd heq (by simp)
    next attrs cs3 heq =>
      simp only [Option.some.injEq, Prod.mk.injEq] at heq
      obtain ⟨rfl, rfl⟩ := heq.symm
      split
      next cs4 heq2 => exact absurd heq2 (by simp)
      next cs4 heq2 =>
        simp only [List.cons.injEq] at heq2
        obtain ⟨-, rfl⟩ := heq2
        rw [hchildren]
        split
        next heq3 => exact absurd heq3 (by simp)
        next children cs5 heq3 =>
          simp only [Option.some.injEq, Prod.mk.injEq] at heq3
          obtain ⟨rfl, rfl⟩ := heq3
          split
          next cs6 heq4 =>
            simp only [List.cons.injEq] at heq4
            obtain ⟨-, -, rfl⟩ := heq4
            rw [isPrefixOf_append_self (n0 :: n') ('>' :: r)]
            rw [if_pos rfl, List.drop_left]
            rfl
          next hne4 => exact absurd rfl (hne4 _)
      next hne1 hne2 => exact absurd rfl (hne2 _)

/-- Parsing the rendered markup of a well-formed node sequence restores
the nodes, stopping exactly at the closing tag. -/
theorem parseChildrenF_render : ∀ (xs : List XNode), docListWF xs = true →
    ∀ (fuel : Nat) (r : List Char), (renderNodes xs).length < fuel →
    parseChildrenF fuel (renderNodes xs ++ '<' :: '/' :: r) = some (xs, '<' :: '/' :: r) := by
  intro xs hwf fuel r hfuel
  match fuel with
  | fuel + 1 =>
  match xs with
  | [] =>
    simp only [renderNodes, List.nil_append, parseChildrenF,
      skipWS_cons (by decide : isWSChar '<' = false)]
    rfl
  | x :: xs' =>
    simp only [docListWF, Bool.and_eq_true] at hwf
    obtain ⟨hx, hxs⟩ := hwf
    obtain ⟨n0, t, hshape, hn0⟩ := renderNode_shape x hx
    have hinp : renderNodes (x :: xs') ++ '<' :: '/' :: r
        = '<' :: n0 :: (t ++ (renderNodes xs' ++ '<' :: '/' :: r)) := by
      simp only [renderNodes, List.append_assoc, hshape, List.cons_append]
    rw [hinp]
    simp only [parseChildrenF, skipWS_cons (by decide : isWSChar '<' = false)]
    have hslash : ¬n0 = '/' := fun h0 => by subst h0; exact absurd hn0 (by decide)
    rw [if_neg hslash]
    have hlenx : (renderNode x).length + (renderNodes xs').length < fuel + 1 := by
      have : (renderNodes (x :: xs')).length
          = (renderNode x).length + (renderNodes xs').length := by
        simp [renderNodes]
      rw [this] at hfuel
      exact hfuel
    have hxpos : 1 ≤ (renderNode x).length := by
      rw [hshape]
      simp
    have hnode := parseNodeF_render x hx fuel (renderNodes xs' ++ '<' :: '/' :: r)
      (by omega)
    rw [show ('<' :: n0 :: (t ++ (renderNodes xs' ++ '<' :: '/' :: r)))
        = renderNode x ++ (renderNodes xs' ++ '<' :: '/' :: r) from by
      rw [hshape]; simp]
    rw [hnode]
    split
    next heq => exact absurd heq (by simp)
    next y cs2 heq =>
      simp only [Option.some.injEq, Prod.mk.injEq] at heq
      obtain ⟨rfl, rfl⟩ := heq
      rw [parseChildrenF_render xs' hxs fuel r (by omega)]

end


/-- Parsing a rendered whole markup document (prolog plus root element)
restores the document. -/
theorem parseXMLDoc_render (root : XNode) (h : docWF root = true) :
    parseXMLDoc (xmlProlog ++ renderNode root) = some root := by
  obtain ⟨n0, t, hshape, hn0⟩ := renderNode_shape root h
  have hpro : xmlProlog ++ renderNode root
      = '<' :: '?' :: ("xml version=\"1.0\" encoding=\"UTF-8\"?".data
          ++ ('>' :: ('\n' :: renderNode root))) := by rfl
  rw [hpro]
  simp only [parseXMLDoc]
  rw [skipWS_cons (by decide)]
  rw [if_pos (by rfl)]
  have hd2 : List.drop 2 ('<' :: '?' :: ("xml version=\"1.0\" encoding=\"UTF-8\"?".data
      ++ ('>' :: ('\n' :: renderNode root))))
      = "xml version=\"1.0\" encoding=\"UTF-8\"?".data
          ++ ('>' :: ('\n' :: renderNode root)) := rfl
  rw [hd2]
  have hdw := takeWhile_append_cons (p := fun x => decide (x ≠ '>'))
    "xml version=\"1.0\" encoding=\"UTF-8\"?".data
    '>' ('\n' :: renderNode root) (by decide) (by decide)
  rw [hdw.2]
  rw [show List.drop 1 ('>' :: ('\n' :: renderNode root)) = '\n' :: renderNode root
    from rfl]
  rw [show skipWS ('\n' :: renderNode root) = skipWS (renderNode root) from by
    simp +decide [skipWS, List.dropWhile_cons]]
  rw [hshape, skipWS_cons (by decide), ← hshape]
  have hp := parseNodeF_render root h (renderNode root).length []
    (by exact le_rfl)
  rw [List.append_nil] at hp
  rw [hp]
  rfl


/-! ## Object-notation serializer round trip -/

/-- Digits are not whitespace. -/
theorem isDigitChar_not_ws {c : Char} (h : isDigitChar c = true) :
    isWSChar c = false := by
  cases hw : isWSChar c with
  | false => rfl
  | true =>
    exfalso
    simp [isWSChar] at hw
    rcases hw with ((hc | hc) | hc) | hc <;> subst hc <;> exact absurd h (by decide)

/-- A well-formed value renders non-empty, starting with a character that
is no whitespace, no separator, and no closing delimiter. -/
theorem renderJ_shape (j : JValue) (h : jWF j = true) :
    ∃ c0 t, renderJ j = c0 :: t ∧ isWSChar c0 = false ∧ ¬c0 = ']' ∧
      ¬c0 = ',' ∧ ¬c0 = closeBrace := by
  match j with
  | .num n =>
    have hne := natDigitsRevF_ne_nil n n
    have hall := natDigitsRevF_all_digits n n
    match hq : natToChars n with
    | [] =>
      exfalso
      simp only [natToChars] at hq
      exact hne (by simpa using congrArg List.reverse hq)
    | d0 :: ds =>
      have hd0 : isDigitChar d0 = true := by
        have hmem : d0 ∈ natToChars n := by rw [hq]; simp
        simp only [natToChars] at hmem
        rw [List.mem_reverse] at hmem
        simp only [List.all_eq_true] at hall
        exact hall d0 hmem
      refine ⟨d0, ds, by simp [renderJ, hq], isDigitChar_not_ws hd0, ?_, ?_, ?_⟩
        <;> intro hc <;> subst hc <;> exact absurd hd0 (by decide)
  | .str s => exact ⟨'"', s ++ ['"'], by simp [renderJ], by decide, by decide,
      by decide, by decide⟩
  | .arr vs => exact ⟨'[', renderJItems vs ++ [']'], by simp [renderJ], by decide,
      by decide, by decide, by decide⟩
  | .obj fs => exact ⟨openBrace, renderJFields fs ++ [closeBrace],
      by simp [renderJ], by decide, by decide, by decide, by decide⟩

/-- Rendered items of a non-empty list start with the first value's
rendering. -/
theorem renderJItems_cons_append (v : JValue) (vs' : List JValue) (z : List Char) :
    ∃ w, renderJItems (v :: vs') ++ z = renderJ v ++ w := by
  match vs' with
  | [] => exact ⟨z, by simp [renderJItems]⟩
  | w :: ws => exact ⟨',' :: (renderJItems (w :: ws) ++ z), by simp [renderJItems]⟩

/-- Rendered fields of a non-empty list start with a quote. -/
theorem renderJFields_cons_append (f : List Char × JValue)
    (fs' : List (List Char × JValue)) (z : List Char) :
    ∃ w, renderJFields (f :: fs') ++ z = '"' :: w := by
  match f, fs' with
  | (k, v), [] => exact ⟨k ++ '"' :: ':' :: (renderJ v ++ z), by simp [renderJFields]⟩
  | (k, v), g :: gs =>
    exact ⟨k ++ '"' :: ':' :: (renderJ v ++ ',' :: (renderJFields (g :: gs) ++ z)),
      by simp [renderJFields]⟩

/-- Unfolding of the value parser on a bracket followed by a non-bracket. -/
theorem parseJF_lbrack (fuel : Nat) (c2 : Char) (cs2 : List Char)
    (h : ¬c2 = ']') :
    parseJF (fuel + 1) ('[' :: c2 :: cs2)
      = match parseJItemsF fuel (c2 :: cs2) with
        | some (vs, ']' :: cs3) => some (JValue.arr vs, cs3)
        | _ => none := by
  simp only [parseJF, skipWS_cons (show isWSChar '[' = false by decide)]
  simp [h]

/-- Unfolding of the value parser on an opening brace followed by a
non-closing-brace. -/
theorem parseJF_lbrace (fuel : Nat) (c2 : Char) (cs2 : List Char)
    (h : ¬c2 = closeBrace) :
    parseJF (fuel + 1) (openBrace :: c2 :: cs2)
      = match parseJFieldsF fuel (c2 :: cs2) with
        | some (fs, c3 :: cs3) =>
          if c3 = closeBrace then some (JValue.obj fs, cs3) else none
        | _ => none := by
  have hstep : parseJF (fuel + 1) (openBrace :: c2 :: cs2)
      = if c2 = closeBrace then some (JValue.obj [], cs2)
        else match parseJFieldsF fuel (c2 :: cs2) with
          | some (fs, c3 :: cs3) =>
            if c3 = closeBrace then some (JValue.obj fs, cs3) else none
          | _ => none := rfl
  rw [hstep, if_neg h]

mutual

/-- Parsing the rendered object notation of a well-formed value restores
the value (given sufficient fuel and a non-digit continuation). -/
theorem parseJF_render : ∀ (j : JValue), jWF j = true →
    ∀ (fuel : Nat) (r : List Char), (renderJ j).length ≤ fuel →
    (∀ ch, r.head? = some ch → isDigitChar ch = false) →
    parseJF fuel (renderJ j ++ r) = some (j, r) := by
  intro j hwf fuel r hfuel hr
  obtain ⟨c0, t0, hsh, hws, -, -, -⟩ := renderJ_shape j hwf
  have hlen1 : 1 ≤ (renderJ j).length := by rw [hsh]; simp
  cases fuel with
  | zero => exact absurd hfuel (by omega)
  | succ fuel =>
  match j with
  | .num n =>
    have hall : (natToChars n).all isDigitChar = true := by
      have hd := natDigitsRevF_all_digits n n
      simp only [natToChars, List.all_eq_true] at hd ⊢
      intro c hc
      exact hd c (List.mem_reverse.mp hc)
    have hq' : natToChars n = c0 :: t0 := by simpa [renderJ] using hsh
    have hd0 : isDigitChar c0 = true := by
      rw [hq'] at hall
      simp only [List.all_cons, Bool.and_eq_true] at hall
      exact hall.1
    have htd := takeWhile_append_head (natToChars n) r hall hr
    have hinp : renderJ (.num n) ++ r = c0 :: (t0 ++ r) := by
      simp [renderJ, hq']
    have hback : c0 :: (t0 ++ r) = natToChars n ++ r := by
      rw [hq']
      simp
    have h1 : ¬c0 = '"' := by intro hc; subst hc; exact absurd hd0 (by decide)
    have h2 : ¬c0 = '[' := by intro hc; subst hc; exact absurd hd0 (by decide)
    have h3 : ¬c0 = openBrace := by intro hc; subst hc; exact absurd hd0 (by decide)
    rw [hinp]
    simp only [parseJF, skipWS_cons hws, if_neg h1, if_neg h2, if_neg h3,
      if_pos hd0]
    rw [hback, htd.1, htd.2, parseNat_natToChars]
    simp [renderJ, hq']
  | .str s =>
    have hs : s.all (fun x => decide (x ≠ '"')) = true := by
      simp only [jWF, jStrOK, List.all_eq_true] at hwf ⊢
      intro c hc
      have hc2 := hwf c hc
      simp only [Bool.not_eq_true', decide_eq_false_iff_not] at hc2
      simp [hc2]
    have hts := takeWhile_append_cons s '"' r hs (by simp)
    have hinp : renderJ (.str s) ++ r = '"' :: (s ++ '"' :: r) := by
      simp [renderJ]
    rw [hinp]
    simp only [parseJF, skipWS_cons (show isWSChar '"' = false by decide)]
    rw [if_pos trivial]
    rw [hts.1, hts.2]
    rfl
  | .arr vs =>
    have hlwf : jListWF vs = true := by simpa [jWF] using hwf
    match vs with
    | [] =>
      have hinp : renderJ (.arr []) ++ r = '[' :: (']' :: r) := by
        simp [renderJ, renderJItems]
      rw [hinp]
      simp only [parseJF, skipWS_cons (show isWSChar '[' = false by decide)]
      simp
    | v :: vs' =>
      have hv : jWF v = true := by
        simp only [jListWF, Bool.and_eq_true] at hlwf
        exact hlwf.1
      obtain ⟨d0, t1, hsh1, -, hd1, -, -⟩ := renderJ_shape v hv
      obtain ⟨w, hw⟩ := renderJItems_cons_append v vs' (']' :: r)
      have hcs1 : renderJItems (v :: vs') ++ ']' :: r = d0 :: (t1 ++ w) := by
        rw [hw, hsh1]; simp
      have hinp : renderJ (.arr (v :: vs')) ++ r
          = '[' :: (renderJItems (v :: vs') ++ ']' :: r) := by
        simp [renderJ]
      have hit := parseJItemsF_render (v :: vs') (by simp) hlwf fuel r
        (by
          have hx : (renderJ (.arr (v :: vs'))).length
              = (renderJItems (v :: vs')).length + 2 := by
            simp [renderJ]
          rw [hx] at hfuel
          omega)
      rw [hinp, hcs1, parseJF_lbrack fuel d0 (t1 ++ w) hd1, ← hcs1, hit]
      rfl
  | .obj fs =>
    have hfwf : jFieldsWF fs = true := by simpa [jWF] using hwf
    match fs with
    | [] =>
      have hinp : renderJ (.obj []) ++ r = openBrace :: (closeBrace :: r) := by
        simp [renderJ, renderJFields]
      rw [hinp]
      simp only [parseJF,
        skipWS_cons (show isWSChar openBrace = false by decide)]
      rw [if_neg (by decide), if_neg (by decide)]
      simp
    | f0 :: fs' =>
      obtain ⟨w, hw⟩ := renderJFields_cons_append f0 fs' (closeBrace :: r)
      have hinp : renderJ (.obj (f0 :: fs')) ++ r = openBrace :: ('"' :: w) := by
        have hmid : renderJ (.obj (f0 :: fs')) ++ r
            = openBrace :: (renderJFields (f0 :: fs') ++ closeBrace :: r) := by
          simp [renderJ]
        rw [hmid, hw]
      have hfd := parseJFieldsF_render (f0 :: fs') (by simp) hfwf fuel r
        (by
          have hx : (renderJ (.obj (f0 :: fs'))).length
              = (renderJFields (f0 :: fs')).length + 2 := by
            simp [renderJ]
          rw [hx] at hfuel
          omega)
      rw [hinp, parseJF_lbrace fuel '"' w (by decide), ← hw, hfd]
      simp

/-- Parsing rendered array items restores them, stopping at `]`. -/
theorem parseJItemsF_render : ∀ (vs : List JValue), vs ≠ [] → jListWF vs = true →
    ∀ (fuel : Nat) (r : List Char), (renderJItems vs).length < fuel →
    parseJItemsF fuel (renderJItems vs ++ ']' :: r) = some (vs, ']' :: r) := by
  intro vs hne hwf fuel r hfuel
  cases fuel with
  | zero => exact absurd hfuel (by omega)
  | succ fuel =>
  match vs with
  | [] => exact absurd rfl hne
  | [v] =>
    simp only [jListWF, Bool.and_eq_true] at hwf
    have hp := parseJF_render v hwf.1 fuel (']' :: r)
      (by simpa [renderJItems] using Nat.lt_succ_iff.mp hfuel)
      (by intro ch hch; simp at hch; subst hch; decide)
    simp only [renderJItems]
    simp only [parseJItemsF, hp]
    simp
  | v :: w :: ws =>
    simp only [jListWF, Bool.and_eq_true] at hwf
    have hinp : renderJItems (v :: w :: ws) ++ ']' :: r
        = renderJ v ++ (',' :: (renderJItems (w :: ws) ++ ']' :: r)) := by
      simp [renderJItems]
    have hlsplit : (renderJItems (v :: w :: ws)).length
        = (renderJ v).length + 1 + (renderJItems (w :: ws)).length := by
      simp [renderJItems]
      omega
    have hp := parseJF_render v hwf.1 fuel
      (',' :: (renderJItems (w :: ws) ++ ']' :: r))
      (by rw [hlsplit] at hfuel; omega)
      (by intro ch hch; simp at hch; subst hch; decide)
    rw [hinp]
    simp only [parseJItemsF, hp]
    rw [parseJItemsF_render (w :: ws) (by simp) (by simp [jListWF, hwf.2]) fuel r
      (by rw [hlsplit] at hfuel; omega)]
    simp

/-- Parsing rendered object fields restores them, stopping at the closing
brace. -/
theorem parseJFieldsF_render : ∀ (fs : List (List Char × JValue)), fs ≠ [] →
    jFieldsWF fs = true →
    ∀ (fuel : Nat) (r : List Char), (renderJFields fs).length < fuel →
    parseJFieldsF fuel (renderJFields fs ++ closeBrace :: r)
      = some (fs, closeBrace :: r) := by
  intro fs hne hwf fuel r hfuel
  cases fuel with
  | zero => exact absurd hfuel (by omega)
  | succ fuel =>
  match fs with
  | [] => exact absurd rfl hne
  | (k, v) :: fs' =>
    simp only [jFieldsWF, Bool.and_eq_true] at hwf
    obtain ⟨⟨hk, hv⟩, hfs'⟩ := hwf
    have hks : k.all (fun x => decide (x ≠ '"')) = true := by
      simp only [jStrOK, List.all_eq_true] at hk ⊢
      intro c hc
      have hc2 := hk c hc
      simp only [Bool.not_eq_true', decide_eq_false_iff_not] at hc2
      simp [hc2]
    match fs' with
    | [] =>
      have hinp : renderJFields [(k, v)] ++ closeBrace :: r
          = '"' :: (k ++ '"' :: ':' :: (renderJ v ++ closeBrace :: r)) := by
        simp [renderJFields]
      rw [hinp]
      simp only [parseJFieldsF]
      have htk := takeWhile_append_cons k '"'
        (':' :: (renderJ v ++ closeBrace :: r)) hks (by simp)
      rw [htk.1, htk.2]
      have hp := parseJF_render v hv fuel (closeBrace :: r)
        (by
          simp only [renderJFields, List.length_append, List.length_cons] at hfuel
          omega)
        (by intro ch hch; simp at hch; subst hch; decide)
      simp only [hp]
      simp [closeBrace]
    | g :: gs =>
      have hinp : renderJFields ((k, v) :: g :: gs) ++ closeBrace :: r
          = '"' :: (k ++ '"' :: ':' :: (renderJ v
              ++ ',' :: (renderJFields (g :: gs) ++ closeBrace :: r))) := by
        simp [renderJFields]
      have hlsplit : (renderJFields ((k, v) :: g :: gs)).length
          = k.length + 3 + (renderJ v).length + 1
              + (renderJFields (g :: gs)).length := by
        simp [renderJFields]
        omega
      rw [hinp]
      simp only [parseJFieldsF]
      have htk := takeWhile_append_cons k '"'
        (':' :: (renderJ v ++ ',' :: (renderJFields (g :: gs) ++ closeBrace :: r)))
        hks (by simp)
      rw [htk.1, htk.2]
      have hp := parseJF_render v hv fuel
        (',' :: (renderJFields (g :: gs) ++ closeBrace :: r))
        (by rw [hlsplit] at hfuel; omega)
        (by intro ch hch; simp at hch; subst hch; decide)
      simp only [hp]
      rw [parseJFieldsF_render (g :: gs) (by simp) hfs' fuel r
        (by rw [hlsplit] at hfuel; omega)]
      simp

end

/-! ## Object-notation document round trip -/

/-- Parsing a rendered well-formed object-notation document restores
it. -/
theorem parseJSONDoc_render (j : JValue) (hwf : jWF j = true) :
    parseJSONDoc (renderJ j) = some j := by
  have h := parseJF_render j hwf (renderJ j).length []
    (by simp) (by intro ch hch; simp at hch)
  rw [List.append_nil] at h
  simp only [parseJSONDoc, h]
  rfl

/-- The fuel of the digit renderer is irrelevant above the value. -/
theorem natDigitsRevF_fuel : ∀ (fuel fuel' n : Nat), n ≤ fuel → n ≤ fuel' →
    natDigitsRevF fuel n = natDigitsRevF fuel' n := by
  intro fuel
  induction fuel with
  | zero =>
    intro fuel' n h h'
    have hz : n = 0 := by omega
    subst hz
    cases fuel' with
    | zero => rfl
    | succ f => simp [natDigitsRevF]
  | succ fuel ih =>
    intro fuel' n h h'
    by_cases h10 : n < 10
    · cases fuel' with
      | zero =>
        have hz : n = 0 := by omega
        subst hz
        simp [natDigitsRevF]
      | succ f => simp [natDigitsRevF, h10]
    · cases fuel' with
      | zero => omega
      | succ f =>
        simp only [natDigitsRevF, if_neg h10]
        rw [ih f (n / 10) (by omega) (by omega)]

/-- Unfolding of the canonical rendering at a multi-digit number. -/
theorem natToChars_step (n : Nat) (h : 10 ≤ n) :
    natToChars n = natToChars (n / 10) ++ [Char.ofNat (48 + n % 10)] := by
  obtain ⟨m, rfl⟩ : ∃ m, n = m + 1 := ⟨n - 1, by omega⟩
  have hstep : natDigitsRevF (m + 1) (m + 1)
      = Char.ofNat (48 + (m + 1) % 10) :: natDigitsRevF m ((m + 1) / 10) := by
    simp only [natDigitsRevF, if_neg (by omega : ¬m + 1 < 10)]
  have hfe : natDigitsRevF m ((m + 1) / 10)
      = natDigitsRevF ((m + 1) / 10) ((m + 1) / 10) :=
    natDigitsRevF_fuel m _ _ (by omega) le_rfl
  simp only [natToChars, hstep, hfe, List.reverse_cons]

/-- The canonical rendering of a single digit. -/
theorem natToChars_small (m : Nat) (h : m < 10) :
    natToChars m = [Char.ofNat (48 + m)] := by
  cases m with
  | zero => rfl
  | succ k => simp [natToChars, natDigitsRevF, h]

/-- A digit character is reconstructed from its value. -/
theorem char_ofNat_digitVal {c : Char} (h : isDigitChar c = true) :
    Char.ofNat (48 + digitVal c) = c := by
  simp only [isDigitChar, Bool.and_eq_true, decide_eq_true_eq] at h
  have he : 48 + digitVal c = c.toNat := by
    simp only [digitVal]
    omega
  rw [he, Char.ofNat_toNat]

/-- Digit-list evaluation only grows the accumulator. -/
theorem foldl_digits_ge : ∀ (l : List Char) (acc : Nat),
    acc ≤ l.foldl (fun a c => a * 10 + digitVal c) acc := by
  intro l
  induction l with
  | nil => intro acc; simp
  | cons c l ih =>
    intro acc
    simp only [List.foldl_cons]
    calc acc ≤ acc * 10 + digitVal c := by omega
    _ ≤ _ := ih _

/-- A numeral whose leading digit is not `0` has positive value. -/
theorem digitsVal_pos {c : Char} (l : List Char) (hd : isDigitChar c = true)
    (hc : c ≠ '0') : 1 ≤ digitsVal (c :: l) := by
  have h1 : 1 ≤ digitVal c := by
    simp only [isDigitChar, Bool.and_eq_true, decide_eq_true_eq] at hd
    have hne : c.toNat ≠ 48 := by
      intro he
      have h2 := Char.ofNat_toNat c
      rw [he] at h2
      have h3 : c = '0' := by rw [← h2]
      exact hc h3
    simp only [digitVal]
    omega
  simp only [digitsVal, List.foldl_cons]
  calc (1 : Nat) ≤ 0 * 10 + digitVal c := by omega
  _ ≤ _ := foldl_digits_ge _ _

/-- Evaluating and re-rendering a canonical numeral is the identity. -/
theorem natToChars_canon (v : List Char) (hc : canonNum v = true) :
    natToChars (digitsVal v) = v := by
  induction v using List.reverseRecOn with
  | nil => simp [canonNum] at hc
  | append_singleton l c ih =>
    simp only [canonNum, Bool.and_eq_true, decide_eq_true_eq,
      Bool.or_eq_true] at hc
    obtain ⟨⟨hne, hall⟩, hlead⟩ := hc
    have hcd : isDigitChar c = true := by
      simp only [List.all_eq_true] at hall
      exact hall c (by simp)
    have hcd10 : digitVal c < 10 := by
      simp only [isDigitChar, Bool.and_eq_true, decide_eq_true_eq] at hcd
      simp only [digitVal]
      omega
    match l with
    | [] =>
      simp only [List.nil_append]
      rw [digitsVal, List.foldl_cons, List.foldl_nil]
      have hv : 0 * 10 + digitVal c = digitVal c := by omega
      rw [hv, natToChars_small (digitVal c) hcd10, char_ofNat_digitVal hcd]
    | d :: l' =>
      have hdd : isDigitChar d = true := by
        simp only [List.all_eq_true] at hall
        exact hall d (by simp)
      have hd0 : d ≠ '0' := by
        rcases hlead with h | h
        · intro he
          apply h
          subst he
          simp
        · exact absurd h (by simp)
      have hlc : canonNum (d :: l') = true := by
        simp only [canonNum, Bool.and_eq_true, decide_eq_true_eq,
          Bool.or_eq_true, List.all_eq_true]
        refine ⟨⟨by simp, ?_⟩, Or.inl ?_⟩
        · intro x hx
          simp only [List.all_eq_true] at hall
          exact hall x (by simp only [List.mem_cons, List.mem_append] at hx ⊢; tauto)
        · simp [hd0]
      have hpos : 1 ≤ digitsVal (d :: l') := digitsVal_pos l' hdd hd0
      rw [digitsVal_append_singleton]
      have h10 : 10 ≤ digitsVal (d :: l') * 10 + digitVal c := by omega
      rw [natToChars_step _ h10]
      have hdiv : (digitsVal (d :: l') * 10 + digitVal c) / 10
          = digitsVal (d :: l') := by omega
      have hmod : (digitsVal (d :: l') * 10 + digitVal c) % 10
          = digitVal c := by omega
      rw [hdiv, hmod, ih hlc, char_ofNat_digitVal hcd]

/-- Typed attribute values are read back verbatim. -/
theorem jToAttr_attrToJ (v : List Char) : jToAttr (attrToJ v) = some v := by
  by_cases hc : canonNum v = true
  · simp only [attrToJ, hc, if_pos, jToAttr]
    rw [natToChars_canon v hc]
  · simp [attrToJ, hc, jToAttr]

/-- Unfolding of the field reader at a numeric attribute field. -/
theorem jFieldsToDoc_cons_num (k : List Char) (n : Nat)
    (rest : List (List Char × JValue)) :
    jFieldsToDoc ((k, JValue.num n) :: rest)
      = match jFieldsToDoc rest with
        | none => none
        | some (a, c) => some ((k, natToChars n) :: a, c) := rfl

/-- Unfolding of the field reader at a string attribute field. -/
theorem jFieldsToDoc_cons_str (k s : List Char)
    (rest : List (List Char × JValue)) :
    jFieldsToDoc ((k, JValue.str s) :: rest)
      = match jFieldsToDoc rest with
        | none => none
        | some (a, c) => some ((k, s) :: a, c) := rfl

/-- Reading back the mapped attribute/children fields restores them. -/
theorem jFieldsToDoc_attrs : ∀ (a : List (List Char × List Char))
    (c : List XNode), jListToDoc (docListToJ c) = some c →
    jFieldsToDoc (a.map (fun p => (p.1, attrToJ p.2)) ++
      (if c.isEmpty then [] else [("#nodes".data, JValue.arr (docListToJ c))]))
      = some (a, c) := by
  intro a
  induction a with
  | nil =>
    intro c hc
    cases c with
    | nil => simp [jFieldsToDoc]
    | cons y ys => simp [jFieldsToDoc, hc]
  | cons p a' ih =>
    intro c hc
    have hrest := ih c hc
    obtain ⟨k, v⟩ := p
    by_cases hcn : canonNum v = true
    · have hav : attrToJ v = .num (digitsVal v) := by simp [attrToJ, hcn]
      simp only [List.map_cons, List.cons_append, hav, jFieldsToDoc_cons_num,
        hrest]
      rw [natToChars_canon v hcn]
    · have hav : attrToJ v = .str v := by simp [attrToJ, hcn]
      simp only [List.map_cons, List.cons_append, hav, jFieldsToDoc_cons_str,
        hrest]

/-- Unfolding of the node reader at a name-headed object. -/
theorem jToDoc_obj_name (n : List Char) (rest : List (List Char × JValue)) :
    jToDoc (JValue.obj (("#name".data, JValue.str n) :: rest))
      = match jFieldsToDoc rest with
        | some (a, c) => some (XNode.mk n a c)
        | none => none := rfl

mutual

/-- Reading back the object-notation shape of a document node restores
the node. -/
theorem jToDoc_docToJ : ∀ (x : XNode), jToDoc (docToJ x) = some x
  | .mk n a c => by
    have hl := jListToDoc_docListToJ c
    have hf := jFieldsToDoc_attrs a c hl
    have hd : docToJ (.mk n a c)
        = JValue.obj (("#name".data, JValue.str n)
            :: (a.map (fun p => (p.1, attrToJ p.2)) ++
              (if c.isEmpty then []
               else [("#nodes".data, JValue.arr (docListToJ c))]))) := rfl
    rw [hd, jToDoc_obj_name, hf]

/-- Reading back the object-notation shapes of a node sequence restores
the sequence. -/
theorem jListToDoc_docListToJ : ∀ (xs : List XNode),
    jListToDoc (docListToJ xs) = some xs
  | [] => by simp [docListToJ, jListToDoc]
  | x :: xs => by
    have h1 := jToDoc_docToJ x
    have h2 := jListToDoc_docListToJ xs
    simp only [docListToJ, jListToDoc, h1, h2]

end

/-! ## Well-formedness of exported documents -/

/-- A digit character carries no markup metacharacter. -/
theorem digit_goodValueChar {c : Char} (h : isDigitChar c = true) :
    goodValueChar c = true := by
  have h1 : c ≠ '&' := fun he => absurd h (by subst he; decide)
  have h2 : c ≠ '<' := fun he => absurd h (by subst he; decide)
  have h3 : c ≠ '>' := fun he => absurd h (by subst he; decide)
  have h4 : c ≠ '"' := fun he => absurd h (by subst he; decide)
  have h5 : c ≠ '\'' := fun he => absurd h (by subst he; decide)
  simp [goodValueChar, h1, h2, h3, h4, h5]

/-- Canonical numerals are metacharacter-free attribute values. -/
theorem natToChars_goodValue (n : Nat) : goodValue (natToChars n) = true := by
  have hall := natDigitsRevF_all_digits n n
  simp only [goodValue, natToChars, List.all_eq_true] at hall ⊢
  intro c hc
  exact digit_goodValueChar (hall c (List.mem_reverse.mp hc))

/-- Flag renderings are metacharacter-free attribute values. -/
theorem boolChars_goodValue (b : Bool) : goodValue (boolChars b) = true := by
  cases b <;> decide

/-- Hex digits are metacharacter-free. -/
theorem hexDigit_goodValueChar {d : Nat} (h : d < 16) :
    goodValueChar (hexDigit d) = true := by
  interval_cases d <;> decide

/-- Hex dumps of byte lists are metacharacter-free attribute values. -/
theorem hexOfBytes_goodValue (bs : List Nat) (h : ∀ b ∈ bs, b < 256) :
    goodValue (hexOfBytes bs) = true := by
  simp only [goodValue, hexOfBytes, List.all_eq_true]
  intro c hc
  simp only [List.mem_flatMap] at hc
  obtain ⟨b, hb, hcb⟩ := hc
  have hb256 := h b hb
  simp only [hexByte, List.mem_cons, List.mem_singleton] at hcb
  rcases hcb with rfl | rfl | hfalse
  · exact hexDigit_goodValueChar (by omega)
  · exact hexDigit_goodValueChar (by omega)
  · simp at hfalse

/-- A service entry node is well-formed. -/
theorem docWF_svcNode (e : SvcEntry) : docWF (svcNode e) = true := by
  simp +decide [svcNode, docWF, attrOK, natToChars_goodValue, docListWF]

/-- Mapped service entry nodes are well-formed. -/
theorem docListWF_map_svcNode (es : List SvcEntry) :
    docListWF (es.map svcNode) = true := by
  induction es with
  | nil => rfl
  | cons e es ih => simp [docListWF, docWF_svcNode, ih]

/-- A decoded service-list table node is well-formed. -/
theorem docWF_patNode (tsid ver : Nat) (cur : Bool) (es : List SvcEntry) :
    docWF (patNode tsid ver cur es) = true := by
  simp +decide [patNode, docWF, attrOK, natToChars_goodValue,
    boolChars_goodValue, docListWF_map_svcNode]

/-- A generic fallback node is well-formed when the payload bytes are in
range. -/
theorem docWF_genericNode (s : Section) (h : ∀ b ∈ s.payload, b < 256) :
    docWF (genericNode s) = true := by
  cases hl : s.isLongForm with
  | true =>
    simp +decide [genericNode, hl, docWF, attrOK, natToChars_goodValue,
      boolChars_goodValue, hexOfBytes_goodValue s.payload h, docListWF]
  | false =>
    simp +decide [genericNode, hl, docWF, attrOK, natToChars_goodValue,
      boolChars_goodValue, hexOfBytes_goodValue s.payload h, docListWF]

/-- Node-sequence well-formedness distributes over append. -/
theorem docListWF_append : ∀ (xs ys : List XNode),
    docListWF (xs ++ ys) = (docListWF xs && docListWF ys) := by
  intro xs ys
  induction xs with
  | nil => simp [docListWF]
  | cons x xs ih => simp [docListWF, ih, Bool.and_assoc]

/-- Members of a replaced group come from the group or are the inserted
section. -/
theorem addToGroup_mem {g : List Section} {s t : Section}
    (ht : t ∈ addToGroup g s) : t ∈ g ∨ t = s := by
  simp only [addToGroup] at ht
  split at ht
  · simp only [List.mem_map] at ht
    obtain ⟨u, hu, hut⟩ := ht
    by_cases hq : (u.sectionNumber == s.sectionNumber) = true
    · rw [if_pos hq] at hut
      exact Or.inr hut.symm
    · rw [if_neg hq] at hut
      exact Or.inl (hut ▸ hu)
  · simp only [List.mem_append, List.mem_singleton] at ht
    rcases ht with h | h
    · exact Or.inl h
    · exact Or.inr h

/-- Members of groups after a keyed insert come from the groups or are the
inserted section. -/
theorem insertSection_mem : ∀ (gs : List (List Section)) (s : Section)
    (g : List Section), g ∈ insertSection gs s → ∀ t ∈ g,
    (∃ g0 ∈ gs, t ∈ g0) ∨ t = s := by
  intro gs
  induction gs with
  | nil =>
    intro s g hg t ht
    simp only [insertSection, List.mem_singleton] at hg
    subst hg
    simp only [List.mem_singleton] at ht
    exact Or.inr ht
  | cons g0 rest ih =>
    intro s g hg t ht
    simp only [insertSection] at hg
    split at hg
    · simp only [List.mem_cons] at hg
      rcases hg with rfl | hg
      · rcases addToGroup_mem ht with h | h
        · exact Or.inl ⟨g0, by simp, h⟩
        · exact Or.inr h
      · exact Or.inl ⟨g, by simp [hg], ht⟩
    · simp only [List.mem_cons] at hg
      rcases hg with rfl | hg
      · exact Or.inl ⟨g, by simp, ht⟩
      · rcases ih s g hg t ht with ⟨g1, hg1, htg1⟩ | h
        · exact Or.inl ⟨g1, by simp [hg1], htg1⟩
        · exact Or.inr h

/-- Members of groups after routing come from the groups or are the routed
section. -/
theorem routeSection_mem {gs : List (List Section)} {s : Section}
    {g : List Section} (hg : g ∈ routeSection gs s) :
    ∀ t ∈ g, (∃ g0 ∈ gs, t ∈ g0) ∨ t = s := by
  intro t ht
  simp only [routeSection] at hg
  split at hg
  · exact insertSection_mem gs s g hg t ht
  · simp only [List.mem_append, List.mem_singleton] at hg
    rcases hg with h | h
    · exact Or.inl ⟨g, h, ht⟩
    · subst h
      simp only [List.mem_singleton] at ht
      exact Or.inr ht

/-- Every section of every reassembled group is a stored section. -/
theorem reassemble_mem : ∀ (ss : List Section) (gs : List (List Section)),
    ∀ g ∈ ss.foldl routeSection gs, ∀ t ∈ g,
      (∃ g0 ∈ gs, t ∈ g0) ∨ t ∈ ss := by
  intro ss
  induction ss with
  | nil =>
    intro gs g hg t ht
    exact Or.inl ⟨g, hg, ht⟩
  | cons s ss ih =>
    intro gs g hg t ht
    simp only [List.foldl_cons] at hg
    rcases ih (routeSection gs s) g hg t ht with ⟨g0, hg0, htg0⟩ | h
    · rcases routeSection_mem hg0 t htg0 with ⟨g1, hg1, htg1⟩ | h
      · exact Or.inl ⟨g1, hg1, htg1⟩
      · subst h
        exact Or.inr (by simp)
    · exact Or.inr (by simp [h])

/-- Mapped generic fallback nodes are well-formed when payload bytes are
in range. -/
theorem docListWF_map_genericNode : ∀ (g : List Section),
    (∀ s ∈ g, ∀ b ∈ s.payload, b < 256) →
    docListWF (g.map genericNode) = true := by
  intro g
  induction g with
  | nil => intro _; rfl
  | cons s g ih =>
    intro h
    simp only [List.map_cons, docListWF, Bool.and_eq_true]
    exact ⟨docWF_genericNode s (h s (by simp)),
      ih (fun u hu => h u (by simp [hu]))⟩

/-- Every decoded group is a well-formed node sequence when the payload
bytes are in range. -/
theorem decodeGroup_docWF (g : List Section)
    (h : ∀ s ∈ g, ∀ b ∈ s.payload, b < 256) :
    docListWF (decodeGroup g) = true := by
  simp only [decodeGroup]
  split
  · match g with
    | [] => simp [patDecode, docListWF, docWF_patNode]
    | s0 :: _ => simp [patDecode, docListWF, docWF_patNode]
  · exact docListWF_map_genericNode g h

/-- The exported document of a valid file is well-formed. -/
theorem docWF_docOf (f : SectionFile)
    (hv : ∀ s ∈ f.sections, Section.valid s = true) :
    docWF (docOf f) = true := by
  have hflat : ∀ (gs : List (List Section)),
      (∀ g ∈ gs, ∀ s ∈ g, s ∈ f.sections) →
      docListWF (gs.flatMap decodeGroup) = true := by
    intro gs
    induction gs with
    | nil => intro _; rfl
    | cons g gs ih =>
      intro hmem
      simp only [List.flatMap_cons, docListWF_append, Bool.and_eq_true]
      refine ⟨?_, ih (fun g1 hg1 s hs => hmem g1 (by simp [hg1]) s hs)⟩
      apply decodeGroup_docWF
      intro s hs b hb
      have hsf := hmem g (by simp) s hs
      have hval := hv s hsf
      simp only [Section.valid, Bool.and_eq_true, List.all_eq_true,
        decide_eq_true_eq] at hval
      exact hval.1.2 b hb
  have hmain := hflat (reassemble f.sections) (fun g hg s hs => by
    rcases reassemble_mem f.sections [] g hg s hs with ⟨g0, hg0, _⟩ | h
    · simp at hg0
    · exact h)
  simp +decide [docOf, docWF, hmain]

/-- Name runs contain no quote. -/
theorem goodNameChars_jStrOK {s : List Char} (h : goodNameChars s = true) :
    jStrOK s = true := by
  simp only [goodNameChars, Bool.and_eq_true, List.all_eq_true] at h
  simp only [jStrOK, List.all_eq_true]
  intro c hc
  have hnc := h.2 c hc
  have hne : ¬c = '"' := fun he => absurd hnc (by subst he; decide)
  simp [hne]

/-- Metacharacter-free values contain no quote. -/
theorem goodValue_jStrOK {s : List Char} (h : goodValue s = true) :
    jStrOK s = true := by
  simp only [goodValue, List.all_eq_true] at h
  simp only [jStrOK, List.all_eq_true]
  intro c hc
  have hgc := h c hc
  simp only [goodValueChar, Bool.or_eq_true, decide_eq_true_eq,
    Bool.not_eq_true', Bool.or_eq_false_iff, decide_eq_false_iff_not] at hgc
  simp [hgc.1.2]

/-- A typed attribute value is well-formed object notation. -/
theorem jWF_attrToJ {v : List Char} (h : goodValue v = true) :
    jWF (attrToJ v) = true := by
  by_cases hc : canonNum v = true
  · simp [attrToJ, hc, jWF]
  · simp [attrToJ, hc, jWF, goodValue_jStrOK h]

/-- Field-sequence well-formedness distributes over append. -/
theorem jFieldsWF_append : ∀ (xs ys : List (List Char × JValue)),
    jFieldsWF (xs ++ ys) = (jFieldsWF xs && jFieldsWF ys) := by
  intro xs ys
  induction xs with
  | nil => simp [jFieldsWF]
  | cons x xs ih => simp [jFieldsWF, ih, Bool.and_assoc]

/-- Mapped well-formed attributes form well-formed fields. -/
theorem jFieldsWF_attrs : ∀ (a : List (List Char × List Char)),
    a.all attrOK = true →
    jFieldsWF (a.map (fun p => (p.1, attrToJ p.2))) = true := by
  intro a
  induction a with
  | nil => intro _; rfl
  | cons p a ih =>
    intro h
    simp only [List.all_cons, Bool.and_eq_true] at h
    simp only [attrOK, Bool.and_eq_true] at h
    simp only [List.map_cons, jFieldsWF, Bool.and_eq_true]
    exact ⟨⟨goodNameChars_jStrOK h.1.1, jWF_attrToJ h.1.2⟩, ih h.2⟩

mutual

/-- The object-notation shape of a well-formed document node is
well-formed. -/
theorem jWF_docToJ : ∀ (x : XNode), docWF x = true → jWF (docToJ x) = true
  | .mk n a c => by
    intro h
    simp only [docWF, Bool.and_eq_true] at h
    obtain ⟨⟨hn, ha⟩, hc⟩ := h
    have hla := jFieldsWF_attrs a ha
    cases c with
    | nil =>
      simp +decide [docToJ, jWF, jFieldsWF, jFieldsWF_append, hla,
        goodNameChars_jStrOK hn]
    | cons y ys =>
      have hlc := jListWF_docListToJ (y :: ys) hc
      simp +decide [docToJ, jWF, jFieldsWF, jFieldsWF_append, hla,
        goodNameChars_jStrOK hn, hlc]

/-- The object-notation shapes of a well-formed node sequence are
well-formed. -/
theorem jListWF_docListToJ : ∀ (xs : List XNode), docListWF xs = true →
    jListWF (docListToJ xs) = true
  | [] => fun _ => rfl
  | x :: xs => by
    intro h
    simp only [docListWF, Bool.and_eq_true] at h
    simp only [docListToJ, jListWF, Bool.and_eq_true]
    exact ⟨jWF_docToJ x h.1, jListWF_docListToJ xs h.2⟩

end

/-! ## Re-encoding exported nodes -/

/-- Reading one exported service entry node restores the entry. -/
theorem svcOfNode_svcNode (e : SvcEntry) : svcOfNode (svcNode e) = .ok e := by
  have h1 : reqNat (svcNode e) "service_id".data = .ok e.serviceId := by
    rw [show reqNat (svcNode e) "service_id".data
        = match parseNat (natToChars e.serviceId) with
          | none => Except.error (.attributeSchemaMismatch "service_id".data)
          | some n => .ok n from rfl, parseNat_natToChars]
  have h2 : reqNat (svcNode e) "program_map_PID".data = .ok e.pmPid := by
    rw [show reqNat (svcNode e) "program_map_PID".data
        = match parseNat (natToChars e.pmPid) with
          | none => Except.error (.attributeSchemaMismatch "program_map_PID".data)
          | some n => .ok n from rfl, parseNat_natToChars]
  unfold svcOfNode
  rw [h1, h2]
  rfl

/-- Reading exported service entry nodes restores the entries. -/
theorem svcEntriesOf_map_svcNode (es : List SvcEntry) :
    svcEntriesOf (es.map svcNode) = .ok es := by
  induction es with
  | nil => rfl
  | cons e es ih =>
    have hstep : svcEntriesOf (svcNode e :: List.map svcNode es)
        = (do
            let v ← svcOfNode (svcNode e)
            let vs ← svcEntriesOf (List.map svcNode es)
            Except.ok (v :: vs)) := rfl
    rw [List.map_cons, hstep, svcOfNode_svcNode e, ih]
    rfl

/-- Re-encoding an exported service-list node re-packs the entries. -/
theorem patEncode_patNode (tsid ver : Nat) (cur : Bool) (es : List SvcEntry) :
    patEncode (patNode tsid ver cur es) = .ok (patSections tsid ver cur es) := by
  have h1 : reqNat (patNode tsid ver cur es) "transport_stream_id".data
      = .ok tsid := by
    rw [show reqNat (patNode tsid ver cur es) "transport_stream_id".data
        = match parseNat (natToChars tsid) with
          | none =>
            Except.error (.attributeSchemaMismatch "transport_stream_id".data)
          | some n => .ok n from rfl, parseNat_natToChars]
  have h2 : optNat (patNode tsid ver cur es) "version".data 0 = .ok ver := by
    rw [show optNat (patNode tsid ver cur es) "version".data 0
        = match parseNat (natToChars ver) with
          | none => Except.error (.attributeSchemaMismatch "version".data)
          | some n => .ok n from rfl, parseNat_natToChars]
  have h3 : optBool (patNode tsid ver cur es) "current".data true = .ok cur := by
    cases cur with
    | true => rfl
    | false => rfl
  have h4 : svcEntriesOf (patNode tsid ver cur es).children = .ok es := by
    rw [show (patNode tsid ver cur es).children = es.map svcNode from rfl]
    exact svcEntriesOf_map_svcNode es
  unfold patEncode
  rw [h1, h2, h3, h4]
  rfl

/-- Registry dispatch on an exported service-list node. -/
theorem encodeNode_patNode (tsid ver : Nat) (cur : Bool) (es : List SvcEntry) :
    encodeNode (patNode tsid ver cur es) = .ok (patSections tsid ver cur es) := by
  rw [show encodeNode (patNode tsid ver cur es)
      = patEncode (patNode tsid ver cur es) from rfl]
  exact patEncode_patNode tsid ver cur es

/-- Registry dispatch on an exported generic fallback node. -/
theorem encodeNode_genericNode (s : Section) (hpl : ∀ b ∈ s.payload, b < 256) :
    encodeNode (genericNode s) = .ok [stripSec s] := by
  rw [show encodeNode (genericNode s)
      = (genericEncode (genericNode s)).map ([·]) from rfl,
    genericEncode_genericNode s hpl]
  rfl

/-! ## General splitting properties of the service-list codec -/

/-- Entries parsed from in-range bytes are in range. -/
theorem parseEntries_range : ∀ (bs : List Nat), (∀ b ∈ bs, b < 256) →
    ∀ e ∈ parseEntries bs, e.serviceId < 65536 ∧ e.pmPid < 8192
  | b0 :: b1 :: b2 :: b3 :: rest => by
    intro h e he
    rw [show parseEntries (b0 :: b1 :: b2 :: b3 :: rest)
        = ⟨b0 * 256 + b1, b2 % 32 * 256 + b3⟩ :: parseEntries rest from rfl] at he
    rcases List.mem_cons.mp he with rfl | he'
    · refine ⟨?_, ?_⟩
      · show b0 * 256 + b1 < 65536
        have hb0 := h b0 (by simp)
        have hb1 := h b1 (by simp)
        omega
      · show b2 % 32 * 256 + b3 < 8192
        have hb3 := h b3 (by simp)
        omega
    · exact parseEntries_range rest (fun b hb => h b (by simp [hb])) e he'
  | [] => by intro _ e he; simp [parseEntries] at he
  | [_] => by intro _ e he; simp [parseEntries] at he
  | [_, _] => by intro _ e he; simp [parseEntries] at he
  | [_, _, _] => by intro _ e he; simp [parseEntries] at he

/-- Every numbered section carries the encoded header fields. -/
theorem patSectionsGo_fields (tsid ver : Nat) (cur : Bool) (last : Nat) :
    ∀ (cks : List (List SvcEntry)) (i : Nat),
      ∀ s ∈ patSectionsGo tsid ver cur last i cks,
        s.isLongForm = true ∧ s.tableId = 0 ∧ s.tableIdExtension = tsid ∧
        s.versionNumber = ver ∧ s.currentNext = cur ∧
        s.lastSectionNumber = last := by
  intro cks
  induction cks with
  | nil => intro i s hs; simp [patSectionsGo] at hs
  | cons ck cks ih =>
    intro i s hs
    simp only [patSectionsGo, List.mem_cons] at hs
    rcases hs with rfl | hs
    · exact ⟨rfl, rfl, rfl, rfl, rfl, rfl⟩
    · exact ih (i + 1) s hs

/-- The chunk list of the splitter is never empty. -/
theorem patChunks_ne_nil (es : List SvcEntry) :
    (if es.isEmpty then [[]] else chunks 253 es) ≠ ([] : List (List SvcEntry)) := by
  cases es with
  | nil => simp
  | cons a l => simp [chunks, chunksF]

/-- The chunk list of the splitter flattens back to the entries. -/
theorem patChunks_flatten (es : List SvcEntry) :
    (if es.isEmpty then [[]] else chunks 253 es).flatten = es := by
  cases es with
  | nil => simp
  | cons a l =>
    simp only [List.isEmpty_cons, Bool.false_eq_true, if_false]
    exact chunksF253_flatten (a :: l).length (a :: l) le_rfl

/-- The splitter is the numbered-section builder on its chunk list. -/
theorem patSections_shape (tsid ver : Nat) (cur : Bool) (es : List SvcEntry) :
    patSections tsid ver cur es
      = patSectionsGo tsid ver cur
          ((if es.isEmpty then [[]] else chunks 253 es).length - 1) 0
          (if es.isEmpty then [[]] else chunks 253 es) := rfl

/-- The ordered payload of a freshly numbered split is the packed chunk
bytes. -/
theorem orderedPayload_go (tsid ver : Nat) (cur : Bool)
    (cks : List (List SvcEntry)) (hne : cks ≠ []) :
    orderedPayload (patSectionsGo tsid ver cur (cks.length - 1) 0 cks)
      = entriesBytes cks.flatten := by
  have hlen : (patSectionsGo tsid ver cur (cks.length - 1) 0 cks).length
      = cks.length := patSectionsGo_length tsid ver cur (cks.length - 1) cks 0
  have hmap : (patSectionsGo tsid ver cur (cks.length - 1) 0 cks).map
      (·.sectionNumber)
      = List.range' 0 (patSectionsGo tsid ver cur (cks.length - 1) 0 cks).length := by
    rw [patSectionsGo_map_num, hlen]
  have hfm := filterMap_find_ranged _ 0 hmap
  have hpos : 0 < cks.length := by
    cases cks with
    | nil => exact absurd rfl hne
    | cons a l => simp
  have hlast : groupLast (patSectionsGo tsid ver cur (cks.length - 1) 0 cks)
      = cks.length - 1 := by
    cases cks with
    | nil => exact absurd rfl hne
    | cons ck cks' => rfl
  have hcnt : groupLast (patSectionsGo tsid ver cur (cks.length - 1) 0 cks) + 1
      = (patSectionsGo tsid ver cur (cks.length - 1) 0 cks).length := by
    rw [hlast, hlen]
    omega
  have hpl : ((patSectionsGo tsid ver cur (cks.length - 1) 0 cks).map
      (·.payload)).flatten = entriesBytes cks.flatten := by
    rw [patSectionsGo_payloads, flatten_map_entriesBytes]
  simp only [orderedPayload]
  rw [hcnt, List.range_eq_range', hfm]
  rw [← hpl]
  simp [List.flatMap_def]

/-- The ordered payload of a split table is the packed entry bytes. -/
theorem orderedPayload_patSections (tsid ver : Nat) (cur : Bool)
    (es : List SvcEntry) :
    orderedPayload (patSections tsid ver cur es) = entriesBytes es := by
  rw [patSections_shape,
    orderedPayload_go tsid ver cur _ (patChunks_ne_nil es), patChunks_flatten]

/-- A split table is a complete group. -/
theorem complete_patSections (tsid ver : Nat) (cur : Bool) (es : List SvcEntry) :
    complete (patSections tsid ver cur es) = true := by
  have hlen : (patSections tsid ver cur es).length
      = (if es.isEmpty then [[]] else chunks 253 es).length := by
    rw [patSections_shape]
    exact patSectionsGo_length tsid ver cur _ _ 0
  have hpos : 0 < (patSections tsid ver cur es).length := by
    rw [hlen]
    cases hq : (if es.isEmpty then [[]] else chunks 253 es) with
    | nil => exact absurd hq (patChunks_ne_nil es)
    | cons a l => simp
  have hfields : ∀ s ∈ patSections tsid ver cur es,
      s.isLongForm = true ∧ s.tableId = 0 ∧ s.tableIdExtension = tsid ∧
      s.versionNumber = ver ∧ s.currentNext = cur ∧
      s.lastSectionNumber = (patSections tsid ver cur es).length - 1 := by
    intro s hs
    rw [patSections_shape] at hs
    have h := patSectionsGo_fields tsid ver cur _ _ 0 s hs
    rw [← hlen] at h
    exact h
  have hmap : (patSections tsid ver cur es).map (·.sectionNumber)
      = List.range' 0 (patSections tsid ver cur es).length := by
    conv_lhs => rw [patSections_shape]
    rw [patSectionsGo_map_num, hlen]
  have hcnt : ∀ k, k < (patSections tsid ver cur es).length →
      (patSections tsid ver cur es).countP
        (fun s => s.sectionNumber == k) = 1 := by
    intro k hk
    have h1 : List.count k ((patSections tsid ver cur es).map
        (·.sectionNumber)) = 1 := by
      rw [hmap]
      exact List.count_eq_one_of_mem (List.nodup_range' _ _)
        (by rw [List.mem_range'_1]; omega)
    rw [List.count, List.countP_map] at h1
    exact h1
  cases hq : patSections tsid ver cur es with
  | nil =>
    rw [hq] at hpos
    simp at hpos
  | cons s0 tl =>
    have hs0 := hfields s0 (by rw [hq]; simp)
    simp only [complete, hs0.1, if_pos]
    refine Bool.and_eq_true_iff.mpr ⟨Bool.and_eq_true_iff.mpr ⟨?_, ?_⟩, ?_⟩
    · rw [List.all_eq_true]
      intro s hs
      have hf := hfields s (by rw [hq]; exact hs)
      simp [hf.1, hf.2.2.2.2.2, hs0.2.2.2.2.2]
    · rw [List.all_eq_true]
      intro k hk
      rw [List.mem_range] at hk
      have hk2 : k < (patSections tsid ver cur es).length := by
        have := hs0.2.2.2.2.2
        omega
      have := hcnt k hk2
      rw [hq] at this
      simp [this]
    · simp only [beq_iff_eq]
      have h6 := hs0.2.2.2.2.2
      have hlen2 : (s0 :: tl).length = (patSections tsid ver cur es).length := by
        rw [hq]
      rw [h6, ← hlen2]
      have hp2 : 0 < (s0 :: tl).length := by simp
      omega

/-- Decoding a freshly split table through the registry restores its
node. -/
theorem decodeGroup_patSections (tsid ver : Nat) (cur : Bool)
    (es : List SvcEntry)
    (hr : ∀ e ∈ es, e.serviceId < 65536 ∧ e.pmPid < 8192) :
    decodeGroup (patSections tsid ver cur es) = [patNode tsid ver cur es] := by
  have hpos : 0 < (patSections tsid ver cur es).length := by
    rw [patSections_shape, patSectionsGo_length]
    cases hq : (if es.isEmpty then [[]] else chunks 253 es) with
    | nil => exact absurd hq (patChunks_ne_nil es)
    | cons a l => simp
  cases hq : patSections tsid ver cur es with
  | nil =>
    rw [hq] at hpos
    simp at hpos
  | cons s0 tl =>
    have hs0 : s0.isLongForm = true ∧ s0.tableId = 0 ∧
        s0.tableIdExtension = tsid ∧ s0.versionNumber = ver ∧
        s0.currentNext = cur ∧ True := by
      have hmem : s0 ∈ patSections tsid ver cur es := by rw [hq]; simp
      rw [patSections_shape] at hmem
      have h := patSectionsGo_fields tsid ver cur _ _ 0 s0 hmem
      exact ⟨h.1, h.2.1, h.2.2.1, h.2.2.2.1, h.2.2.2.2.1, trivial⟩
    have hcomp := complete_patSections tsid ver cur es
    rw [hq] at hcomp
    have hop := orderedPayload_patSections tsid ver cur es
    rw [hq] at hop
    simp only [decodeGroup]
    split
    next =>
      simp only [patDecode, hs0.2.2.1, hs0.2.2.2.1, hs0.2.2.2.2.1, hop]
      rw [parseEntries_entriesBytes es hr]
    next hcond =>
      exfalso
      apply hcond
      simp [hcomp, hs0.1, hs0.2.1, registeredIds]

/-! ## The generic fallback path under re-encoding -/

/-- The registry decoder, phrased through the registry condition. -/
theorem decodeGroup_eq (g : List Section) :
    decodeGroup g
      = if regCond g then [patDecode g] else g.map genericNode := rfl

/-- The re-encoder, phrased through the registry condition. -/
theorem reEnc_eq (g : List Section) :
    reEnc g
      = if regCond g then
          (match g with
           | [] => []
           | s0 :: _ =>
             patSections s0.tableIdExtension s0.versionNumber s0.currentNext
               (parseEntries (orderedPayload g)))
        else g.map stripSec := rfl

/-- Normalizing a section keeps its form flag. -/
theorem stripSec_isLongForm (s : Section) :
    (stripSec s).isLongForm = s.isLongForm := by
  cases h : s.isLongForm <;> simp [stripSec, h]

/-- Normalizing a section keeps its table id. -/
theorem stripSec_tableId (s : Section) : (stripSec s).tableId = s.tableId := by
  cases h : s.isLongForm <;> simp [stripSec, h]

/-- The generic fallback node ignores the normalized fields. -/
theorem genericNode_stripSec (s : Section) :
    genericNode (stripSec s) = genericNode s := by
  cases h : s.isLongForm <;> simp [stripSec, h, genericNode]

/-- Completeness is invariant under normalization on homogeneous groups. -/
theorem complete_map_stripSec (g : List Section)
    (hhom : (∀ s ∈ g, s.isLongForm = true) ∨
      (∃ s, g = [s] ∧ s.isLongForm = false)) :
    complete (g.map stripSec) = complete g := by
  rcases hhom with hall | ⟨s, rfl, hs⟩
  · cases g with
    | nil => rfl
    | cons s0 tl =>
      have h0 : s0.isLongForm = true := hall s0 (by simp)
      have hmapeq : (s0 :: tl).map stripSec
          = (s0 :: tl).map (fun s => { s with crc32Val := 0 }) := by
        apply List.map_congr_left
        intro s hsm
        have hls := hall s hsm
        simp [stripSec, hls]
      rw [hmapeq]
      simp only [complete, List.map_cons]
      rw [show ({ s0 with crc32Val := 0 } : Section).isLongForm
          = s0.isLongForm from rfl]
      simp [h0, List.all_cons, List.all_map, List.countP_cons, List.countP_map,
        Function.comp_def, List.length_map]
  · simp [stripSec, hs, complete]

/-- The registry condition is invariant under normalization on homogeneous
groups. -/
theorem regCond_map_stripSec (g : List Section)
    (hhom : (∀ s ∈ g, s.isLongForm = true) ∨
      (∃ s, g = [s] ∧ s.isLongForm = false)) :
    regCond (g.map stripSec) = regCond g := by
  cases g with
  | nil => rfl
  | cons s0 tl =>
    simp only [regCond]
    rw [complete_map_stripSec _ hhom]
    simp [stripSec_isLongForm, stripSec_tableId]

/-- The generic fallback path decodes unchanged after re-encoding. -/
theorem decodeGroup_map_stripSec (g : List Section)
    (hhom : (∀ s ∈ g, s.isLongForm = true) ∨
      (∃ s, g = [s] ∧ s.isLongForm = false))
    (hC : regCond g = false) :
    decodeGroup (g.map stripSec) = decodeGroup g := by
  have h1 : regCond (g.map stripSec) = false := by
    rw [regCond_map_stripSec g hhom, hC]
  rw [decodeGroup_eq, decodeGroup_eq, h1, hC]
  simp only [Bool.false_eq_true, if_false]
  rw [List.map_map]
  apply List.map_congr_left
  intro s _
  exact genericNode_stripSec s

/-! ## Reassembler invariants (§4.2) -/

/-- The key relation, unfolded. -/
theorem sameKey_iff {s t : Section} :
    sameKey s t = true ↔
      s.isLongForm = true ∧ t.isLongForm = true ∧ s.tableId = t.tableId ∧
      s.tableIdExtension = t.tableIdExtension ∧
      s.versionNumber = t.versionNumber := by
  simp [sameKey, and_assoc]

/-- The key relation is symmetric. -/
theorem sameKey_symm {s t : Section} (h : sameKey s t = true) :
    sameKey t s = true := by
  rw [sameKey_iff] at h ⊢
  exact ⟨h.2.1, h.1, h.2.2.1.symm, h.2.2.2.1.symm, h.2.2.2.2.symm⟩

/-- The key relation is transitive. -/
theorem sameKey_trans {s t u : Section} (h1 : sameKey s t = true)
    (h2 : sameKey t u = true) : sameKey s u = true := by
  rw [sameKey_iff] at h1 h2 ⊢
  exact ⟨h1.1, h2.2.1, h1.2.2.1.trans h2.2.2.1,
    h1.2.2.2.1.trans h2.2.2.2.1, h1.2.2.2.2.trans h2.2.2.2.2⟩

/-- A short-form section never shares a key. -/
theorem sameKey_short {s t : Section} (h : t.isLongForm = false) :
    sameKey s t = false := by
  rw [Bool.eq_false_iff]
  intro hc
  rw [sameKey_iff] at hc
  rw [hc.2.1] at h
  exact absurd h (by simp)

/-- Inserting a matching long-form section preserves group coherence. -/
theorem addToGroup_coherent {s0 : Section} {tl : List Section} {s : Section}
    (hg : coherent (s0 :: tl)) (hmatch : sameKey s0 s = true) :
    coherent (addToGroup (s0 :: tl) s) := by
  obtain ⟨s1, tl1, heq, hcase⟩ := hg
  rw [List.cons.injEq] at heq
  obtain ⟨h1, h2⟩ := heq
  subst h1
  subst h2
  rcases hcase with ⟨hlong, hkeys, hnodup⟩ | ⟨hshort, -⟩
  · simp only [addToGroup]
    split
    next hdup =>
      refine ⟨if s0.sectionNumber == s.sectionNumber then s else s0,
        tl.map (fun t => if t.sectionNumber == s.sectionNumber then s else t),
        by simp, Or.inl ⟨?_, ?_, ?_⟩⟩
      · by_cases hq : (s0.sectionNumber == s.sectionNumber) = true
        · rw [if_pos hq]
          exact (sameKey_iff.mp hmatch).2.1
        · rw [if_neg hq]
          exact hlong
      · intro t ht
        have ht2 : t ∈ (s0 :: tl).map
            (fun u => if u.sectionNumber == s.sectionNumber then s else u) := by
          simp only [List.map_cons]
          exact ht
        obtain ⟨u, hu, hut⟩ := List.mem_map.mp ht2
        rw [← hut]
        have hku : sameKey s0 u = true := hkeys u hu
        by_cases hq1 : (s0.sectionNumber == s.sectionNumber) = true <;>
          by_cases hq2 : (u.sectionNumber == s.sectionNumber) = true
        · rw [if_pos hq1, if_pos hq2]
          exact sameKey_trans (sameKey_symm hmatch) hmatch
        · rw [if_pos hq1, if_neg hq2]
          exact sameKey_trans (sameKey_symm hmatch) hku
        · rw [if_neg hq1, if_pos hq2]
          exact hmatch
        · rw [if_neg hq1, if_neg hq2]
          exact hku
      · have hmapnum : (List.map
            (fun t => if t.sectionNumber == s.sectionNumber then s else t)
            (s0 :: tl)).map (·.sectionNumber)
            = (s0 :: tl).map (·.sectionNumber) := by
          rw [List.map_map]
          apply List.map_congr_left
          intro u _
          by_cases hq : (u.sectionNumber == s.sectionNumber) = true
          · simp only [Function.comp_apply, if_pos hq]
            rw [beq_iff_eq] at hq
            exact hq.symm
          · simp only [Function.comp_apply, if_neg hq]
        rw [hmapnum]
        exact hnodup
    next hdup =>
      refine ⟨s0, tl ++ [s], by simp, Or.inl ⟨hlong, ?_, ?_⟩⟩
      · intro t ht
        simp only [List.mem_cons, List.mem_append, List.mem_singleton] at ht
        rcases ht with (rfl | ht) | (rfl | h0)
        · exact hkeys t (by simp)
        · exact hkeys t (by simp [ht])
        · exact hmatch
        · simp at h0
      · rw [List.map_append, List.nodup_append]
        refine ⟨hnodup, by simp, ?_⟩
        intro a ha hb
        simp only [List.map_cons, List.map_nil, List.mem_singleton] at hb
        subst hb
        apply hdup
        obtain ⟨t, ht, hta⟩ := List.mem_map.mp ha
        simp only [List.any_eq_true]
        exact ⟨t, ht, by simp [hta]⟩
  · rw [sameKey_iff] at hmatch
    rw [hmatch.1] at hshort
    exact absurd hshort (by simp)

/-- Keyed insertion preserves group coherence and key disjointness. -/
theorem insertSection_invariant : ∀ (gs : List (List Section)) (s : Section),
    s.isLongForm = true →
    (∀ g ∈ gs, coherent g) →
    gs.Pairwise keysDisjoint →
    (∀ g ∈ insertSection gs s, coherent g) ∧
      (insertSection gs s).Pairwise keysDisjoint := by
  intro gs
  induction gs with
  | nil =>
    intro s hs _ _
    constructor
    · intro g hg
      simp only [insertSection, List.mem_singleton] at hg
      subst hg
      refine ⟨s, [], rfl, Or.inl ⟨hs, ?_, by simp⟩⟩
      intro t ht
      simp only [List.mem_singleton] at ht
      subst ht
      rw [sameKey_iff]
      exact ⟨hs, hs, rfl, rfl, rfl⟩
    · simp [insertSection]
  | cons g0 rest ih =>
    intro s hs hcoh hpw
    have hg0 : coherent g0 := hcoh g0 (by simp)
    have hcrest : ∀ g ∈ rest, coherent g := fun g hg => hcoh g (by simp [hg])
    rw [List.pairwise_cons] at hpw
    obtain ⟨hg0rest, hpwrest⟩ := hpw
    simp only [insertSection]
    split
    next hmatch =>
      obtain ⟨s0, tl, rfl, hcase⟩ := hg0
      simp only [List.head?_cons] at hmatch
      simp at hmatch
      constructor
      · intro g hg
        rcases List.mem_cons.mp hg with rfl | hg
        · exact addToGroup_coherent ⟨s0, tl, rfl, hcase⟩ hmatch
        · exact hcrest g hg
      · rw [List.pairwise_cons]
        refine ⟨?_, hpwrest⟩
        intro g' hg' t ht u hu
        rcases addToGroup_mem ht with htg | rfl
        · exact hg0rest g' hg' t htg u hu
        · rw [Bool.eq_false_iff]
          intro hsu
          have h0u : sameKey s0 u = true := sameKey_trans hmatch hsu
          have hdis := hg0rest g' hg' s0 (by simp) u hu
          simp [hdis] at h0u
    next hnomatch =>
      have hih := ih s hs hcrest hpwrest
      constructor
      · intro g hg
        rcases List.mem_cons.mp hg with rfl | hg
        · exact hg0
        · exact hih.1 g hg
      · rw [List.pairwise_cons]
        refine ⟨?_, hih.2⟩
        intro g' hg' t ht u hu
        rcases insertSection_mem rest s g' hg' u hu with ⟨g1, hg1, hug1⟩ | rfl
        · exact hg0rest g1 hg1 t ht u hug1
        · obtain ⟨s0, tl, rfl, hcase⟩ := hg0
          simp only [List.head?_cons] at hnomatch
          simp at hnomatch
          rcases hcase with ⟨hlong, hkeys, -⟩ | ⟨hshort, rfl⟩
          · rw [Bool.eq_false_iff]
            intro hts
            have h0t : sameKey s0 t = true := hkeys t ht
            have h0u : sameKey s0 u = true := sameKey_trans h0t hts
            simp [hnomatch] at h0u
          · simp only [List.mem_singleton] at ht
            subst ht
            rw [Bool.eq_false_iff]
            intro hts
            rw [sameKey_iff] at hts
            rw [hts.1] at hshort
            exact absurd hshort (by simp)

/-- Routing one section preserves coherence and key disjointness. -/
theorem routeSection_invariant (gs : List (List Section)) (s : Section)
    (hcoh : ∀ g ∈ gs, coherent g) (hpw : gs.Pairwise keysDisjoint) :
    (∀ g ∈ routeSection gs s, coherent g) ∧
      (routeSection gs s).Pairwise keysDisjoint := by
  simp only [routeSection]
  split
  next hlong =>
    exact insertSection_invariant gs s hlong hcoh hpw
  next hshort =>
    have hshort' : s.isLongForm = false := by
      simpa using hshort
    constructor
    · intro g hg
      rcases List.mem_append.mp hg with hg | hg
      · exact hcoh g hg
      · simp only [List.mem_singleton] at hg
        subst hg
        exact ⟨s, [], rfl, Or.inr ⟨hshort', rfl⟩⟩
    · rw [List.pairwise_append]
      refine ⟨hpw, by simp, ?_⟩
      intro g1 hg1 g2 hg2
      simp only [List.mem_singleton] at hg2
      subst hg2
      intro t ht u hu
      simp only [List.mem_singleton] at hu
      subst hu
      exact sameKey_short hshort'

/-- Folding the router preserves coherence and key disjointness. -/
theorem foldl_route_invariant : ∀ (ss : List Section)
    (gs : List (List Section)),
    (∀ g ∈ gs, coherent g) → gs.Pairwise keysDisjoint →
    (∀ g ∈ ss.foldl routeSection gs, coherent g) ∧
      (ss.foldl routeSection gs).Pairwise keysDisjoint := by
  intro ss
  induction ss with
  | nil => intro gs h1 h2; exact ⟨h1, h2⟩
  | cons s ss ih =>
    intro gs h1 h2
    simp only [List.foldl_cons]
    have hr := routeSection_invariant gs s h1 h2
    exact ih (routeSection gs s) hr.1 hr.2

/-- Every reassembled group is coherent and groups are key disjoint. -/
theorem reassemble_invariant (ss : List Section) :
    (∀ g ∈ reassemble ss, coherent g) ∧
      (reassemble ss).Pairwise keysDisjoint :=
  foldl_route_invariant ss [] (by simp) (by simp)

/-! ## Reassembling freshly encoded blocks -/

/-- Appending a fresh section number extends the group. -/
theorem addToGroup_eq_append {g : List Section} {s : Section}
    (h : (g.any fun t => t.sectionNumber == s.sectionNumber) = false) :
    addToGroup g s = g ++ [s] := by
  simp only [addToGroup]
  rw [if_neg (by simp [h])]

/-- A disjoint group's head never matches. -/
theorem headCond_of_disjoint {g b : List Section} {s : Section}
    (hdis : keysDisjoint g b) (hs : s ∈ b) :
    (g.head?.map (sameKey · s)).getD false = false := by
  cases g with
  | nil => rfl
  | cons h t =>
    simp only [List.head?_cons]
    simp only [Option.map, Option.getD]
    exact hdis h (by simp) s hs

/-- Insertion with no matching group opens a fresh group at the end. -/
theorem insertSection_no_match : ∀ (gs : List (List Section)) (s : Section),
    (∀ g ∈ gs, (g.head?.map (sameKey · s)).getD false = false) →
    insertSection gs s = gs ++ [[s]] := by
  intro gs
  induction gs with
  | nil => intro s _; rfl
  | cons g0 rest ih =>
    intro s hdis
    simp only [insertSection]
    rw [if_neg (by rw [hdis g0 (by simp)]; simp)]
    rw [ih s (fun g hg => hdis g (by simp [hg]))]
    simp

/-- Insertion matching only the final group extends that group. -/
theorem insertSection_match_last : ∀ (gs : List (List Section))
    (cur : List Section) (s s0 : Section),
    cur.head? = some s0 → sameKey s0 s = true →
    (∀ g ∈ gs, (g.head?.map (sameKey · s)).getD false = false) →
    insertSection (gs ++ [cur]) s = gs ++ [addToGroup cur s] := by
  intro gs
  induction gs with
  | nil =>
    intro cur s s0 hhead hkey _
    simp only [List.nil_append, insertSection]
    rw [hhead]
    simp [hkey]
  | cons g0 rest ih =>
    intro cur s s0 hhead hkey hdis
    simp only [List.cons_append, insertSection]
    rw [if_neg (by rw [hdis g0 (by simp)]; simp)]
    rw [show (rest.append [cur]) = rest ++ [cur] from rfl]
    rw [ih cur s s0 hhead hkey (fun g hg => hdis g (by simp [hg]))]

/-- Extending a freshly opened final group with the rest of its block. -/
theorem foldl_block : ∀ (tl : List Section) (gs : List (List Section))
    (cur : List Section) (s0 : Section),
    cur.head? = some s0 →
    (∀ s ∈ tl, sameKey s0 s = true) →
    ((cur ++ tl).map (·.sectionNumber)).Nodup →
    (∀ g ∈ gs, ∀ s ∈ tl, (g.head?.map (sameKey · s)).getD false = false) →
    List.foldl routeSection (gs ++ [cur]) tl = gs ++ [cur ++ tl] := by
  intro tl
  induction tl with
  | nil =>
    intro gs cur s0 _ _ _ _
    simp
  | cons s rest ih =>
    intro gs cur s0 hhead hkeys hnodup hdis
    simp only [List.foldl_cons]
    have hs_long : s.isLongForm = true :=
      (sameKey_iff.mp (hkeys s (by simp))).2.1
    have hroute : routeSection (gs ++ [cur]) s = gs ++ [addToGroup cur s] := by
      simp only [routeSection]
      rw [if_pos hs_long]
      exact insertSection_match_last gs cur s s0 hhead (hkeys s (by simp))
        (fun g hg => hdis g hg s (by simp))
    rw [hroute]
    have hadd : addToGroup cur s = cur ++ [s] := by
      apply addToGroup_eq_append
      rw [Bool.eq_false_iff]
      intro hany
      simp only [List.any_eq_true] at hany
      obtain ⟨t, ht, hts⟩ := hany
      rw [List.map_append, List.nodup_append] at hnodup
      apply hnodup.2.2 (List.mem_map_of_mem _ ht)
      simp only [List.map_cons]
      rw [beq_iff_eq] at hts
      rw [hts]
      simp
    rw [hadd]
    have hih := ih gs (cur ++ [s]) s0
      (by
        rw [List.head?_append, hhead]
        rfl)
      (fun u hu => hkeys u (by simp [hu]))
      (by
        rw [show (cur ++ [s]) ++ rest = cur ++ (s :: rest) from by simp]
        exact hnodup)
      (fun g hg u hu => hdis g hg u (by simp [hu]))
    rw [hih]
    simp

/-- Folding one coherent block opens exactly one new group holding it. -/
theorem foldl_one_block (b : List Section) (gs : List (List Section))
    (hb : coherent b) (hdis : ∀ g ∈ gs, keysDisjoint g b) :
    List.foldl routeSection gs b = gs ++ [b] := by
  obtain ⟨s0, tl, rfl, hcase⟩ := hb
  rcases hcase with ⟨hlong, hkeys, hnodup⟩ | ⟨hshort, rfl⟩
  · simp only [List.foldl_cons]
    have h1 : routeSection gs s0 = gs ++ [[s0]] := by
      simp only [routeSection]
      rw [if_pos hlong]
      exact insertSection_no_match gs s0
        (fun g hg => headCond_of_disjoint (hdis g hg) (by simp))
    rw [h1]
    have h2 := foldl_block tl gs [s0] s0 rfl
      (fun u hu => hkeys u (by simp [hu]))
      (by simpa using hnodup)
      (fun g hg u hu => headCond_of_disjoint (hdis g hg) (by simp [hu]))
    rw [h2]
    simp
  · simp only [List.foldl_cons, List.foldl_nil, routeSection]
    rw [if_neg (by simp [hshort])]

/-- Reassembling a flattened list of coherent, key-disjoint blocks yields
exactly those blocks as groups. -/
theorem foldl_blocks : ∀ (bs : List (List Section))
    (gs : List (List Section)),
    (∀ b ∈ bs, coherent b) → bs.Pairwise keysDisjoint →
    (∀ g ∈ gs, ∀ b ∈ bs, keysDisjoint g b) →
    List.foldl routeSection gs bs.flatten = gs ++ bs := by
  intro bs
  induction bs with
  | nil =>
    intro gs _ _ _
    simp
  | cons b bs ih =>
    intro gs hcoh hpw hdis
    rw [show (b :: bs).flatten = b ++ bs.flatten from rfl, List.foldl_append]
    rw [foldl_one_block b gs (hcoh b (by simp))
      (fun g hg => hdis g hg b (by simp))]
    rw [List.pairwise_cons] at hpw
    rw [ih (gs ++ [b]) (fun b' hb' => hcoh b' (by simp [hb'])) hpw.2
      (by
        intro g hg b' hb'
        rcases List.mem_append.mp hg with hg | hg
        · exact hdis g hg b' (by simp [hb'])
        · simp only [List.mem_singleton] at hg
          subst hg
          exact hpw.1 b' hb')]
    simp

/-- Reassembling flattened coherent key-disjoint blocks restores them. -/
theorem reassemble_blocks (bs : List (List Section))
    (hcoh : ∀ b ∈ bs, coherent b) (hpw : bs.Pairwise keysDisjoint) :
    reassemble bs.flatten = bs := by
  have h := foldl_blocks bs [] hcoh hpw (by simp)
  simpa [reassemble] using h

/-! ## Re-encoded blocks are coherent and key disjoint -/

/-- A split table is never empty. -/
theorem patSections_ne_nil (tsid ver : Nat) (cur : Bool) (es : List SvcEntry) :
    patSections tsid ver cur es ≠ [] := by
  rw [patSections_shape]
  cases hq : (if es.isEmpty then [[]] else chunks 253 es) with
  | nil => exact absurd hq (patChunks_ne_nil es)
  | cons a l => simp [patSectionsGo]

/-- A split table is a coherent group. -/
theorem patSections_coherent (tsid ver : Nat) (cur : Bool)
    (es : List SvcEntry) : coherent (patSections tsid ver cur es) := by
  have hfields : ∀ s ∈ patSections tsid ver cur es,
      s.isLongForm = true ∧ s.tableId = 0 ∧ s.tableIdExtension = tsid ∧
      s.versionNumber = ver := by
    intro s hs
    rw [patSections_shape] at hs
    have h := patSectionsGo_fields tsid ver cur _ _ 0 s hs
    exact ⟨h.1, h.2.1, h.2.2.1, h.2.2.2.1⟩
  have hmap : (patSections tsid ver cur es).map (·.sectionNumber)
      = List.range' 0 (patSections tsid ver cur es).length := by
    conv_lhs => rw [patSections_shape]
    rw [patSectionsGo_map_num]
    rw [show (patSections tsid ver cur es).length
        = (if es.isEmpty then [[]] else chunks 253 es).length from by
      rw [patSections_shape]
      exact patSectionsGo_length tsid ver cur _ _ 0]
  cases hq : patSections tsid ver cur es with
  | nil => exact absurd hq (patSections_ne_nil tsid ver cur es)
  | cons s0 tl =>
    have hf0 := hfields s0 (by rw [hq]; simp)
    refine ⟨s0, tl, rfl, Or.inl ⟨hf0.1, ?_, ?_⟩⟩
    · intro s hs
      have hf := hfields s (by rw [hq]; exact hs)
      rw [sameKey_iff]
      exact ⟨hf0.1, hf.1, hf0.2.1.trans hf.2.1.symm,
        hf0.2.2.1.trans hf.2.2.1.symm, hf0.2.2.2.trans hf.2.2.2.symm⟩
    · rw [hq] at hmap
      rw [hmap]
      exact List.nodup_range' _ _

/-- Normalizing a long-form section is a pure CRC strip. -/
theorem stripSec_long {s : Section} (h : s.isLongForm = true) :
    stripSec s = { s with crc32Val := 0 } := by
  simp [stripSec, h]

/-- A re-encoded group is never empty. -/
theorem reEnc_ne_nil {g : List Section} (hc : coherent g) : reEnc g ≠ [] := by
  obtain ⟨s0, tl, rfl, -⟩ := hc
  rw [reEnc_eq]
  split
  · exact patSections_ne_nil _ _ _ _
  · simp

/-- A re-encoded group is coherent. -/
theorem reEnc_coherent {g : List Section} (hc : coherent g) :
    coherent (reEnc g) := by
  rw [reEnc_eq]
  split
  next hreg =>
    obtain ⟨s0, tl, rfl, -⟩ := hc
    exact patSections_coherent _ _ _ _
  next hreg =>
    obtain ⟨s0, tl, rfl, hcase⟩ := hc
    rcases hcase with ⟨hlong, hkeys, hnodup⟩ | ⟨hshort, rfl⟩
    · refine ⟨stripSec s0, tl.map stripSec, by simp, Or.inl ⟨?_, ?_, ?_⟩⟩
      · rw [stripSec_isLongForm]
        exact hlong
      · intro t ht
        obtain ⟨u, hu, rfl⟩ := List.mem_map.mp ht
        have hku := hkeys u hu
        have hul : u.isLongForm = true := (sameKey_iff.mp hku).2.1
        rw [sameKey_iff] at hku ⊢
        rw [stripSec_long hlong, stripSec_long hul]
        exact hku
      · have hmm : ((s0 :: tl).map stripSec).map (·.sectionNumber)
            = (s0 :: tl).map (·.sectionNumber) := by
          rw [List.map_map]
          apply List.map_congr_left
          intro u hu
          have hul : u.isLongForm = true := (sameKey_iff.mp (hkeys u hu)).2.1
          simp only [Function.comp_apply]
          rw [stripSec_long hul]
        rw [hmm]
        exact hnodup
    · exact ⟨stripSec s0, [], by simp, Or.inr ⟨by
        rw [stripSec_isLongForm]; exact hshort, rfl⟩⟩

/-- Every section of a re-encoded group shares the original head's key
fields. -/
theorem reEnc_fields {g : List Section} {s0 : Section} (hc : coherent g)
    (hh : g.head? = some s0) : ∀ t ∈ reEnc g,
      t.isLongForm = s0.isLongForm ∧ t.tableId = s0.tableId ∧
      (s0.isLongForm = true →
        t.tableIdExtension = s0.tableIdExtension ∧
        t.versionNumber = s0.versionNumber) := by
  obtain ⟨s1, tl, rfl, hcase⟩ := hc
  simp only [List.head?_cons, Option.some.injEq] at hh
  subst hh
  intro t ht
  rw [reEnc_eq] at ht
  by_cases hreg : regCond (s1 :: tl) = true
  · rw [if_pos hreg] at ht
    rw [show (match s1 :: tl with
        | [] => ([] : List Section)
        | s0 :: _ =>
          patSections s0.tableIdExtension s0.versionNumber s0.currentNext
            (parseEntries (orderedPayload (s1 :: tl))))
        = patSections s1.tableIdExtension s1.versionNumber s1.currentNext
            (parseEntries (orderedPayload (s1 :: tl))) from rfl] at ht
    have hconj : s1.isLongForm = true ∧ s1.tableId = 0 := by
      simp only [regCond, List.head?_cons] at hreg
      simp only [Bool.and_eq_true] at hreg
      have h2 := hreg.2
      simp only [Option.map, Option.getD, Bool.and_eq_true,
        decide_eq_true_eq, registeredIds, List.mem_singleton] at h2
      exact h2
    rw [patSections_shape] at ht
    have hf := patSectionsGo_fields _ _ _ _ _ 0 t ht
    refine ⟨hf.1.trans hconj.1.symm, hf.2.1.trans hconj.2.symm, fun _ => ?_⟩
    exact ⟨hf.2.2.1, hf.2.2.2.1⟩
  · rw [if_neg hreg] at ht
    rcases hcase with ⟨hlong, hkeys, -⟩ | ⟨hshort, rfl⟩
    · obtain ⟨u, hu, rfl⟩ := List.mem_map.mp ht
      have hku := sameKey_iff.mp (hkeys u hu)
      rw [stripSec_long hku.2.1]
      refine ⟨hku.2.1.trans hlong.symm, hku.2.2.1.symm, fun _ => ?_⟩
      exact ⟨hku.2.2.2.1.symm, hku.2.2.2.2.symm⟩
    · simp only [List.map_cons, List.map_nil, List.mem_singleton] at ht
      subst ht
      rw [stripSec_isLongForm, stripSec_tableId]
      refine ⟨rfl, rfl, fun hl => ?_⟩
      rw [hl] at hshort
      exact absurd hshort (by simp)

/-- Bytes of the ordered payload come from member payloads. -/
theorem orderedPayload_bytes {g : List Section}
    (h : ∀ s ∈ g, ∀ b ∈ s.payload, b < 256) :
    ∀ b ∈ orderedPayload g, b < 256 := by
  intro b hb
  simp only [orderedPayload, List.mem_flatMap, List.mem_filterMap] at hb
  obtain ⟨s, ⟨k, hk, hfind⟩, hbs⟩ := hb
  exact h s (List.mem_of_find?_eq_some hfind) b hbs

/-- Re-encoding one exported group decodes back to the same nodes. -/
theorem decodeGroup_reEnc {g : List Section} (hc : coherent g)
    (hpl : ∀ s ∈ g, ∀ b ∈ s.payload, b < 256) :
    decodeGroup (reEnc g) = decodeGroup g := by
  by_cases hreg : regCond g = true
  · obtain ⟨s0, tl, rfl, -⟩ := hc
    rw [reEnc_eq, if_pos hreg]
    rw [show (match s0 :: tl with
        | [] => ([] : List Section)
        | s1 :: _ =>
          patSections s1.tableIdExtension s1.versionNumber s1.currentNext
            (parseEntries (orderedPayload (s0 :: tl))))
        = patSections s0.tableIdExtension s0.versionNumber s0.currentNext
            (parseEntries (orderedPayload (s0 :: tl))) from rfl]
    rw [decodeGroup_patSections _ _ _ _
      (parseEntries_range _ (orderedPayload_bytes hpl))]
    rw [decodeGroup_eq, if_pos hreg]
    rfl
  · have hreg' : regCond g = false := by
      rw [Bool.eq_false_iff]
      exact hreg
    obtain ⟨s0, tl, rfl, hcase⟩ := hc
    rw [reEnc_eq, if_neg hreg]
    apply decodeGroup_map_stripSec
    · rcases hcase with ⟨hlong, hkeys, -⟩ | ⟨hshort, rfl⟩
      · exact Or.inl (fun s hs => (sameKey_iff.mp (hkeys s hs)).2.1)
      · exact Or.inr ⟨s0, rfl, hshort⟩
    · exact hreg'

/-- Re-encoded groups of disjoint groups stay disjoint. -/
theorem reEnc_pairwise {gs : List (List Section)}
    (hcoh : ∀ g ∈ gs, coherent g) (hpw : gs.Pairwise keysDisjoint) :
    (gs.map reEnc).Pairwise keysDisjoint := by
  rw [List.pairwise_map]
  apply List.Pairwise.imp_of_mem ?_ hpw
  intro g1 g2 hg1 hg2 hdis t ht u hu
  obtain ⟨s1, tl1, he1, -⟩ := hcoh g1 hg1
  obtain ⟨s2, tl2, he2, -⟩ := hcoh g2 hg2
  have hf1 := reEnc_fields (hcoh g1 hg1) (by rw [he1]; rfl) t ht
  have hf2 := reEnc_fields (hcoh g2 hg2) (by rw [he2]; rfl) u hu
  rw [Bool.eq_false_iff]
  intro htu
  rw [sameKey_iff] at htu
  have hl1 : s1.isLongForm = true := hf1.1.symm.trans htu.1
  have hl2 : s2.isLongForm = true := hf2.1.symm.trans htu.2.1
  have hkey : sameKey s1 s2 = true := by
    rw [sameKey_iff]
    refine ⟨hl1, hl2, ?_, ?_, ?_⟩
    · rw [← hf1.2.1, ← hf2.2.1]
      exact htu.2.2.1
    · rw [← (hf1.2.2 hl1).1, ← (hf2.2.2 hl2).1]
      exact htu.2.2.2.1
    · rw [← (hf1.2.2 hl1).2, ← (hf2.2.2 hl2).2]
      exact htu.2.2.2.2
  have hd := hdis s1 (by rw [he1]; simp) s2 (by rw [he2]; simp)
  simp [hd] at hkey

/-! ## Loading the exported nodes back -/

/-- A fully successful load continues over an appended node list. -/
theorem loadNodes_append_ok : ∀ (xs ys : List XNode) (f f1 : SectionFile),
    loadNodes f xs = (f1, none) →
    loadNodes f (xs ++ ys) = loadNodes f1 ys := by
  intro xs
  induction xs with
  | nil =>
    intro ys f f1 h
    simp only [loadNodes] at h
    obtain ⟨rfl, -⟩ := Prod.mk.injEq .. |>.mp h
    rfl
  | cons x xs ih =>
    intro ys f f1 h
    cases he : encodeNode x with
    | error e =>
      simp only [loadNodes, he] at h
      simp at h
    | ok ss =>
      simp only [loadNodes, he] at h
      simp only [List.cons_append, loadNodes, he]
      exact ih ys _ f1 h

/-- Loading the generic fallback nodes of a byte-valid group appends its
normalized sections. -/
theorem loadNodes_generic : ∀ (g : List Section) (f : SectionFile),
    (∀ s ∈ g, ∀ b ∈ s.payload, b < 256) →
    loadNodes f (g.map genericNode) = (⟨f.sections ++ g.map stripSec⟩, none) := by
  intro g
  induction g with
  | nil =>
    intro f _
    simp [loadNodes]
  | cons s g ih =>
    intro f hpl
    simp only [List.map_cons, loadNodes,
      encodeNode_genericNode s (hpl s (by simp))]
    rw [ih ⟨f.sections ++ [stripSec s]⟩ (fun u hu => hpl u (by simp [hu]))]
    simp

/-- Loading the decoded nodes of one group appends its re-encoding. -/
theorem loadNodes_group (g : List Section) (f : SectionFile)
    (hc : coherent g) (hpl : ∀ s ∈ g, ∀ b ∈ s.payload, b < 256) :
    loadNodes f (decodeGroup g) = (⟨f.sections ++ reEnc g⟩, none) := by
  by_cases hreg : regCond g = true
  · obtain ⟨s0, tl, rfl, -⟩ := hc
    rw [decodeGroup_eq, if_pos hreg, reEnc_eq, if_pos hreg]
    rw [show patDecode (s0 :: tl)
        = patNode s0.tableIdExtension s0.versionNumber s0.currentNext
            (parseEntries (orderedPayload (s0 :: tl))) from rfl]
    rw [show (match s0 :: tl with
        | [] => ([] : List Section)
        | s1 :: _ =>
          patSections s1.tableIdExtension s1.versionNumber s1.currentNext
            (parseEntries (orderedPayload (s0 :: tl))))
        = patSections s0.tableIdExtension s0.versionNumber s0.currentNext
            (parseEntries (orderedPayload (s0 :: tl))) from rfl]
    simp only [loadNodes, encodeNode_patNode]
  · rw [decodeGroup_eq, if_neg hreg, reEnc_eq, if_neg hreg]
    exact loadNodes_generic g f hpl

/-- Loading all exported nodes appends exactly the re-encoded blocks. -/
theorem loadNodes_groups : ∀ (gs : List (List Section)) (f : SectionFile),
    (∀ g ∈ gs, coherent g) →
    (∀ g ∈ gs, ∀ s ∈ g, ∀ b ∈ s.payload, b < 256) →
    loadNodes f (gs.flatMap decodeGroup)
      = (⟨f.sections ++ (gs.map reEnc).flatten⟩, none) := by
  intro gs
  induction gs with
  | nil =>
    intro f _ _
    simp [loadNodes]
  | cons g gs ih =>
    intro f hcoh hpl
    rw [show (g :: gs).flatMap decodeGroup
        = decodeGroup g ++ gs.flatMap decodeGroup from by
      simp [List.flatMap_cons]]
    rw [loadNodes_append_ok _ _ _ _
      (loadNodes_group g f (hcoh g (by simp)) (hpl g (by simp)))]
    rw [ih _ (fun g' h => hcoh g' (by simp [h]))
      (fun g' h => hpl g' (by simp [h]))]
    simp

/-- Decoding re-encoded groups gives the same nodes groupwise. -/
theorem flatMap_decode_congr : ∀ (gs : List (List Section)),
    (∀ g ∈ gs, decodeGroup (reEnc g) = decodeGroup g) →
    (gs.map reEnc).flatMap decodeGroup = gs.flatMap decodeGroup := by
  intro gs h
  induction gs with
  | nil => rfl
  | cons g gs ih =>
    simp only [List.map_cons, List.flatMap_cons, h g (by simp)]
    rw [ih (fun g' hg' => h g' (by simp [hg']))]

/-- C2: for a valid SectionFile, both text serializers round-trip the
exported document (`parse(render(doc)) == doc`), and re-loading either
export into an empty SectionFile and re-exporting yields a structurally
equal document — the re-exported markup and object notation are
byte-identical to the originals and both reloads succeed. -/
theorem doc_reload_roundtrip (f : SectionFile)
    (hv : ∀ s ∈ f.sections, Section.valid s = true) :
    parseXMLDoc (toXMLchars f) = some (docOf f) ∧
    (parseJSONDoc (toJSONchars f)).bind jToDoc = some (docOf f) ∧
    (loadXMLtext SectionFile.empty (toXMLchars f)).err = none ∧
    (loadJSONtext SectionFile.empty (toJSONchars f)).err = none ∧
    docOf (loadXMLtext SectionFile.empty (toXMLchars f)).file = docOf f ∧
    docOf (loadJSONtext SectionFile.empty (toJSONchars f)).file = docOf f ∧
    toXMLchars (loadXMLtext SectionFile.empty (toXMLchars f)).file
      = toXMLchars f ∧
    toJSONchars (loadXMLtext SectionFile.empty (toXMLchars f)).file
      = toJSONchars f ∧
    toXMLchars (loadJSONtext SectionFile.empty (toJSONchars f)).file
      = toXMLchars f ∧
    toJSONchars (loadJSONtext SectionFile.empty (toJSONchars f)).file
      = toJSONchars f := by
  have hdocwf := docWF_docOf f hv
  have hx : parseXMLDoc (toXMLchars f) = some (docOf f) := by
    rw [show toXMLchars f = xmlProlog ++ renderNode (docOf f) from rfl]
    exact parseXMLDoc_render (docOf f) hdocwf
  have hjwf := jWF_docToJ (docOf f) hdocwf
  have hj1 : parseJSONDoc (toJSONchars f) = some (docToJ (docOf f)) := by
    rw [show toJSONchars f = renderJ (docToJ (docOf f)) from rfl]
    exact parseJSONDoc_render _ hjwf
  have hjb : (parseJSONDoc (toJSONchars f)).bind jToDoc = some (docOf f) := by
    rw [hj1]
    simpa using jToDoc_docToJ (docOf f)
  have hinv := reassemble_invariant f.sections
  have hpl : ∀ g ∈ reassemble f.sections, ∀ s ∈ g, ∀ b ∈ s.payload,
      b < 256 := by
    intro g hg s hs b hb
    rcases reassemble_mem f.sections [] g hg s hs with ⟨g0, hg0, -⟩ | hmem
    · simp at hg0
    · have hval := hv s hmem
      simp only [Section.valid, Bool.and_eq_true, List.all_eq_true,
        decide_eq_true_eq] at hval
      exact hval.1.2 b hb
  have hstep : loadDoc SectionFile.empty (docOf f)
      = { file := (loadNodes SectionFile.empty
            ((reassemble f.sections).flatMap decodeGroup)).1,
          diags :=
            match (loadNodes SectionFile.empty
              ((reassemble f.sections).flatMap decodeGroup)).2 with
            | none => []
            | some _ => [(Severity.error, "table encoding failed".data)],
          err := (loadNodes SectionFile.empty
            ((reassemble f.sections).flatMap decodeGroup)).2 } := rfl
  rw [loadNodes_groups (reassemble f.sections) SectionFile.empty
    hinv.1 hpl] at hstep
  have hload : loadDoc SectionFile.empty (docOf f)
      = { file := ⟨((reassemble f.sections).map reEnc).flatten⟩,
          diags := [], err := none } := hstep.trans (by rfl)
  have hch : (reassemble ((reassemble f.sections).map reEnc).flatten).flatMap
      decodeGroup = (reassemble f.sections).flatMap decodeGroup := by
    rw [reassemble_blocks ((reassemble f.sections).map reEnc)
      (by
        intro b hb
        obtain ⟨g, hg, rfl⟩ := List.mem_map.mp hb
        exact reEnc_coherent (hinv.1 g hg))
      (reEnc_pairwise hinv.1 hinv.2)]
    exact flatMap_decode_congr _
      (fun g hg => decodeGroup_reEnc (hinv.1 g hg) (hpl g hg))
  have hreload : docOf (loadDoc SectionFile.empty (docOf f)).file = docOf f := by
    rw [hload]
    exact congrArg (fun c => XNode.mk "tsduck".data [] c) hch
  have hxmlload : loadXMLtext SectionFile.empty (toXMLchars f)
      = loadDoc SectionFile.empty (docOf f) := by
    simp only [loadXMLtext, hx]
  have hjsonload : loadJSONtext SectionFile.empty (toJSONchars f)
      = loadDoc SectionFile.empty (docOf f) := by
    simp only [loadJSONtext, hjb]
  refine ⟨hx, hjb, ?_, ?_, ?_, ?_, ?_, ?_, ?_, ?_⟩
  · rw [hxmlload, hload]
  · rw [hjsonload, hload]
  · rw [hxmlload]
    exact hreload
  · rw [hjsonload]
    exact hreload
  · rw [hxmlload]
    unfold toXMLchars
    rw [hreload]
  · rw [hxmlload]
    unfold toJSONchars
    rw [hreload]
  · rw [hjsonload]
    unfold toXMLchars
    rw [hreload]
  · rw [hjsonload]
    unfold toJSONchars
    rw [hreload]

/-- C2 witness: the concrete one-table file round-trips through both
serializers and through reload. -/
theorem doc_reload_roundtrip_witness :
    (∀ s ∈ wFile.sections, Section.valid s = true) ∧
    parseXMLDoc (toXMLchars wFile) = some (docOf wFile) ∧
    toXMLchars (loadXMLtext SectionFile.empty (toXMLchars wFile)).file
      = toXMLchars wFile := by
  have h := doc_reload_roundtrip wFile (by decide)
  exact ⟨by decide, h.1, h.2.2.2.2.2.2.1⟩

/-- C4 witness: a concrete 254-entry table splits into two sections whose
ordered decode restores the entries. -/
theorem pat_split_symmetric_witness :
    (maxEntries < (List.replicate 254 (⟨1, 100⟩ : SvcEntry)).length) ∧
    ((patSections 10 0 true (List.replicate 254 ⟨1, 100⟩)).length
        = (4 * (List.replicate 254 (⟨1, 100⟩ : SvcEntry)).length + 1011) / 1012 ∧
     (patSections 10 0 true (List.replicate 254 ⟨1, 100⟩)).map (·.sectionNumber)
        = List.range (patSections 10 0 true (List.replicate 254 ⟨1, 100⟩)).length ∧
     (∀ s ∈ patSections 10 0 true (List.replicate 254 ⟨1, 100⟩),
        s.lastSectionNumber
          = (patSections 10 0 true (List.replicate 254 ⟨1, 100⟩)).length - 1) ∧
     parseEntries (orderedPayload (patSections 10 0 true (List.replicate 254 ⟨1, 100⟩)))
        = List.replicate 254 ⟨1, 100⟩) :=
  ⟨by decide,
   pat_split_symmetric 10 0 true (List.replicate 254 ⟨1, 100⟩) (by decide)
     (fun e he => by
        have : e = (⟨1, 100⟩ : SvcEntry) := List.eq_of_mem_replicate he
        subst this
        exact ⟨by decide, by decide⟩)⟩

end TS
